import Mathlib

/-!
The program net264, an H.264 byte-stream relay.

A shallow embedding of `net264.c`: the access-unit reader (`read_to_marker`),
the join-point cache (`write_frame` and the classification switch of `main`),
the transmit helpers (`send_block`, `send_frame`) and the two branches of the
event loop of `main` (accept and ingest).

Conventions of the embedding.

* A C array (`s->in`, `s->out`, `s->in_client`) is a total function from the
  index to the cell; an assignment `a[i] = v` is `store a i v`.  Cells that
  were never written keep whatever the function held, as malloc'ed memory does.
* A byte is a natural number; `fgetc` yields values `0 .. 255`.  The code never
  does arithmetic on a byte, it only compares it with constants.
* `stdin` is the list of the bytes that are still to be read.
* `size_t` lengths are natural numbers; the one subtraction of the program,
  `in_len -= 4`, wraps as unsigned arithmetic does (`size_sub`).
* The 8-bit marker counter of `read_to_marker` is a natural number reduced
  modulo 256 after every increment.
* A connection carries a script that says what each call of `send` on it
  does; a call that does not fail takes at least one byte, as a blocking
  `send` on a stream socket does.  `accept` returns what the event says.
-/

namespace Net264

/-! ## Constants -/

/-- Capacity of the incoming buffer: `#define IN_SIZE (1024 * 1024)`. -/
def IN_SIZE : Nat := 1024 * 1024

/-- Capacity of the output buffer: `#define OUT_SIZE (8 * IN_SIZE)`. -/
def OUT_SIZE : Nat := 8 * IN_SIZE

/-- Value of `#define DEFAULT_PORT (5500)`. -/
def DEFAULT_PORT : Int := 5500

/-- Value of `#define DEFAULT_MAX_CLIENTS (10)`. -/
def DEFAULT_MAX_CLIENTS : Int := 10

/-- Value of `EOF` of stdio. -/
def EOF : Int := -1

/-- Number of values of a `size_t` (64-bit). -/
def SIZE_MOD : Nat := 2 ^ 64

/-- Unsigned subtraction on `size_t`: wraps around below zero. -/
def size_sub (a b : Nat) : Nat := (a + SIZE_MOD - b % SIZE_MOD) % SIZE_MOD

/-- The start code `uint8_t marker[4] = { 0x00, 0x00, 0x00, 0x01 }`. -/
def marker : List Nat := [0x00, 0x00, 0x00, 0x01]

/-! ## Memory -/

/-- The assignment `a[i] = v`. -/
def store {α : Type} (a : Nat → α) (i : Nat) (v : α) : Nat → α :=
  fun j => if j = i then v else a j

/-- The call `memcpy(dst + off, src, n)`. -/
def memcpy (dst : Nat → Nat) (off : Nat) (src : Nat → Nat) (n : Nat) : Nat → Nat :=
  fun j => if off ≤ j ∧ j < off + n then src (j - off) else dst j

/-- The cells `a[0], ..., a[n-1]` as a list. -/
def bytes (a : Nat → Nat) : Nat → List Nat
  | 0 => []
  | n + 1 => bytes a n ++ [a n]

/-- The cells `a[off], ..., a[off+n-1]` as a list. -/
def slice (a : Nat → Nat) (off n : Nat) : List Nat :=
  bytes (fun j => a (off + j)) n

/-! ## Program state -/

/-- The record `state_t`, without the listening socket and the port. -/
structure state_t where
  /-- The bytes of `stdin` that have not been read yet. -/
  fin : List Nat
  /-- The incoming buffer `in`. -/
  in_ : Nat → Nat
  in_len : Nat
  /-- The output buffer `out`. -/
  out : Nat → Nat
  out_len : Nat
  out_key_frame_offset : Nat
  max_clients : Nat
  /-- The slot table `in_client`: `0` is an empty slot. -/
  in_client : Nat → Int

/-- The access unit held in the incoming buffer: `in[0 .. in_len)`. -/
def unit_of (s : state_t) : List Nat := bytes s.in_ s.in_len

/-- The contents of the join-point cache: `out[0 .. out_len)`. -/
def cache_of (s : state_t) : List Nat := bytes s.out s.out_len

/-- The header region of the cache: `out[0 .. out_key_frame_offset)`. -/
def header_of (s : state_t) : List Nat := bytes s.out s.out_key_frame_offset

/-! ## The join-point cache -/

/-- The function `write_frame`; its return value is always `0` and no caller
reads it. -/
def write_frame (s : state_t) : state_t :=
  if s.out_len + s.in_len + 4 > OUT_SIZE then s
  else
    let s := { s with out := store s.out s.out_len 0x00, out_len := s.out_len + 1 }
    let s := { s with out := store s.out s.out_len 0x00, out_len := s.out_len + 1 }
    let s := { s with out := store s.out s.out_len 0x00, out_len := s.out_len + 1 }
    let s := { s with out := store s.out s.out_len 0x01, out_len := s.out_len + 1 }
    let s := { s with out := memcpy s.out s.out_len s.in_ s.in_len }
    { s with out_len := s.out_len + s.in_len }

/-- The statement `switch(s.in[0])` of `main`: the cache update for the unit
in the incoming buffer. -/
def cache_update (s : state_t) : state_t :=
  if s.in_ 0 = 0x27 ∨ s.in_ 0 = 0x28 then
    let s := { s with out_len := s.out_key_frame_offset }
    let s := write_frame s
    { s with out_key_frame_offset := s.out_len }
  else if s.in_ 0 = 0x25 then
    let s := { s with out_len := s.out_key_frame_offset }
    write_frame s
  else if s.in_ 0 = 0x21 then
    write_frame s
  else s

/-! ## The access-unit reader -/

/-- The loop `while((c = fgetc(s->fin)) != EOF)` of `read_to_marker` together
with the two statements after it.  The first argument is the unread input,
`i` is the 8-bit marker counter. -/
def read_loop : List Nat → state_t → Nat → Int × state_t
  | [], s, _ =>
    let s := { s with fin := [] }
    if s.in_len > 0 then (0, s) else (EOF, s)
  | c :: rest, s, i =>
    let s := { s with fin := rest, in_ := store s.in_ s.in_len c, in_len := s.in_len + 1 }
    if s.in_len = IN_SIZE then (0, s)
    else if c = 0 then read_loop rest s ((i + 1) % 256)
    else if c = 1 ∧ i = 3 then (0, { s with in_len := size_sub s.in_len 4 })
    else read_loop rest s 0

/-- The function `read_to_marker`: the return value and the state it leaves. -/
def read_to_marker (s : state_t) : Int × state_t :=
  read_loop s.fin { s with in_len := 0 } 0

/-! ## Running the reader over a whole stream -/

/-- The state `main` starts its loop in, for a given input and slot count. -/
def init_state (input : List Nat) (max_clients : Nat) : state_t :=
  { fin := input, in_ := fun _ => 0, in_len := 0, out := fun _ => 0, out_len := 0,
    out_key_frame_offset := 0, max_clients := max_clients, in_client := fun _ => 0 }

/-- Calls `read_to_marker` until it returns `EOF` and collects the units it
leaves, skipping the empty ones as `main` does (`if(s.in_len == 0) continue`).
The result is `none` when `EOF` was not reached within `fuel` calls. -/
def read_units : Nat → state_t → Option (List (List Nat))
  | 0, _ => none
  | fuel + 1, s =>
    let r := read_to_marker s
    if r.1 = EOF then some []
    else if r.2.in_len = 0 then read_units fuel r.2
    else (read_units fuel r.2).map (fun us => unit_of r.2 :: us)

/-- The wire format: every payload preceded by the start code. -/
def frames : List (List Nat) → List Nat
  | [] => []
  | p :: ps => marker ++ p ++ frames ps

/-- The offsets at which the segments of `frames ps` start. -/
def starts : List (List Nat) → List Nat
  | [] => []
  | p :: ps => 0 :: (starts ps).map (fun a => a + (4 + p.length))

/-- The start code occurs in `S` at offset `j`. -/
def marker_at (S : List Nat) (j : Nat) : Prop := (S.drop j).take 4 = marker

instance (S : List Nat) (j : Nat) : Decidable (marker_at S j) := by
  unfold marker_at; infer_instance

/-- Number of `0x00` bytes at the front of a list. -/
def leading_zeros : List Nat → Nat
  | 0 :: xs => leading_zeros xs + 1
  | _ => 0

/-- Number of `0x00` bytes at the end of a list. -/
def trailing_zeros (xs : List Nat) : Nat := leading_zeros xs.reverse

/-! ## Processing a sequence of units -/

/-- The state in which `read_to_marker` has left the unit `u` in the incoming
buffer. -/
def load_unit (s : state_t) (u : List Nat) : state_t :=
  { s with in_ := fun j => u.getD j 0, in_len := u.length }

/-- The cache update of `main` for the unit `u`. -/
def process_unit (s : state_t) (u : List Nat) : state_t :=
  cache_update (load_unit s u)

/-- The cache updates of `main` for the units `us`, in order. -/
def process_units (s : state_t) (us : List (List Nat)) : state_t :=
  us.foldl process_unit s

/-- A unit the classification switch treats as a header (`case 0x27`, `case 0x28`). -/
def is_header (u : List Nat) : Prop := u.head? = some 0x27 ∨ u.head? = some 0x28

/-- A unit the classification switch treats as a key frame (`case 0x25`). -/
def is_sync (u : List Nat) : Prop := u.head? = some 0x25

/-- A unit the classification switch treats as an ordinary frame (`case 0x21`). -/
def is_ordinary (u : List Nat) : Prop := u.head? = some 0x21

instance (u : List Nat) : Decidable (is_header u) := by unfold is_header; infer_instance

instance (u : List Nat) : Decidable (is_sync u) := by unfold is_sync; infer_instance

instance (u : List Nat) : Decidable (is_ordinary u) := by unfold is_ordinary; infer_instance

/-! ## Connections -/

/-- What one call of `send` on a connection does: it fails (`r < 0`), or the
kernel takes between one byte and `k + 1` bytes of those offered. -/
inductive send_result where
  | error : send_result
  | took (k : Nat) : send_result

/-- One accepted connection: the bytes delivered to the peer so far, the number
of `send` calls made on it, what every call of `send` does, and whether
`close` was called. -/
structure conn where
  sent : List Nat
  calls : Nat
  script : Nat → send_result
  closed : Bool

/-- The connections of the process, by descriptor. -/
abbrev net := Int → conn

/-- The loop of `send_block` on one connection: `off` is how far `src` has
advanced, `len` what is left to send; the result is the connection and the
`len` the loop stops with.  Every round sends at least one byte, so `len`
rounds are enough; the first argument bounds the rounds. -/
def send_loop : Nat → conn → (Nat → Nat) → Nat → Nat → conn × Nat
  | 0, c, _, _, len => (c, len)
  | fuel + 1, c, src, off, len =>
    if len = 0 then (c, len)
    else
      match c.script c.calls with
      | send_result.error => ({ c with calls := c.calls + 1 }, len)
      | send_result.took k =>
        let r := min (k + 1) len
        send_loop fuel { c with sent := c.sent ++ slice src off r, calls := c.calls + 1 }
          src (off + r) (len - r)

/-- The function `send_block`. -/
def send_block (w : net) (sock : Int) (src : Nat → Nat) (len : Nat) : Int × net :=
  let r := send_loop len (w sock) src 0 len
  (if r.2 ≠ 0 then -1 else 0, Function.update w sock r.1)

/-- The function `send_frame`. -/
def send_frame (s : state_t) (w : net) (sock : Int) : Int × net :=
  let r := send_block w sock (fun j => marker.getD j 0) 4
  if r.1 ≠ 0 then (-1, r.2) else send_block r.2 sock s.in_ s.in_len

/-- The call `close(sock)`. -/
def close (w : net) (sock : Int) : net :=
  Function.update w sock { w sock with closed := true }

/-! ## The event loop -/

/-- What one round of `select` and `accept` brings: which of the two
descriptors are ready, the value `accept` returns when it is called in this
round, and the behaviour of the connection it returns. -/
structure event where
  sock_ready : Bool
  fin_ready : Bool
  accepted : Int
  peer : Nat → send_result

/-- The call `accept(s.in_sock, NULL, NULL)`: a fresh connection under the
descriptor returned, nothing when it fails. -/
def accept (w : net) (e : event) : net :=
  if e.accepted < 0 then w
  else Function.update w e.accepted { sent := [], calls := 0, script := e.peer, closed := false }

/-- The loop `for(i = 0; i < s.max_clients; i++) if(s.in_client[i] == 0) break;`
started at `i` with `n` slots left; the result is the final `i`. -/
def find_slot (in_client : Nat → Int) : Nat → Nat → Nat
  | 0, i => i
  | n + 1, i => if in_client i = 0 then i else find_slot in_client n (i + 1)

/-- The branch `if(FD_ISSET(s.in_sock, &rd))` of `main`.  The first component
is `true` when the branch ends in `continue`. -/
def accept_branch (e : event) (s : state_t) (w : net) : Bool × state_t × net :=
  let i := find_slot s.in_client s.max_clients 0
  if i = s.max_clients then
    let w := accept w e
    let w := if e.accepted ≥ 0 then close w e.accepted else w
    (true, s, w)
  else
    let w := accept w e
    let s := { s with in_client := store s.in_client i e.accepted }
    if s.in_client i < 0 then
      (true, { s with in_client := store s.in_client i 0 }, w)
    else
      let r := send_block w (s.in_client i) s.out s.out_len
      if r.1 < 0 then
        (false, { s with in_client := store s.in_client i 0 }, close r.2 (s.in_client i))
      else (false, s, r.2)

/-- The loop `for(i = 0; i < s.max_clients; i++)` that writes the frame to
every client, started at `i` with `n` slots left. -/
def broadcast_loop : Nat → Nat → state_t → net → state_t × net
  | 0, _, s, w => (s, w)
  | n + 1, i, s, w =>
    if s.in_client i = 0 then broadcast_loop n (i + 1) s w
    else
      let r := send_frame s w (s.in_client i)
      if r.1 < 0 then
        broadcast_loop n (i + 1) { s with in_client := store s.in_client i 0 }
          (close r.2 (s.in_client i))
      else broadcast_loop n (i + 1) s r.2

/-- The branch `if(FD_ISSET(fileno(s.fin), &rd))` of `main`; `none` is `break`. -/
def ingest_branch (s : state_t) (w : net) : Option (state_t × net) :=
  let r := read_to_marker s
  if r.1 = EOF then none
  else if r.2.in_len = 0 then some (r.2, w)
  else
    let s := cache_update r.2
    some (broadcast_loop s.max_clients 0 s w)

/-- One round of the loop `while(1)` of `main`; `none` is `break`. -/
def main_iteration (e : event) (s : state_t) (w : net) : Option (state_t × net) :=
  let a := if e.sock_ready then accept_branch e s w else (false, s, w)
  if a.1 then some a.2
  else if e.fin_ready then ingest_branch a.2.1 a.2.2
  else some a.2

/-- The output buffer after `write_frame` has stored the start code and the
unit at `out_len`. -/
def framed_out (s : state_t) : Nat → Nat :=
  memcpy (store (store (store (store s.out s.out_len 0x00) (s.out_len + 1) 0x00)
    (s.out_len + 2) 0x00) (s.out_len + 3) 0x01) (s.out_len + 4) s.in_ s.in_len

/-- The cache shapes the specification names: empty, one header frame, or one
header frame, one key frame and any number of ordinary frames. -/
def spec_cache_shape (c : List Nat) : Prop :=
  c = []
  ∨ (∃ h, is_header h ∧ c = marker ++ h)
  ∨ (∃ h k os, is_header h ∧ is_sync k ∧ (∀ o ∈ os, is_ordinary o)
      ∧ c = marker ++ h ++ (marker ++ k) ++ frames os)

/-- The cache of `s` holds the frames of the header units `hs` (its header
region), then of the key frames `ks` (at most one), then of the ordinary
frames `os`. -/
def cache_frames (s : state_t) (hs ks os : List (List Nat)) : Prop :=
  (∀ h ∈ hs, is_header h) ∧ (∀ k ∈ ks, is_sync k) ∧ ks.length ≤ 1
  ∧ (∀ o ∈ os, is_ordinary o)
  ∧ cache_of s = frames hs ++ frames ks ++ frames os
  ∧ header_of s = frames hs
  ∧ s.out_len = (frames hs ++ frames ks ++ frames os).length
  ∧ s.out_key_frame_offset = (frames hs).length

/-- A header unit of `IN_SIZE - 5` bytes, the longest `read_to_marker` returns
for a unit that is ended by a start code. -/
def big_header : List Nat := 0x27 :: List.replicate (IN_SIZE - 6) 0xFF

/-- Eight long headers and one ordinary frame: they all fit, and leave three
free bytes in the output buffer. -/
def nearly_full_units : List (List Nat) := List.replicate 8 big_header ++ [[0x21]]

/-- The byte `c`, read after the bytes `xs` of the same call, completes a start
code for `read_to_marker`: it is `0x01` and the number of `0x00` bytes right
before it is 3 modulo 256. -/
def detects (xs : List Nat) (c : Nat) : Prop := c = 1 ∧ trailing_zeros xs % 256 = 3

instance (xs : List Nat) (c : Nat) : Decidable (detects xs c) := by
  unfold detects; infer_instance

/-- No byte of `ys`, read after the bytes `xs` of the same call, completes a
start code for `read_to_marker`. -/
def no_detection (xs ys : List Nat) : Prop :=
  ∀ zs c, (zs ++ [c]) <+: ys → ¬ detects (xs ++ zs) c

/-- What holds inside the loop of `read_to_marker` after the bytes `xs` were
read in this call: they fill `in[0 .. in_len)`, and the counter is the number
of `0x00` bytes that end `xs`, modulo 256. -/
def reader_inv (xs : List Nat) (s : state_t) (i : Nat) : Prop :=
  s.in_len = xs.length ∧ bytes s.in_ xs.length = xs ∧ i = trailing_zeros xs % 256

/-- In the input `p ++ frames ps` (a payload whose start code was already
read, and the segments after it) the start code occurs only where the
segments of `ps` start. -/
def tail_ok (p : List Nat) (ps : List (List Nat)) : Prop :=
  ∀ j, marker_at (p ++ frames ps) j → ∃ a ∈ starts ps, j = p.length + a

/-- The populated slots `i, ..., i+n-1` of a table hold pairwise different
descriptors (the descriptors of open connections are different). -/
def range_distinct (tbl : Nat → Int) (i n : Nat) : Prop :=
  ∀ j, j < i + n → ∀ k, k < i + n → (i ≤ j ∧ i ≤ k ∧ j ≠ k ∧ tbl j ≠ 0 → tbl j ≠ tbl k)

instance (tbl : Nat → Int) (i n : Nat) : Decidable (range_distinct tbl i n) := by
  unfold range_distinct; infer_instance

/-- A connection on which every `send` fails. -/
def dead_conn : conn :=
  { sent := [], calls := 0, script := fun _ => send_result.error, closed := false }

/-- A connection on which every `send` takes up to three bytes. -/
def live_conn : conn :=
  { sent := [], calls := 0, script := fun _ => send_result.took 2, closed := false }

/-- Three connections: the one under descriptor 5 is dead, the others alive. -/
def demo_net : net := fun fd => if fd = 5 then dead_conn else live_conn

/-- Three slots, holding the descriptors 5, none and 7, with the unit `21 09`
in the incoming buffer and the frame of the header `27` in the cache. -/
def demo_state : state_t :=
  { fin := [], in_ := fun j => [0x21, 9].getD j 0, in_len := 2,
    out := fun j => [0, 0, 0, 1, 0x27].getD j 0, out_len := 5, out_key_frame_offset := 5,
    max_clients := 3, in_client := fun k => if k = 0 then 5 else if k = 2 then 7 else 0 }

/-- The connection `c` after `close`. -/
def closed_conn (c : conn) : conn := { c with closed := true }

/-- What the broadcast loop over the slots `i, ..., i+n-1` has done when it
ends in `r`: only the slot table changed; slots outside the range and
connections not in the range are untouched; an empty slot stays empty; a
populated slot keeps its connection when `send_frame` on it returns `0`, and is
cleared, its connection closed, when not. -/
def broadcast_spec (n i : Nat) (s : state_t) (w : net) (r : state_t × net) : Prop :=
  r.1 = { s with in_client := r.1.in_client }
  ∧ (∀ k, (k < i ∨ i + n ≤ k) → r.1.in_client k = s.in_client k)
  ∧ (∀ fd, (∀ k, i ≤ k → k < i + n → s.in_client k = 0 ∨ s.in_client k ≠ fd) → r.2 fd = w fd)
  ∧ (∀ k, i ≤ k → k < i + n → s.in_client k = 0 → r.1.in_client k = 0)
  ∧ (∀ k, i ≤ k → k < i + n → s.in_client k ≠ 0 →
      ((send_frame s w (s.in_client k)).1 = 0 →
        r.1.in_client k = s.in_client k
        ∧ r.2 (s.in_client k) = (send_frame s w (s.in_client k)).2 (s.in_client k))
      ∧ ((send_frame s w (s.in_client k)).1 ≠ 0 →
        r.1.in_client k = 0
        ∧ r.2 (s.in_client k)
            = closed_conn ((send_frame s w (s.in_client k)).2 (s.in_client k))))

/-- An input of `IN_SIZE` bytes `0x21`, then a start code and the unit `21 07`. -/
def oversized_input : List Nat :=
  List.replicate (IN_SIZE - 1) 0x21 ++ 0x21 :: (marker ++ [0x21, 7])

/-- An inbound connection that `accept` returns under the descriptor 9. -/
def demo_event : event :=
  { sock_ready := true, fin_ready := false, accepted := 9,
    peer := fun _ => send_result.took 2 }

/-- The rounds of the loop of `main` for a sequence of events, until `break`
or until the events are used up. -/
def run_main : List event → state_t → net → state_t × net
  | [], s, w => (s, w)
  | e :: es, s, w =>
    match main_iteration e s w with
    | none => (s, w)
    | some r => run_main es r.1 r.2

/-- The number of populated slots of the table. -/
def populated (s : state_t) : Nat :=
  ((List.range s.max_clients).filter (fun k => decide (s.in_client k ≠ 0))).length

/-- The header units of a sequence of units, in order. -/
def header_units (us : List (List Nat)) : List (List Nat) :=
  us.filter (fun u => decide (is_header u))

/-- The indices of `out` at which one call of `write_frame` stores a byte: the
four assignments `s->out[s->out_len++] = ...` and the `in_len` cells that
`memcpy(s->out + s->out_len, s->in, s->in_len)` fills; none when the frame is
refused. -/
def write_frame_indices (s : state_t) : List Nat :=
  if s.out_len + s.in_len + 4 > OUT_SIZE then []
  else [s.out_len, s.out_len + 1, s.out_len + 2, s.out_len + 3]
    ++ List.range' (s.out_len + 4) s.in_len

/-! ## Configuration -/

/-- What one call of `getopt(argc, argv, "p:m:")` returns, with the value of
`atoi(optarg)` for the two options that take an argument. -/
inductive option_t where
  | p (v : Int) : option_t
  | m (v : Int) : option_t
  | unknown : option_t

/-- The loop `while((i = getopt(argc, argv, "p:m:")) != -1)` of `main` on the
pair `(s.port, s.max_clients)`; `none` is `exit_usage()`. -/
def parse_options : List option_t → Int × Int → Option (Int × Int)
  | [], c => some c
  | option_t.p v :: r, c => parse_options r (v, c.2)
  | option_t.m v :: r, c => parse_options r (c.1, v)
  | option_t.unknown :: _, _ => none

/-- The configuration part of `main`: the defaults, the option loop, the test
`optind < argc` (`extra` says whether arguments are left over) and the test
`s.max_clients <= 0`.  The result is `(s.port, s.max_clients)`; `none` is
`exit_usage()`. -/
def configure (opts : List option_t) (extra : Bool) : Option (Int × Int) :=
  match parse_options opts (DEFAULT_PORT, DEFAULT_MAX_CLIENTS) with
  | none => none
  | some c => if extra then none else if c.2 ≤ 0 then none else some c

/-- The lines that `exit_usage` prints. -/
def usage_text : List String :=
  ["Usage: net264 [-p port] [-m max_clients]", "", "Port defaults to 5500.",
    "Max Clients defaults to 100"]

/-- The default number of clients that the usage text states. -/
def usage_max_clients : Int := 100

/-! ## The units of a run and the stream of a consumer -/

/-- The unit that the ingest branch broadcasts in a round that starts it in the
state `s`: the unit `read_to_marker` leaves, when it does not return `EOF` and
the unit is not empty; nothing when the input is not ready. -/
def ingest_units (fin_ready : Bool) (s : state_t) : List (List Nat) :=
  if fin_ready then
    if (read_to_marker s).1 = EOF then []
    else if (read_to_marker s).2.in_len = 0 then []
    else [unit_of (read_to_marker s).2]
  else []

/-- The unit that one round of the loop of `main` broadcasts, if any. -/
def round_units (e : event) (s : state_t) (w : net) : List (List Nat) :=
  if (if e.sock_ready then accept_branch e s w else (false, s, w)).1 then []
  else ingest_units e.fin_ready
    (if e.sock_ready then accept_branch e s w else (false, s, w)).2.1

/-- The units that the rounds of `run_main` broadcast, in order. -/
def units_read : List event → state_t → net → List (List Nat)
  | [], _, _ => []
  | e :: es, s, w =>
    match main_iteration e s w with
    | none => []
    | some r => round_units e s w ++ units_read es r.1 r.2

/-- The slot `j` of the table holds the connection `fd`, no other slot does,
and no `send` on that connection ever fails. -/
def holds_conn (s : state_t) (w : net) (j : Nat) (fd : Int) : Prop :=
  j < s.max_clients ∧ s.in_client j = fd ∧ fd ≠ 0
  ∧ (∀ k, k < s.max_clients → k ≠ j → s.in_client k ≠ fd)
  ∧ (∀ n, (w fd).script n ≠ send_result.error)

/-- A round in which a connection arrives under the descriptor 9 and the input
is ready as well. -/
def join_event : event :=
  { sock_ready := true, fin_ready := true, accepted := 9,
    peer := fun _ => send_result.took 2 }

/-- A round in which only the input is ready. -/
def ingest_event : event :=
  { sock_ready := false, fin_ready := true, accepted := -1,
    peer := fun _ => send_result.error }

/-- The state of `demo_state` with three framed units and a last unit without
a start code after it still to be read. -/
def demo_stream_state : state_t :=
  { demo_state with fin := frames [[0x27, 1], [0x99, 2], [0x21, 3]] }

/-! ## Memory lemmas -/

theorem length_bytes (a : Nat → Nat) (n : Nat) : (bytes a n).length = n := by
  induction n with
  | zero => rfl
  | succ n ih => simp [bytes, ih]

theorem bytes_congr {a b : Nat → Nat} {n : Nat} (h : ∀ j, j < n → a j = b j) :
    bytes a n = bytes b n := by
  induction n with
  | zero => rfl
  | succ n ih =>
    simp only [bytes]
    rw [ih (fun j hj => h j (by omega)), h n (by omega)]

theorem bytes_store_of_le (a : Nat → Nat) {n i : Nat} (v : Nat) (h : n ≤ i) :
    bytes (store a i v) n = bytes a n :=
  bytes_congr (fun j hj => by simp [store]; omega)

theorem bytes_store_succ (a : Nat → Nat) (n v : Nat) :
    bytes (store a n v) (n + 1) = bytes a n ++ [v] := by
  simp [bytes, bytes_store_of_le a v (Nat.le_refl n), store]

theorem bytes_add (a : Nat → Nat) (m n : Nat) :
    bytes a (m + n) = bytes a m ++ slice a m n := by
  induction n with
  | zero => simp [slice, bytes]
  | succ n ih =>
    rw [← Nat.add_assoc]
    simp only [bytes, slice] at *
    rw [ih, List.append_assoc]

theorem bytes_memcpy (dst src : Nat → Nat) (off n : Nat) :
    bytes (memcpy dst off src n) (off + n) = bytes dst off ++ bytes src n := by
  rw [bytes_add]
  congr 1
  · exact bytes_congr (fun j hj => by simp [memcpy]; omega)
  · exact bytes_congr (fun j hj => by simp [memcpy, hj])

theorem bytes_memcpy_of_le (dst src : Nat → Nat) {k off : Nat} (n : Nat) (h : k ≤ off) :
    bytes (memcpy dst off src n) k = bytes dst k :=
  bytes_congr (fun j hj => by simp [memcpy]; omega)

theorem bytes_getD (u : List Nat) : bytes (fun j => u.getD j 0) u.length = u := by
  apply List.ext_getElem
  · simp [length_bytes]
  · intro i h1 h2
    have key : ∀ (a : Nat → Nat) (n i : Nat) (h : i < (bytes a n).length), (bytes a n)[i] = a i := by
      intro a n
      induction n with
      | zero => intro i h; simp [bytes] at h
      | succ n ih =>
        intro i h
        simp only [bytes]
        by_cases hi : i < n
        · rw [List.getElem_append_left (by simpa [length_bytes] using hi)]
          exact ih i _
        · have : i = n := by simp [length_bytes] at h; omega
          subst this
          simp [List.getElem_append_right, length_bytes]
    rw [key]
    simp [List.getElem?_eq_getElem h2]

/-! ## The cache: `write_frame` and the classification switch -/

theorem write_frame_eq (s : state_t) :
    write_frame s = if s.out_len + s.in_len + 4 > OUT_SIZE then s
      else { s with out := framed_out s, out_len := s.out_len + 4 + s.in_len } := by
  unfold write_frame framed_out
  split <;> rfl

theorem bytes_framed_out (s : state_t) :
    bytes (framed_out s) (s.out_len + 4 + s.in_len)
      = bytes s.out s.out_len ++ marker ++ bytes s.in_ s.in_len := by
  unfold framed_out
  rw [bytes_memcpy]
  congr 1
  have h4 : s.out_len + 4 = (s.out_len + 3) + 1 := rfl
  rw [h4, bytes_store_succ]
  have h3 : s.out_len + 3 = (s.out_len + 2) + 1 := rfl
  rw [h3, bytes_store_succ]
  have h2 : s.out_len + 2 = (s.out_len + 1) + 1 := rfl
  rw [h2, bytes_store_succ, bytes_store_succ]
  simp [marker]

theorem bytes_framed_out_of_le (s : state_t) {k : Nat} (h : k ≤ s.out_len) :
    bytes (framed_out s) k = bytes s.out k := by
  unfold framed_out
  rw [bytes_memcpy_of_le _ _ _ (by omega), bytes_store_of_le _ _ (by omega),
    bytes_store_of_le _ _ (by omega), bytes_store_of_le _ _ (by omega),
    bytes_store_of_le _ _ (by omega)]

@[simp] theorem load_unit_fin (s : state_t) (u : List Nat) : (load_unit s u).fin = s.fin := rfl

@[simp] theorem load_unit_in_len (s : state_t) (u : List Nat) :
    (load_unit s u).in_len = u.length := rfl

@[simp] theorem load_unit_out (s : state_t) (u : List Nat) : (load_unit s u).out = s.out := rfl

@[simp] theorem load_unit_out_len (s : state_t) (u : List Nat) :
    (load_unit s u).out_len = s.out_len := rfl

@[simp] theorem load_unit_offset (s : state_t) (u : List Nat) :
    (load_unit s u).out_key_frame_offset = s.out_key_frame_offset := rfl

@[simp] theorem load_unit_in_client (s : state_t) (u : List Nat) :
    (load_unit s u).in_client = s.in_client := rfl

@[simp] theorem load_unit_max_clients (s : state_t) (u : List Nat) :
    (load_unit s u).max_clients = s.max_clients := rfl

@[simp] theorem cache_of_load_unit (s : state_t) (u : List Nat) :
    cache_of (load_unit s u) = cache_of s := rfl

@[simp] theorem header_of_load_unit (s : state_t) (u : List Nat) :
    header_of (load_unit s u) = header_of s := rfl

theorem load_unit_head (s : state_t) (u : List Nat) (b : Nat) (h : u.head? = some b) :
    (load_unit s u).in_ 0 = b := by
  cases u with
  | nil => simp at h
  | cons a t => simp at h; simp [load_unit, h]

@[simp] theorem unit_of_load_unit (s : state_t) (u : List Nat) : unit_of (load_unit s u) = u := by
  unfold unit_of load_unit
  exact bytes_getD u

/-- The switch on a header unit: truncate to the header region, append the
frame when it fits, move the offset to the end. -/
theorem cache_update_header (s : state_t) (hb : s.in_ 0 = 0x27 ∨ s.in_ 0 = 0x28) :
    cache_update s =
      if s.out_key_frame_offset + s.in_len + 4 > OUT_SIZE then
        { s with out_len := s.out_key_frame_offset }
      else
        { s with out := framed_out { s with out_len := s.out_key_frame_offset },
                 out_len := s.out_key_frame_offset + 4 + s.in_len,
                 out_key_frame_offset := s.out_key_frame_offset + 4 + s.in_len } := by
  simp only [cache_update, if_pos hb, write_frame_eq]
  split <;> rfl

/-- The switch on a key frame: truncate to the header region, append the frame
when it fits. -/
theorem cache_update_sync (s : state_t) (hb : s.in_ 0 = 0x25) :
    cache_update s =
      if s.out_key_frame_offset + s.in_len + 4 > OUT_SIZE then
        { s with out_len := s.out_key_frame_offset }
      else
        { s with out := framed_out { s with out_len := s.out_key_frame_offset },
                 out_len := s.out_key_frame_offset + 4 + s.in_len } := by
  have h1 : ¬ (s.in_ 0 = 0x27 ∨ s.in_ 0 = 0x28) := by omega
  simp only [cache_update, if_neg h1, if_pos hb, write_frame_eq]

/-- The switch on an ordinary frame: append the frame when it fits. -/
theorem cache_update_ordinary (s : state_t) (hb : s.in_ 0 = 0x21) :
    cache_update s =
      if s.out_len + s.in_len + 4 > OUT_SIZE then s
      else { s with out := framed_out s, out_len := s.out_len + 4 + s.in_len } := by
  have h1 : ¬ (s.in_ 0 = 0x27 ∨ s.in_ 0 = 0x28) := by omega
  have h2 : ¬ (s.in_ 0 = 0x25) := by omega
  simp only [cache_update, if_neg h1, if_neg h2, if_pos hb, write_frame_eq]

/-- The switch on any other unit: nothing. -/
theorem cache_update_other (s : state_t) (h1 : s.in_ 0 ≠ 0x27) (h2 : s.in_ 0 ≠ 0x28)
    (h3 : s.in_ 0 ≠ 0x25) (h4 : s.in_ 0 ≠ 0x21) : cache_update s = s := by
  have h : ¬ (s.in_ 0 = 0x27 ∨ s.in_ 0 = 0x28) := by omega
  simp only [cache_update, if_neg h, if_neg h3, if_neg h4]

/-- A header unit that fits at the end of the header region is appended there;
the tail region is dropped and the header region grows by the frame. -/
theorem process_header_fits (s : state_t) (u : List Nat) (hu : is_header u)
    (hfit : s.out_key_frame_offset + u.length + 4 ≤ OUT_SIZE) :
    cache_of (process_unit s u) = header_of s ++ marker ++ u
    ∧ header_of (process_unit s u) = header_of s ++ marker ++ u
    ∧ (process_unit s u).out_len = s.out_key_frame_offset + 4 + u.length
    ∧ (process_unit s u).out_key_frame_offset = s.out_key_frame_offset + 4 + u.length := by
  have hb : (load_unit s u).in_ 0 = 0x27 ∨ (load_unit s u).in_ 0 = 0x28 := by
    rcases hu with h | h
    · exact Or.inl (load_unit_head s u _ h)
    · exact Or.inr (load_unit_head s u _ h)
  have hcache := bytes_framed_out { load_unit s u with out_len := s.out_key_frame_offset }
  have hu2 := unit_of_load_unit s u
  unfold unit_of at hu2
  simp only [load_unit_in_len, load_unit_out] at hcache hu2
  rw [hu2] at hcache
  have hfit2 : ¬ (s.out_key_frame_offset + u.length + 4 > OUT_SIZE) := by omega
  rw [process_unit, cache_update_header _ hb]
  simp only [load_unit_in_len, load_unit_offset, if_neg hfit2, cache_of, header_of]
  exact ⟨hcache, hcache, trivial, trivial⟩

theorem in_0_of_is_header (s : state_t) (u : List Nat) (hu : is_header u) :
    (load_unit s u).in_ 0 = 0x27 ∨ (load_unit s u).in_ 0 = 0x28 := by
  rcases hu with h | h
  · exact Or.inl (load_unit_head s u _ h)
  · exact Or.inr (load_unit_head s u _ h)

/-- A key frame that fits at the end of the header region replaces the tail
region; the header region is untouched. -/
theorem process_sync_fits (s : state_t) (u : List Nat) (hu : is_sync u)
    (hfit : s.out_key_frame_offset + u.length + 4 ≤ OUT_SIZE) :
    cache_of (process_unit s u) = header_of s ++ marker ++ u
    ∧ header_of (process_unit s u) = header_of s
    ∧ (process_unit s u).out_len = s.out_key_frame_offset + 4 + u.length
    ∧ (process_unit s u).out_key_frame_offset = s.out_key_frame_offset := by
  have hb : (load_unit s u).in_ 0 = 0x25 := load_unit_head s u _ hu
  have hcache := bytes_framed_out { load_unit s u with out_len := s.out_key_frame_offset }
  have hhead := bytes_framed_out_of_le { load_unit s u with out_len := s.out_key_frame_offset }
    (Nat.le_refl s.out_key_frame_offset)
  have hu2 := unit_of_load_unit s u
  unfold unit_of at hu2
  simp only [load_unit_in_len, load_unit_out] at hcache hu2 hhead
  rw [hu2] at hcache
  have hfit2 : ¬ (s.out_key_frame_offset + u.length + 4 > OUT_SIZE) := by omega
  rw [process_unit, cache_update_sync _ hb]
  simp only [load_unit_in_len, load_unit_offset, if_neg hfit2, cache_of, header_of]
  exact ⟨hcache, hhead, trivial, trivial⟩

/-- An ordinary frame that fits is appended to the cache. -/
theorem process_ordinary_fits (s : state_t) (u : List Nat) (hu : is_ordinary u)
    (hfit : s.out_len + u.length + 4 ≤ OUT_SIZE)
    (hle : s.out_key_frame_offset ≤ s.out_len) :
    cache_of (process_unit s u) = cache_of s ++ marker ++ u
    ∧ header_of (process_unit s u) = header_of s
    ∧ (process_unit s u).out_len = s.out_len + 4 + u.length
    ∧ (process_unit s u).out_key_frame_offset = s.out_key_frame_offset := by
  have hb : (load_unit s u).in_ 0 = 0x21 := load_unit_head s u _ hu
  have hcache := bytes_framed_out (load_unit s u)
  have hhead := bytes_framed_out_of_le (load_unit s u) hle
  have hu2 := unit_of_load_unit s u
  unfold unit_of at hu2
  simp only [load_unit_in_len, load_unit_out, load_unit_out_len] at hcache hu2 hhead
  rw [hu2] at hcache
  have hfit2 : ¬ (s.out_len + u.length + 4 > OUT_SIZE) := by omega
  rw [process_unit, cache_update_ordinary _ hb]
  simp only [load_unit_in_len, load_unit_offset, load_unit_out_len, if_neg hfit2, cache_of,
    header_of]
  exact ⟨hcache, hhead, trivial, trivial⟩

/-- A header or key frame that does not fit at the end of the header region:
only `out_len` changes, to the end of the header region. -/
theorem process_truncating_overflow (s : state_t) (u : List Nat) (hu : is_header u ∨ is_sync u)
    (hover : s.out_key_frame_offset + u.length + 4 > OUT_SIZE) :
    process_unit s u = { load_unit s u with out_len := s.out_key_frame_offset } := by
  rcases hu with hu | hu
  · rw [process_unit, cache_update_header _ (in_0_of_is_header s u hu)]
    simp only [load_unit_in_len, load_unit_offset, if_pos hover]
  · rw [process_unit, cache_update_sync _ (load_unit_head s u _ hu)]
    simp only [load_unit_in_len, load_unit_offset, if_pos hover]

theorem out_len_truncating_overflow (s : state_t) (u : List Nat) (hu : is_header u ∨ is_sync u)
    (hover : s.out_key_frame_offset + u.length + 4 > OUT_SIZE) :
    (process_unit s u).out_len = s.out_key_frame_offset := by
  rw [process_truncating_overflow s u hu hover]

/-- An ordinary frame that does not fit changes nothing. -/
theorem process_ordinary_overflow (s : state_t) (u : List Nat) (hu : is_ordinary u)
    (hover : s.out_len + u.length + 4 > OUT_SIZE) :
    process_unit s u = load_unit s u := by
  rw [process_unit, cache_update_ordinary _ (load_unit_head s u _ hu)]
  simp only [load_unit_in_len, load_unit_out_len, if_pos hover]

/-- A unit of no recognised role changes nothing. -/
theorem process_other (s : state_t) (u : List Nat) (h1 : ¬ is_header u) (h2 : ¬ is_sync u)
    (h3 : ¬ is_ordinary u) : process_unit s u = load_unit s u := by
  rw [process_unit]
  apply cache_update_other
  all_goals
    intro h
    cases u with
    | nil => simp [load_unit] at h
    | cons a t =>
      simp [load_unit] at h
      simp [is_header, is_sync, is_ordinary] at h1 h2 h3
      omega

/-! ## The cache scenario of the specification -/

theorem header_of_empty (s : state_t) (hk : s.out_key_frame_offset = 0) : header_of s = [] := by
  simp [header_of, hk, bytes]

theorem length_marker : marker.length = 4 := rfl

/-- The cache after a header, a key frame and two ordinary frames that fit,
from the empty cache. -/
theorem scenario_four (s : state_t) (h1 k1 o1 o2 : List Nat)
    (hk : s.out_key_frame_offset = 0)
    (hh1 : is_header h1) (hk1 : is_sync k1) (ho1 : is_ordinary o1) (ho2 : is_ordinary o2)
    (hfit : (frames [h1, k1, o1, o2]).length ≤ OUT_SIZE) :
    cache_of (process_units s [h1, k1, o1, o2]) = frames [h1, k1, o1, o2]
    ∧ header_of (process_units s [h1, k1, o1, o2]) = marker ++ h1
    ∧ (process_units s [h1, k1, o1, o2]).out_key_frame_offset = 4 + h1.length := by
  simp only [frames, List.length_append, length_marker, List.length_nil] at hfit
  obtain ⟨c1, e1, l1, f1⟩ := process_header_fits s h1 hh1 (by omega)
  obtain ⟨c2, e2, l2, f2⟩ := process_sync_fits (process_unit s h1) k1 hk1 (by omega)
  obtain ⟨c3, e3, l3, f3⟩ := process_ordinary_fits (process_unit (process_unit s h1) k1) o1 ho1
    (by omega) (by omega)
  obtain ⟨c4, e4, l4, f4⟩ := process_ordinary_fits
    (process_unit (process_unit (process_unit s h1) k1) o1) o2 ho2 (by omega) (by omega)
  simp only [process_units, List.foldl]
  rw [header_of_empty s hk, List.nil_append] at c1 e1
  refine ⟨?_, ?_, ?_⟩
  · rw [c4, c3, c2, e1]; simp [frames]
  · rw [e4, e3, e2, e1]
  · omega

/-- The cache after the five units `h1, k1, o1, o2, k2`, from the empty cache. -/
theorem scenario_five (s : state_t) (h1 k1 k2 o1 o2 : List Nat)
    (hk : s.out_key_frame_offset = 0)
    (hh1 : is_header h1) (hk1 : is_sync k1) (hk2 : is_sync k2)
    (ho1 : is_ordinary o1) (ho2 : is_ordinary o2)
    (hfit : (frames [h1, k1, o1, o2]).length ≤ OUT_SIZE)
    (hfit2 : (frames [h1, k2]).length ≤ OUT_SIZE) :
    cache_of (process_units s [h1, k1, o1, o2, k2]) = frames [h1, k2]
    ∧ header_of (process_units s [h1, k1, o1, o2, k2]) = marker ++ h1
    ∧ (process_units s [h1, k1, o1, o2, k2]).out_key_frame_offset = 4 + h1.length := by
  obtain ⟨_, e4, f4⟩ := scenario_four s h1 k1 o1 o2 hk hh1 hk1 ho1 ho2 hfit
  simp only [frames, List.length_append, length_marker, List.length_nil] at hfit2
  have hsplit : process_units s [h1, k1, o1, o2, k2]
      = process_unit (process_units s [h1, k1, o1, o2]) k2 := by
    simp [process_units]
  obtain ⟨c5, e5, _, f5⟩ := process_sync_fits (process_units s [h1, k1, o1, o2]) k2 hk2
    (by omega)
  rw [hsplit]
  refine ⟨?_, ?_, ?_⟩
  · rw [c5, e4]; simp [frames]
  · rw [e5, e4]
  · omega

/-- Claim C2.  From the empty cache, a header `h1`, a key frame `k1` and two
ordinary frames `o1`, `o2` that fit leave the cache equal to the four frames in
order; a further key frame `k2` that fits after the header leaves exactly the
frames of `h1` and `k2`, and the header offset stays at `4 + |h1|`. -/
theorem cache_scenario_sync_replaces_tail (s : state_t) (h1 k1 k2 o1 o2 : List Nat)
    (he : s.out_len = 0) (hk : s.out_key_frame_offset = 0)
    (hh1 : is_header h1) (hk1 : is_sync k1) (hk2 : is_sync k2)
    (ho1 : is_ordinary o1) (ho2 : is_ordinary o2)
    (hfit : (frames [h1, k1, o1, o2]).length ≤ OUT_SIZE)
    (hfit2 : (frames [h1, k2]).length ≤ OUT_SIZE) :
    cache_of s = []
    ∧ cache_of (process_units s [h1, k1, o1, o2])
        = marker ++ h1 ++ (marker ++ k1) ++ (marker ++ o1) ++ (marker ++ o2)
    ∧ (process_units s [h1, k1, o1, o2]).out_key_frame_offset = 4 + h1.length
    ∧ cache_of (process_unit (process_units s [h1, k1, o1, o2]) k2)
        = marker ++ h1 ++ (marker ++ k2)
    ∧ (process_unit (process_units s [h1, k1, o1, o2]) k2).out_key_frame_offset
        = 4 + h1.length := by
  obtain ⟨c4, _, f4⟩ := scenario_four s h1 k1 o1 o2 hk hh1 hk1 ho1 ho2 hfit
  obtain ⟨c5, _, f5⟩ := scenario_five s h1 k1 k2 o1 o2 hk hh1 hk1 hk2 ho1 ho2 hfit hfit2
  have hsplit : process_units s [h1, k1, o1, o2, k2]
      = process_unit (process_units s [h1, k1, o1, o2]) k2 := by
    simp [process_units]
  rw [hsplit] at c5 f5
  refine ⟨by simp [cache_of, he, bytes], ?_, f4, ?_, f5⟩
  · rw [c4]; simp [frames]
  · rw [c5]; simp [frames]

theorem cache_scenario_sync_replaces_tail_witness :
    cache_of (init_state [] 1) = []
    ∧ cache_of (process_units (init_state [] 1) [[0x27, 1], [0x25, 2], [0x21, 3], [0x21, 4]])
        = marker ++ [0x27, 1] ++ (marker ++ [0x25, 2]) ++ (marker ++ [0x21, 3])
          ++ (marker ++ [0x21, 4])
    ∧ (process_units (init_state [] 1)
        [[0x27, 1], [0x25, 2], [0x21, 3], [0x21, 4]]).out_key_frame_offset = 4 + 2
    ∧ cache_of (process_unit (process_units (init_state [] 1)
        [[0x27, 1], [0x25, 2], [0x21, 3], [0x21, 4]]) [0x25, 9])
        = marker ++ [0x27, 1] ++ (marker ++ [0x25, 9])
    ∧ (process_unit (process_units (init_state [] 1)
        [[0x27, 1], [0x25, 2], [0x21, 3], [0x21, 4]]) [0x25, 9]).out_key_frame_offset = 4 + 2 :=
  cache_scenario_sync_replaces_tail (init_state [] 1) [0x27, 1] [0x25, 2] [0x25, 9] [0x21, 3]
    [0x21, 4] rfl rfl (by decide) (by decide) (by decide) (by decide) (by decide)
    (by decide) (by decide)

/-- Claim C3, as the code has it.  A header unit that fits after the header
region is appended to it: the cache becomes the old header region followed by
the frame of the unit, the tail region is dropped, and the header offset moves
to the new end.  After `h1, k1, o1, o2, k2` the cache therefore holds the frames
of `h1` and of the new header. -/
theorem header_unit_extends_header_region (s : state_t) (h : List Nat) (hh : is_header h)
    (hfit : s.out_key_frame_offset + h.length + 4 ≤ OUT_SIZE) :
    cache_of (process_unit s h) = header_of s ++ (marker ++ h)
    ∧ (process_unit s h).out_key_frame_offset = s.out_key_frame_offset + (4 + h.length)
    ∧ (process_unit s h).out_len = (process_unit s h).out_key_frame_offset
    ∧ ∀ (s0 : state_t) (h1 k1 k2 o1 o2 : List Nat),
        s = process_units s0 [h1, k1, o1, o2, k2] → s0.out_key_frame_offset = 0 →
        is_header h1 → is_sync k1 → is_sync k2 → is_ordinary o1 → is_ordinary o2 →
        (frames [h1, k1, o1, o2]).length ≤ OUT_SIZE → (frames [h1, k2]).length ≤ OUT_SIZE →
        cache_of (process_unit s h) = marker ++ h1 ++ (marker ++ h) := by
  obtain ⟨c, _, l, f⟩ := process_header_fits s h hh hfit
  refine ⟨by rw [c, List.append_assoc], by omega, by omega, ?_⟩
  intro s0 h1 k1 k2 o1 o2 hs hk hh1 hk1 hk2 ho1 ho2 hf1 hf2
  obtain ⟨_, e5, _⟩ := scenario_five s0 h1 k1 k2 o1 o2 hk hh1 hk1 hk2 ho1 ho2 hf1 hf2
  rw [c, hs, e5, List.append_assoc]

theorem header_unit_extends_header_region_witness :
    cache_of (process_unit (process_units (init_state [] 1)
        [[0x27, 1], [0x25, 2], [0x21, 3], [0x21, 4], [0x25, 9]]) [0x28, 7])
      = marker ++ [0x27, 1] ++ (marker ++ [0x28, 7]) :=
  (header_unit_extends_header_region (process_units (init_state [] 1)
      [[0x27, 1], [0x25, 2], [0x21, 3], [0x21, 4], [0x25, 9]]) [0x28, 7]
    (by decide) (by decide)).2.2.2 (init_state [] 1) [0x27, 1] [0x25, 2] [0x25, 9] [0x21, 3]
    [0x21, 4] rfl rfl (by decide) (by decide) (by decide) (by decide) (by decide)
    (by decide) (by decide)

/-- Claim C3 as stated fails: after the header `[0x27]` the header `[0x28]`
does not leave the cache equal to its own frame, the first header stays. -/
theorem header_replaces_cache_counterexample :
    is_header [0x28] ∧ 4 + [0x28].length ≤ OUT_SIZE
    ∧ cache_of (process_unit (process_units (init_state [] 1) [[0x27]]) [0x28])
        = marker ++ [0x27] ++ (marker ++ [0x28])
    ∧ cache_of (process_unit (process_units (init_state [] 1) [[0x27]]) [0x28])
        ≠ marker ++ [0x28]
    ∧ (process_unit (process_units (init_state [] 1) [[0x27]]) [0x28]).out_key_frame_offset
        ≠ 4 + [0x28].length := by
  decide

/-! ## The shape of the cache -/

theorem frames_append (a b : List (List Nat)) : frames (a ++ b) = frames a ++ frames b := by
  induction a with
  | nil => rfl
  | cons p ps ih => simp [frames, ih]

theorem frames_singleton (u : List Nat) : frames [u] = marker ++ u := by
  simp [frames]

theorem cache_frames_empty (s : state_t) (he : s.out_len = 0)
    (hk : s.out_key_frame_offset = 0) : cache_frames s [] [] [] := by
  simp [cache_frames, cache_of, header_of, he, hk, bytes, frames]

/-- One cache update keeps the shape: header frames, then at most one key
frame, then ordinary frames, all of them units that were processed. -/
theorem cache_frames_step (s : state_t) (u : List Nat) (us hs ks os : List (List Nat))
    (hinv : cache_frames s hs ks os) (hsub : (hs ++ ks ++ os).Sublist us) :
    ∃ hs1 ks1 os1, cache_frames (process_unit s u) hs1 ks1 os1
      ∧ (hs1 ++ ks1 ++ os1).Sublist (us ++ [u]) := by
  obtain ⟨ih, ik, il, io, ic, ie, ilen, ioff⟩ := hinv
  have hhs : hs.Sublist us :=
    List.Sublist.trans (by rw [List.append_assoc]; exact List.sublist_append_left _ _) hsub
  have hle : s.out_key_frame_offset ≤ s.out_len := by
    rw [ilen, ioff]; simp only [List.length_append]; omega
  have hsame : (hs ++ ks ++ os).Sublist (us ++ [u]) :=
    List.Sublist.trans hsub (List.sublist_append_left _ _)
  have hhs1 : hs.Sublist (us ++ [u]) := List.Sublist.trans hhs (List.sublist_append_left _ _)
  have happ : (hs ++ [u]).Sublist (us ++ [u]) := List.Sublist.append hhs (List.Sublist.refl _)
  by_cases hh : is_header u
  · by_cases hfit : s.out_key_frame_offset + u.length + 4 ≤ OUT_SIZE
    · obtain ⟨c, e, l, f⟩ := process_header_fits s u hh hfit
      refine ⟨hs ++ [u], [], [], ⟨?_, by simp, by simp, by simp, ?_, ?_, ?_, ?_⟩, by simpa using happ⟩
      · intro h hm
        rcases List.mem_append.1 hm with hm | hm
        · exact ih h hm
        · rw [List.mem_singleton.1 hm]; exact hh
      · rw [c, ie]; simp [frames_append, frames]
      · rw [e, ie]; simp [frames_append, frames]
      · rw [l, ioff]; simp only [frames_append, frames, List.length_append, length_marker, List.length_nil, List.append_nil]; omega
      · rw [f, ioff]; simp only [frames_append, frames, List.length_append, length_marker, List.length_nil, List.append_nil]; omega
    · rw [process_truncating_overflow s u (Or.inl hh) (by omega)]
      refine ⟨hs, [], [], ⟨ih, by simp, by simp, by simp, ?_, ?_, ?_, ?_⟩, by simpa using hhs1⟩
      · show bytes s.out s.out_key_frame_offset = _
        simpa [frames, header_of] using ie
      · exact ie
      · show s.out_key_frame_offset = _
        simpa [frames] using ioff
      · exact ioff
  · by_cases hk : is_sync u
    · by_cases hfit : s.out_key_frame_offset + u.length + 4 ≤ OUT_SIZE
      · obtain ⟨c, e, l, f⟩ := process_sync_fits s u hk hfit
        refine ⟨hs, [u], [], ⟨ih, ?_, by simp, by simp, ?_, ?_, ?_, ?_⟩, by simpa using happ⟩
        · intro k hm
          rw [List.mem_singleton.1 hm]; exact hk
        · rw [c, ie]; simp [frames]
        · rw [e, ie]
        · rw [l, ioff]; simp only [frames, List.length_append, length_marker, List.length_nil, List.append_nil]; omega
        · rw [f, ioff]
      · rw [process_truncating_overflow s u (Or.inr hk) (by omega)]
        refine ⟨hs, [], [], ⟨ih, by simp, by simp, by simp, ?_, ?_, ?_, ?_⟩, by simpa using hhs1⟩
        · show bytes s.out s.out_key_frame_offset = _
          simpa [frames, header_of] using ie
        · exact ie
        · show s.out_key_frame_offset = _
          simpa [frames] using ioff
        · exact ioff
    · by_cases ho : is_ordinary u
      · by_cases hfit : s.out_len + u.length + 4 ≤ OUT_SIZE
        · obtain ⟨c, e, l, f⟩ := process_ordinary_fits s u ho hfit hle
          refine ⟨hs, ks, os ++ [u], ⟨ih, ik, il, ?_, ?_, ?_, ?_, ?_⟩, ?_⟩
          · intro o hm
            rcases List.mem_append.1 hm with hm | hm
            · exact io o hm
            · rw [List.mem_singleton.1 hm]; exact ho
          · rw [c, ic]; simp [frames_append, frames]
          · rw [e, ie]
          · rw [l, ilen]; simp only [frames_append, frames, List.length_append, length_marker, List.length_nil, List.append_nil]; omega
          · rw [f, ioff]
          · rw [← List.append_assoc]
            exact List.Sublist.append hsub (List.Sublist.refl _)
        · rw [process_ordinary_overflow s u ho (by omega)]
          exact ⟨hs, ks, os, ⟨ih, ik, il, io, ic, ie, ilen, ioff⟩, hsame⟩
      · rw [process_other s u hh hk ho]
        exact ⟨hs, ks, os, ⟨ih, ik, il, io, ic, ie, ilen, ioff⟩, hsame⟩

theorem process_units_snoc (s : state_t) (us : List (List Nat)) (u : List Nat) :
    process_units s (us ++ [u]) = process_unit (process_units s us) u := by
  simp [process_units, List.foldl_append]

/-- After any sequence of units from the empty cache the cache has the shape
`cache_frames`, made of units of the sequence in their order. -/
theorem cache_frames_process_units (s : state_t) (he : s.out_len = 0)
    (hk : s.out_key_frame_offset = 0) (us : List (List Nat)) :
    ∃ hs ks os, cache_frames (process_units s us) hs ks os ∧ (hs ++ ks ++ os).Sublist us := by
  induction us using List.reverseRecOn with
  | nil => exact ⟨[], [], [], cache_frames_empty s he hk, by simp⟩
  | append_singleton us u ih =>
    obtain ⟨hs, ks, os, hinv, hsub⟩ := ih
    rw [process_units_snoc]
    exact cache_frames_step (process_units s us) u us hs ks os hinv hsub

/-- Claim C4, as the code has it.  After any sequence of units processed from
the empty cache, the cache is the frames of zero or more header units (the
header region, whose length is the header offset), then of at most one key
frame, then of zero or more ordinary frames; these units are units of the
sequence, in their order of arrival. -/
theorem cache_shape_invariant (s : state_t) (he : s.out_len = 0)
    (hk : s.out_key_frame_offset = 0) (us : List (List Nat)) :
    ∃ hs ks os : List (List Nat),
      (∀ h ∈ hs, is_header h) ∧ (∀ k ∈ ks, is_sync k) ∧ ks.length ≤ 1
      ∧ (∀ o ∈ os, is_ordinary o)
      ∧ cache_of (process_units s us) = frames hs ++ frames ks ++ frames os
      ∧ (process_units s us).out_key_frame_offset = (frames hs).length
      ∧ (hs ++ ks ++ os).Sublist us := by
  obtain ⟨hs, ks, os, ⟨ih, ik, il, io, ic, _, _, ioff⟩, hsub⟩ :=
    cache_frames_process_units s he hk us
  exact ⟨hs, ks, os, ih, ik, il, io, ic, ioff, hsub⟩

theorem cache_shape_invariant_witness :
    ∃ hs ks os : List (List Nat),
      (∀ h ∈ hs, is_header h) ∧ (∀ k ∈ ks, is_sync k) ∧ ks.length ≤ 1
      ∧ (∀ o ∈ os, is_ordinary o)
      ∧ cache_of (process_units (init_state [] 1) [[0x21, 1], [0x27], [0x28], [0x25], [0x21]])
          = frames hs ++ frames ks ++ frames os
      ∧ (process_units (init_state [] 1)
          [[0x21, 1], [0x27], [0x28], [0x25], [0x21]]).out_key_frame_offset = (frames hs).length
      ∧ (hs ++ ks ++ os).Sublist [[0x21, 1], [0x27], [0x28], [0x25], [0x21]] :=
  cache_shape_invariant (init_state [] 1) rfl rfl [[0x21, 1], [0x27], [0x28], [0x25], [0x21]]

theorem length_pos_of_head (u : List Nat) (b : Nat) (h : u.head? = some b) : 1 ≤ u.length := by
  cases u with
  | nil => simp at h
  | cons a t => simp

/-- Claim C4 as stated fails: one ordinary frame processed from the empty cache
is stored, and the cache then holds an ordinary unit without any header. -/
theorem cache_shape_counterexample :
    cache_of (process_units (init_state [] 1) [[0x21]]) = marker ++ [0x21]
    ∧ ¬ spec_cache_shape (cache_of (process_units (init_state [] 1) [[0x21]])) := by
  have hc : cache_of (process_units (init_state [] 1) [[0x21]]) = marker ++ [0x21] := by decide
  refine ⟨hc, ?_⟩
  rw [hc]
  rintro (h | ⟨h, hh, e⟩ | ⟨h, k, os, hh, hk, _, e⟩)
  · simp [marker] at h
  · have e2 : h = [0x21] := by simpa [marker] using e.symm
    rw [e2] at hh
    revert hh
    decide
  · have hl := congrArg List.length e
    have h1 : 1 ≤ h.length := by
      rcases hh with hh | hh
      · exact length_pos_of_head h _ hh
      · exact length_pos_of_head h _ hh
    have h2 : 1 ≤ k.length := length_pos_of_head k _ hk
    simp only [List.length_append, length_marker, List.length_singleton] at hl
    omega

/-- Claim C5, as the code has it.  When the append is refused (`write_frame`
finds `out_len + in_len + 4 > OUT_SIZE`), no byte of the output buffer is
written and the header offset and the header region stay as they were.  For
an ordinary frame `out_len` stays as well, so the whole cache is unchanged.
For a header or a key frame the check comes after the truncation, so
`out_len` is left at the header offset: the cache is cut back to its header
region. -/
theorem cache_overflow_effect (s : state_t) (u : List Nat)
    (hu : is_header u ∨ is_sync u ∨ is_ordinary u)
    (hover : (if is_ordinary u then s.out_len else s.out_key_frame_offset)
      + u.length + 4 > OUT_SIZE) :
    (process_unit s u).out = s.out
    ∧ (process_unit s u).out_key_frame_offset = s.out_key_frame_offset
    ∧ header_of (process_unit s u) = header_of s
    ∧ (process_unit s u).out_len
        = (if is_ordinary u then s.out_len else s.out_key_frame_offset)
    ∧ (is_ordinary u → cache_of (process_unit s u) = cache_of s)
    ∧ (¬ is_ordinary u → cache_of (process_unit s u) = header_of s) := by
  by_cases ho : is_ordinary u
  · rw [if_pos ho] at hover
    rw [process_ordinary_overflow s u ho hover]
    simp [ho]
  · rw [if_neg ho] at hover
    have hu2 : is_header u ∨ is_sync u := by
      rcases hu with h | h | h
      · exact Or.inl h
      · exact Or.inr h
      · exact absurd h ho
    rw [process_truncating_overflow s u hu2 hover]
    simp [ho, header_of, cache_of]

theorem length_big_header : big_header.length = IN_SIZE - 5 := by
  rw [big_header, List.length_cons, List.length_replicate]
  rfl

theorem is_header_big_header : is_header big_header := Or.inl rfl

/-- Repeating a header unit that fits every time moves `out_len` and the
header offset forward by one frame each time. -/
theorem process_units_replicate_header (H : List Nat) (hH : is_header H) (n : Nat) :
    ∀ s : state_t, s.out_len = s.out_key_frame_offset →
      s.out_key_frame_offset + n * (4 + H.length) ≤ OUT_SIZE →
      (process_units s (List.replicate n H)).out_key_frame_offset
          = s.out_key_frame_offset + n * (4 + H.length)
      ∧ (process_units s (List.replicate n H)).out_len
          = s.out_key_frame_offset + n * (4 + H.length) := by
  induction n with
  | zero =>
    intro s hs _
    simp [process_units, hs]
  | succ n ih =>
    intro s hs hfit
    have hmul : (n + 1) * (4 + H.length) = n * (4 + H.length) + (4 + H.length) :=
      Nat.succ_mul n (4 + H.length)
    obtain ⟨_, _, l, f⟩ := process_header_fits s H hH (by omega)
    obtain ⟨a, b⟩ := ih (process_unit s H) (by omega) (by omega)
    have hstep : process_units s (List.replicate (n + 1) H)
        = process_units (process_unit s H) (List.replicate n H) := by
      simp [process_units, List.replicate_succ]
    rw [hstep, a, b]
    omega

/-- Eight long headers and one ordinary frame from the empty cache: the header
region ends eight bytes, the cache three bytes before the end of the output
buffer. -/
theorem nearly_full_lens :
    (process_units (init_state [] 1) nearly_full_units).out_key_frame_offset = OUT_SIZE - 8
    ∧ (process_units (init_state [] 1) nearly_full_units).out_len = OUT_SIZE - 3 := by
  have hlen := length_big_header
  have hfit8 : (init_state [] 1).out_key_frame_offset + 8 * (4 + big_header.length) ≤ OUT_SIZE := by
    rw [hlen]; decide
  obtain ⟨f8, l8⟩ := process_units_replicate_header big_header is_header_big_header 8
    (init_state [] 1) rfl hfit8
  have e8 : (init_state [] 1).out_key_frame_offset + 8 * (4 + big_header.length) = 8388600 := by
    rw [hlen]; decide
  rw [e8] at f8 l8
  obtain ⟨_, _, l9, f9⟩ := process_ordinary_fits
    (process_units (init_state [] 1) (List.replicate 8 big_header)) [0x21] rfl
    (by rw [l8]; decide) (by rw [l8, f8])
  have hsplit : process_units (init_state [] 1) nearly_full_units
      = process_unit (process_units (init_state [] 1) (List.replicate 8 big_header)) [0x21] :=
    process_units_snoc _ _ _
  rw [← hsplit] at l9 f9
  rw [l8] at l9
  rw [f8] at f9
  exact ⟨f9.trans (by decide), l9.trans (by decide)⟩

theorem cache_overflow_effect_witness :
    (process_unit (process_units (init_state [] 1) nearly_full_units) [0x25, 1, 2, 3, 4]).out_len
        = (process_units (init_state [] 1) nearly_full_units).out_key_frame_offset
    ∧ (process_unit (process_units (init_state [] 1) nearly_full_units) [0x21, 1, 2, 3, 4]).out_len
        = (process_units (init_state [] 1) nearly_full_units).out_len :=
  ⟨(cache_overflow_effect (process_units (init_state [] 1) nearly_full_units)
      [0x25, 1, 2, 3, 4] (by decide)
      (by rw [if_neg (by decide), nearly_full_lens.1]; decide)).2.2.2.1.trans
        (if_neg (by decide)),
   (cache_overflow_effect (process_units (init_state [] 1) nearly_full_units)
      [0x21, 1, 2, 3, 4] (by decide)
      (by rw [if_pos (by decide), nearly_full_lens.2]; decide)).2.2.2.1.trans
        (if_pos (by decide))⟩

/-- Claim C5 as stated fails.  After eight long headers and one ordinary frame
(all of which fit) a key frame of five bytes does not fit after the header
region; processing it cuts `out_len` back to the header offset, so the
ordinary frame is lost from the cache although nothing was appended. -/
theorem cache_overflow_counterexample :
    is_sync [0x25, 1, 2, 3, 4]
    ∧ (process_units (init_state [] 1) nearly_full_units).out_key_frame_offset
        + [0x25, 1, 2, 3, 4].length + 4 > OUT_SIZE
    ∧ (process_units (init_state [] 1) nearly_full_units).out_len = OUT_SIZE - 3
    ∧ (process_unit (process_units (init_state [] 1) nearly_full_units)
        [0x25, 1, 2, 3, 4]).out_len = OUT_SIZE - 8
    ∧ cache_of (process_unit (process_units (init_state [] 1) nearly_full_units)
        [0x25, 1, 2, 3, 4]) ≠ cache_of (process_units (init_state [] 1) nearly_full_units) := by
  obtain ⟨f9, l9⟩ := nearly_full_lens
  have hover : (process_units (init_state [] 1) nearly_full_units).out_key_frame_offset
      + [0x25, 1, 2, 3, 4].length + 4 > OUT_SIZE := by
    rw [f9]; decide
  have hk : is_sync [0x25, 1, 2, 3, 4] := rfl
  have hl10 : (process_unit (process_units (init_state [] 1) nearly_full_units)
      [0x25, 1, 2, 3, 4]).out_len = OUT_SIZE - 8 :=
    (out_len_truncating_overflow _ _ (Or.inr hk) hover).trans f9
  refine ⟨hk, hover, l9, hl10, ?_⟩
  intro h
  have := congrArg List.length h
  simp only [cache_of, length_bytes] at this
  rw [l9, hl10] at this
  exact absurd this (by decide)

/-! ## The reader: the loop of `read_to_marker` -/

theorem trailing_zeros_snoc_zero (xs : List Nat) :
    trailing_zeros (xs ++ [0]) = trailing_zeros xs + 1 := by
  simp [trailing_zeros, leading_zeros]

theorem trailing_zeros_snoc_ne (xs : List Nat) (c : Nat) (h : c ≠ 0) :
    trailing_zeros (xs ++ [c]) = 0 := by
  cases c with
  | zero => exact absurd rfl h
  | succ n => simp [trailing_zeros, leading_zeros]

theorem leading_zeros_pos (ys : List Nat) (h : 1 ≤ leading_zeros ys) :
    ∃ t, ys = 0 :: t ∧ leading_zeros ys = leading_zeros t + 1 := by
  cases ys with
  | nil => simp [leading_zeros] at h
  | cons a t =>
    cases a with
    | zero => exact ⟨t, rfl, by simp [leading_zeros]⟩
    | succ n => simp [leading_zeros] at h

theorem marker_suffix_of_trailing_zeros (xs : List Nat) (h : 3 ≤ trailing_zeros xs) :
    marker <:+ xs ++ [1] := by
  unfold trailing_zeros at h
  obtain ⟨t1, e1, l1⟩ := leading_zeros_pos xs.reverse (by omega)
  obtain ⟨t2, e2, l2⟩ := leading_zeros_pos t1 (by omega)
  obtain ⟨t3, e3, _⟩ := leading_zeros_pos t2 (by omega)
  have hx : xs = t3.reverse ++ [0, 0, 0] := by
    have := congrArg List.reverse e1
    rw [List.reverse_reverse, e2, e3] at this
    simpa using this
  refine ⟨t3.reverse, ?_⟩
  rw [hx]
  simp [marker]

theorem size_sub_four (n : Nat) (h : n + 4 ≤ IN_SIZE) : size_sub (n + 4) 4 = n := by
  have h1 : IN_SIZE = 1048576 := rfl
  have h2 : SIZE_MOD = 18446744073709551616 := rfl
  unfold size_sub
  rw [h2]
  omega

/-- One round of the loop that neither fills the buffer nor completes a start
code: the byte is stored and the loop goes on. -/
theorem read_loop_step (c : Nat) (ys xs : List Nat) (s : state_t) (i : Nat)
    (hinv : reader_inv xs s i) (hlen : xs.length + 1 < IN_SIZE)
    (hno : ¬ detects xs c) :
    read_loop (c :: ys) s i
        = read_loop ys { s with fin := ys, in_ := store s.in_ s.in_len c, in_len := s.in_len + 1 }
            (trailing_zeros (xs ++ [c]) % 256)
    ∧ reader_inv (xs ++ [c])
        { s with fin := ys, in_ := store s.in_ s.in_len c, in_len := s.in_len + 1 }
        (trailing_zeros (xs ++ [c]) % 256) := by
  obtain ⟨hl, hb, hi⟩ := hinv
  have hfull : ¬ (s.in_len + 1 = IN_SIZE) := by omega
  constructor
  · rw [read_loop]
    simp only [if_neg hfull]
    by_cases hc : c = 0
    · subst hc
      rw [if_pos rfl, trailing_zeros_snoc_zero, hi]
      congr 1
      omega
    · rw [if_neg hc, trailing_zeros_snoc_ne xs c hc]
      have hmark : ¬ (c = 1 ∧ i = 3) := by
        rintro ⟨h1, h3⟩
        exact hno ⟨h1, by omega⟩
      rw [if_neg hmark]
  · refine ⟨by simp [hl], ?_, rfl⟩
    simp only [List.length_append, List.length_singleton]
    rw [hl, bytes_store_succ, hb]

theorem suffix_infix_append (xs zs ys : List Nat) (h : marker <:+ xs ++ zs) :
    marker <:+: xs ++ (zs ++ ys) := by
  obtain ⟨t, ht⟩ := h
  exact ⟨t, ys, by rw [ht, List.append_assoc]⟩

/-- The reader completes a start code only where the start code occurs. -/
theorem no_detection_of_no_marker (xs ys : List Nat) (h : ¬ marker <:+: xs ++ ys) :
    no_detection xs ys := by
  intro zs c hpre hdet
  obtain ⟨t, ht⟩ := hpre
  obtain ⟨hc, h3⟩ := hdet
  have hsuf : marker <:+ xs ++ (zs ++ [c]) := by
    rw [hc, ← List.append_assoc]
    exact marker_suffix_of_trailing_zeros (xs ++ zs) (by omega)
  apply h
  rw [← ht]
  exact suffix_infix_append xs (zs ++ [c]) t hsuf

theorem no_detection_nil (xs : List Nat) : no_detection xs [] := by
  intro zs c hpre _
  have := List.IsPrefix.length_le hpre
  simp at this

theorem no_detection_cons (xs ys : List Nat) (c : Nat) (h : no_detection xs (c :: ys)) :
    ¬ detects xs c ∧ no_detection (xs ++ [c]) ys := by
  constructor
  · have := h [] c (by simp)
    simpa using this
  · intro zs d hpre
    have := h (c :: zs) d (by simpa using hpre)
    simpa using this

/-- The loop over a run `ys` of input in which no start code is completed and
which does not fill the buffer: all of `ys` is stored, and the loop goes on
with the rest of the input. -/
theorem read_loop_run (rest : List Nat) :
    ∀ (ys xs : List Nat) (s : state_t) (i : Nat), reader_inv xs s i →
      xs.length + ys.length < IN_SIZE → no_detection xs ys →
      ∃ (f : List Nat) (m : Nat → Nat),
        read_loop (ys ++ rest) s i
          = read_loop rest { s with fin := f, in_ := m, in_len := xs.length + ys.length }
              (trailing_zeros (xs ++ ys) % 256)
        ∧ bytes m (xs.length + ys.length) = xs ++ ys := by
  intro ys
  induction ys with
  | nil =>
    intro xs s i hinv _ _
    obtain ⟨hl, hb, hi⟩ := hinv
    refine ⟨s.fin, s.in_, ?_, by simpa using hb⟩
    simp only [List.nil_append, List.length_nil, Nat.add_zero, List.append_nil]
    rw [← hl, ← hi]
  | cons c ys ih =>
    intro xs s i hinv hlen hno
    simp only [List.length_cons] at hlen
    obtain ⟨hno1, hno2⟩ := no_detection_cons xs ys c hno
    obtain ⟨hstep, hinv1⟩ := read_loop_step c (ys ++ rest) xs s i hinv (by omega) hno1
    obtain ⟨f, m, hrun, hbytes⟩ := ih (xs ++ [c]) _ _ hinv1
      (by simp only [List.length_append, List.length_cons, List.length_nil]; omega) hno2
    refine ⟨f, m, ?_, ?_⟩
    · rw [List.cons_append, hstep, hrun]
      simp only [List.length_append, List.length_singleton, List.append_assoc,
        List.singleton_append, List.length_cons, List.length_nil]
      congr 2
      omega
    · simp only [List.length_append, List.length_singleton, List.append_assoc,
        List.singleton_append, List.length_cons, List.length_nil] at hbytes
      simp only [List.length_cons]
      rw [← hbytes]
      congr 1
      omega

theorem reader_inv_start (s : state_t) : reader_inv [] { s with in_len := 0 } 0 := by
  simp [reader_inv, bytes, trailing_zeros, leading_zeros]

theorem bytes_prefix (m : Nat → Nat) (a b : Nat) (xs ys : List Nat) (hx : xs.length = a)
    (h : bytes m (a + b) = xs ++ ys) : bytes m a = xs := by
  rw [bytes_add] at h
  exact (List.append_inj h (by rw [length_bytes, hx])).1

/-- The input ends before the reader completes a start code and before the
buffer is full: `read_to_marker` stores all of it, and returns `0` unless
there was no input at all, in which case it returns `EOF`. -/
theorem read_to_marker_at_end (s : state_t) (hlen : s.fin.length < IN_SIZE)
    (hno : no_detection [] s.fin) :
    ∃ m : Nat → Nat,
      read_to_marker s
        = (if s.fin = [] then EOF else 0,
           { s with fin := [], in_ := m, in_len := s.fin.length })
      ∧ bytes m s.fin.length = s.fin := by
  obtain ⟨f, m, hrun, hbytes⟩ := read_loop_run [] s.fin [] { s with in_len := 0 } 0
    (reader_inv_start s) (by simpa using hlen) hno
  refine ⟨m, ?_, by simpa using hbytes⟩
  rw [read_to_marker]
  rw [List.append_nil] at hrun
  rw [hrun, read_loop]
  simp only [List.length_nil, Nat.zero_add, List.nil_append]
  cases hfin : s.fin with
  | nil => simp
  | cons a t => simp

/-- The input starts with `p`, three zero bytes and a `0x01`, no start code is
completed earlier, `p` ends in a multiple of 256 zero bytes, and the buffer
does not fill: `read_to_marker` returns `0`, leaves `p` as the unit and the
input after the start code unread. -/
theorem read_to_marker_at_marker (s : state_t) (p rest : List Nat)
    (hfin : s.fin = p ++ marker ++ rest) (hlen : p.length + 4 < IN_SIZE)
    (hno : ¬ marker <:+: p ++ [0, 0, 0]) (hz : trailing_zeros p % 256 = 0) :
    ∃ m : Nat → Nat,
      read_to_marker s = (0, { s with fin := rest, in_ := m, in_len := p.length })
      ∧ bytes m p.length = p := by
  have hsplit : s.fin = (p ++ [0, 0, 0]) ++ (1 :: rest) := by
    rw [hfin]; simp [marker]
  obtain ⟨f, m, hrun, hbytes⟩ := read_loop_run (1 :: rest) (p ++ [0, 0, 0]) []
    { s with in_len := 0 } 0 (reader_inv_start s)
    (by simp only [List.length_nil, List.length_append, List.length_cons]; omega)
    (no_detection_of_no_marker _ _ (by simpa using hno))
  simp only [List.length_nil, Nat.zero_add, List.nil_append, List.length_append,
    List.length_cons] at hrun hbytes
  have htz : trailing_zeros (p ++ [0, 0, 0]) % 256 = 3 := by
    have e : p ++ [0, 0, 0] = ((p ++ [0]) ++ [0]) ++ [0] := by simp
    rw [e, trailing_zeros_snoc_zero, trailing_zeros_snoc_zero, trailing_zeros_snoc_zero]
    omega
  have hfull : ¬ (p.length + (0 + 1 + 1 + 1) + 1 = IN_SIZE) := by omega
  refine ⟨store m (p.length + 3) 1, ?_, ?_⟩
  · have e0 : read_to_marker s
        = read_loop ((p ++ [0, 0, 0]) ++ (1 :: rest)) { s with in_len := 0 } 0 := by
      unfold read_to_marker
      exact congrArg (fun l => read_loop l { s with in_len := 0 } 0) hsplit
    rw [e0, hrun, htz, read_loop]
    simp only [if_neg hfull]
    have h10 : ¬ ((1 : Nat) = 0) := by decide
    rw [if_neg h10, if_pos ⟨trivial, trivial⟩]
    have hsub : size_sub (p.length + (1 + 1 + 1) + 1) 4 = p.length :=
      size_sub_four p.length (by omega)
    rw [hsub]
  · rw [bytes_store_of_le _ _ (by omega)]
    exact bytes_prefix m p.length 3 p [0, 0, 0] rfl hbytes

/-- The reader completes no start code in the first `IN_SIZE - 1` bytes of the
input: `read_to_marker` returns `0` with `in_len = IN_SIZE`, the first
`IN_SIZE` bytes in the buffer and the rest of the input unread. -/
theorem read_to_marker_at_capacity (s : state_t) (t : List Nat) (c : Nat) (rest : List Nat)
    (hfin : s.fin = t ++ c :: rest) (hlen : t.length + 1 = IN_SIZE)
    (hno : no_detection [] t) :
    ∃ m : Nat → Nat,
      read_to_marker s = (0, { s with fin := rest, in_ := m, in_len := IN_SIZE })
      ∧ bytes m IN_SIZE = t ++ [c] := by
  obtain ⟨f, m, hrun, hbytes⟩ := read_loop_run (c :: rest) t []
    { s with in_len := 0 } 0 (reader_inv_start s)
    (by simp only [List.length_nil]; omega) hno
  simp only [List.length_nil, Nat.zero_add, List.nil_append] at hrun hbytes
  refine ⟨store m t.length c, ?_, ?_⟩
  · have e0 : read_to_marker s = read_loop (t ++ c :: rest) { s with in_len := 0 } 0 := by
      unfold read_to_marker
      exact congrArg (fun l => read_loop l { s with in_len := 0 } 0) hfin
    rw [e0, hrun, read_loop]
    simp only [if_pos hlen]
    rw [hlen]
  · rw [← hlen, bytes_store_succ, hbytes]

/-! ## Occurrences of the start code -/

theorem marker_at_mid (a b : List Nat) : marker_at (a ++ marker ++ b) a.length := by
  simp [marker_at, marker]

theorem marker_at_length {L : List Nat} {j : Nat} (h : marker_at L j) : j + 4 ≤ L.length := by
  have := congrArg List.length h
  simp [marker, List.length_take, List.length_drop] at this
  omega

theorem marker_at_append_right {L : List Nat} {j : Nat} (suf : List Nat) (h : marker_at L j) :
    marker_at (L ++ suf) j := by
  have hl := marker_at_length h
  unfold marker_at at *
  rw [List.drop_append_of_le_length (by omega), List.take_append_of_le_length]
  · exact h
  · rw [List.length_drop]; omega

theorem marker_at_append_left (pre : List Nat) {L : List Nat} {j : Nat} (h : marker_at L j) :
    marker_at (pre ++ L) (pre.length + j) := by
  unfold marker_at at *
  rw [List.drop_append]
  exact h

theorem exists_marker_at_of_infix {L : List Nat} (h : marker <:+: L) :
    ∃ a b, L = a ++ marker ++ b ∧ marker_at L a.length := by
  obtain ⟨a, b, hab⟩ := h
  exact ⟨a, b, hab.symm, by rw [← hab]; exact marker_at_mid a b⟩

theorem tail_ok_of_frames (p : List Nat) (ps : List (List Nat))
    (h : ∀ j < (frames (p :: ps)).length, marker_at (frames (p :: ps)) j → j ∈ starts (p :: ps)) :
    tail_ok p ps := by
  intro j hj
  have h1 : marker_at (frames (p :: ps)) (marker.length + j) := by
    have := marker_at_append_left marker hj
    simpa [frames, List.append_assoc] using this
  have h2 := h _ (by have := marker_at_length h1; omega) h1
  simp only [starts, List.mem_cons, List.mem_map, length_marker] at h2
  rcases h2 with h2 | ⟨a, ha, e⟩
  · omega
  · exact ⟨a, ha, by omega⟩

theorem tail_ok_tail (p q : List Nat) (qs : List (List Nat)) (h : tail_ok p (q :: qs)) :
    tail_ok q qs := by
  intro j hj
  have h1 : marker_at (p ++ frames (q :: qs)) (p.length + (marker.length + j)) := by
    have := marker_at_append_left p (marker_at_append_left marker hj)
    simpa [frames, List.append_assoc] using this
  obtain ⟨a, ha, e⟩ := h _ h1
  simp only [starts, List.mem_cons, List.mem_map, length_marker] at ha e
  rcases ha with ha | ⟨b, hb, e2⟩
  · omega
  · exact ⟨b, hb, by omega⟩

theorem no_marker_of_tail_ok (p : List Nat) (ps : List (List Nat)) (h : tail_ok p ps) :
    ¬ marker <:+: p := by
  intro hin
  obtain ⟨a, b, hab, hat⟩ := exists_marker_at_of_infix hin
  obtain ⟨c, _, e⟩ := h _ (marker_at_append_right (frames ps) hat)
  have := congrArg List.length hab
  simp only [List.length_append, length_marker] at this
  omega

theorem no_early_marker_of_tail_ok (p q : List Nat) (qs : List (List Nat))
    (h : tail_ok p (q :: qs)) : ¬ marker <:+: p ++ [0, 0, 0] := by
  intro hin
  obtain ⟨a, b, hab, hat⟩ := exists_marker_at_of_infix hin
  have h1 : marker_at (p ++ frames (q :: qs)) a.length := by
    have := marker_at_append_right (1 :: (q ++ frames qs)) hat
    simpa [frames, marker, List.append_assoc] using this
  obtain ⟨c, _, e⟩ := h _ h1
  have := congrArg List.length hab
  simp only [List.length_append, length_marker, List.length_cons, List.length_nil] at this
  omega

/-! ## The framing round trip -/

theorem read_units_succ (fuel : Nat) (s : state_t) :
    read_units (fuel + 1) s =
      if (read_to_marker s).1 = EOF then some []
      else if (read_to_marker s).2.in_len = 0 then read_units fuel (read_to_marker s).2
      else (read_units fuel (read_to_marker s).2).map
        (fun us => unit_of (read_to_marker s).2 :: us) := rfl

/-- With the start code of the payload `p` already read, the reader returns `p`
and then the payloads `ps` that follow it, and reports the end of the input. -/
theorem read_units_tail (ps : List (List Nat)) :
    ∀ (p : List Nat) (s : state_t) (fuel : Nat), s.fin = p ++ frames ps →
      (∀ q ∈ p :: ps, q ≠ [] ∧ q.length + 4 < IN_SIZE) → tail_ok p ps →
      (∀ q ∈ (p :: ps).dropLast, trailing_zeros q % 256 = 0) →
      (p ++ frames ps).length + 1 ≤ fuel →
      read_units fuel s = some (p :: ps) := by
  induction ps with
  | nil =>
    intro p s fuel hfin hne hok _ hfuel
    simp only [frames, List.append_nil] at hfin hfuel
    obtain ⟨hp, hplen⟩ := hne p (List.mem_cons_self _ _)
    have hpos : 0 < p.length := List.length_pos.2 hp
    obtain ⟨m, hr, hb⟩ := read_to_marker_at_end s (by rw [hfin]; omega)
      (by rw [hfin]; exact no_detection_of_no_marker _ _ (no_marker_of_tail_ok p [] hok))
    rw [hfin] at hr hb
    rw [if_neg hp] at hr
    obtain ⟨fuel1, rfl⟩ : ∃ k, fuel = k + 1 := ⟨fuel - 1, by omega⟩
    obtain ⟨fuel2, rfl⟩ : ∃ k, fuel1 = k + 1 := ⟨fuel1 - 1, by omega⟩
    obtain ⟨m2, hr2, _⟩ := read_to_marker_at_end
      { s with fin := [], in_ := m, in_len := p.length } (by simp [IN_SIZE])
      (no_detection_nil _)
    simp only [if_true] at hr2
    rw [read_units_succ, hr]
    have h0 : ¬ ((0 : Int) = EOF) := by decide
    have h1 : ¬ (p.length = 0) := by omega
    simp only [if_neg h0, if_neg h1]
    rw [read_units_succ, hr2]
    simp [unit_of, hb]
  | cons q qs ih =>
    intro p s fuel hfin hne hok hz hfuel
    obtain ⟨hp, hplen⟩ := hne p (List.mem_cons_self _ _)
    have hpos : 0 < p.length := List.length_pos.2 hp
    have hfin2 : s.fin = p ++ marker ++ (q ++ frames qs) := by
      rw [hfin]; simp [frames, List.append_assoc]
    have hzp : trailing_zeros p % 256 = 0 := hz p (by simp [List.dropLast])
    obtain ⟨m, hr, hb⟩ := read_to_marker_at_marker s p (q ++ frames qs) hfin2 hplen
      (no_early_marker_of_tail_ok p q qs hok) hzp
    have hflen : (p ++ frames (q :: qs)).length = p.length + 4 + (q ++ frames qs).length := by
      simp [frames, List.length_append, length_marker]; omega
    obtain ⟨fuel1, rfl⟩ : ∃ k, fuel = k + 1 := ⟨fuel - 1, by omega⟩
    have hrec := ih q { s with fin := q ++ frames qs, in_ := m, in_len := p.length } fuel1 rfl
      (fun r hr => hne r (List.mem_cons_of_mem _ hr)) (tail_ok_tail p q qs hok)
      (fun r hr => hz r (by
        rw [List.dropLast_cons₂]
        exact List.mem_cons_of_mem _ hr))
      (by omega)
    rw [read_units_succ, hr]
    have h0 : ¬ ((0 : Int) = EOF) := by decide
    have h1 : ¬ (p.length = 0) := by omega
    simp only [if_neg h0, if_neg h1, hrec]
    simp [unit_of, hb]

/-- Claim C1, as the code has it.  For payloads that are not empty, each
shorter than `IN_SIZE - 4`, such that the start code occurs in the framed
stream only at the segment starts, and such that every payload but the last
ends in a number of `0x00` bytes that is a multiple of 256 (none, in
particular), calling `read_to_marker` until it returns `EOF` and skipping the
empty results yields exactly the payloads, in order; and no unit returned
contains the start code. -/
theorem framing_round_trip (s : state_t) (ps : List (List Nat)) (hfin : s.fin = frames ps)
    (hne : ∀ p ∈ ps, p ≠ [] ∧ p.length < IN_SIZE - 4)
    (hocc : ∀ j < (frames ps).length, marker_at (frames ps) j → j ∈ starts ps)
    (hz : ∀ p ∈ ps.dropLast, trailing_zeros p % 256 = 0) :
    read_units ((frames ps).length + 1) s = some ps ∧ ∀ u ∈ ps, ¬ marker <:+: u := by
  have hin : IN_SIZE = 1048576 := rfl
  cases ps with
  | nil =>
    refine ⟨?_, by simp⟩
    obtain ⟨m, hr, _⟩ := read_to_marker_at_end s (by rw [hfin]; simp [frames, IN_SIZE])
      (by rw [hfin]; exact no_detection_nil _)
    rw [hfin] at hr
    simp only [frames, if_true] at hr
    simp only [frames, List.length_nil, Nat.zero_add]
    rw [read_units_succ, hr]
    simp
  | cons p ps =>
    have hok : tail_ok p ps := tail_ok_of_frames p ps hocc
    have hne2 : ∀ q ∈ p :: ps, q ≠ [] ∧ q.length + 4 < IN_SIZE := fun q hq =>
      ⟨(hne q hq).1, by have := (hne q hq).2; omega⟩
    constructor
    · have hfin2 : s.fin = [] ++ marker ++ (p ++ frames ps) := by
        rw [hfin]; simp [frames, List.append_assoc]
      obtain ⟨m, hr, _⟩ := read_to_marker_at_marker s [] (p ++ frames ps) hfin2
        (by simp [IN_SIZE]) (by decide) (by decide)
      have hl : (frames (p :: ps)).length = (p ++ frames ps).length + 4 := by
        simp [frames, List.length_append, length_marker]; omega
      rw [hl, read_units_succ, hr]
      have h0 : ¬ ((0 : Int) = EOF) := by decide
      simp only [if_neg h0, List.length_nil, if_true]
      exact read_units_tail ps p _ _ rfl hne2 hok hz (by omega)
    · have hall : ∀ (qs : List (List Nat)) (q : List Nat), tail_ok q qs →
          ∀ u ∈ q :: qs, ¬ marker <:+: u := by
        intro qs
        induction qs with
        | nil =>
          intro q hq u hu
          rw [List.mem_singleton.1 hu]
          exact no_marker_of_tail_ok q [] hq
        | cons r rs ih =>
          intro q hq u hu
          rcases List.mem_cons.1 hu with hu | hu
          · rw [hu]; exact no_marker_of_tail_ok q (r :: rs) hq
          · exact ih r (tail_ok_tail q r rs hq) u hu
      exact hall ps p hok

theorem framing_round_trip_witness :
    read_units ((frames [[0x27, 1], [0x25, 0, 0, 2], [0x21, 0]]).length + 1)
        (init_state (frames [[0x27, 1], [0x25, 0, 0, 2], [0x21, 0]]) 1)
      = some [[0x27, 1], [0x25, 0, 0, 2], [0x21, 0]]
    ∧ ∀ u ∈ [[0x27, 1], [0x25, 0, 0, 2], [0x21, 0]], ¬ marker <:+: u :=
  framing_round_trip (init_state (frames [[0x27, 1], [0x25, 0, 0, 2], [0x21, 0]]) 1)
    [[0x27, 1], [0x25, 0, 0, 2], [0x21, 0]] rfl (by decide) (by decide) (by decide)

/-- Claim C1 as stated fails.  The payloads `21 00` and `21` are not empty and
short, and in their framed stream the start code occurs at the two segment
starts only; but the reader, which wants exactly three zero bytes before the
`0x01`, misses the second start code and returns one unit, which contains
the start code. -/
theorem framing_round_trip_counterexample :
    (∀ p ∈ [[0x21, 0], [0x21]], p ≠ [] ∧ p.length < IN_SIZE - 4)
    ∧ (∀ j < (frames [[0x21, 0], [0x21]]).length,
        marker_at (frames [[0x21, 0], [0x21]]) j → j ∈ starts [[0x21, 0], [0x21]])
    ∧ read_units ((frames [[0x21, 0], [0x21]]).length + 1)
        (init_state (frames [[0x21, 0], [0x21]]) 1) = some [[0x21, 0, 0, 0, 0, 1, 0x21]]
    ∧ read_units ((frames [[0x21, 0], [0x21]]).length + 1)
        (init_state (frames [[0x21, 0], [0x21]]) 1) ≠ some [[0x21, 0], [0x21]] := by
  decide

/-! ## Sending -/

theorem slice_zero (a : Nat → Nat) (n : Nat) : slice a 0 n = bytes a n := by
  unfold slice
  exact bytes_congr (fun j _ => by simp)

theorem slice_add (a : Nat → Nat) (off m n : Nat) :
    slice a off (m + n) = slice a off m ++ slice a (off + m) n := by
  unfold slice
  rw [bytes_add]
  congr 1
  unfold slice
  exact bytes_congr (fun j _ => by simp [Nat.add_assoc])

/-- The loop of `send_block`, given as many rounds as there are bytes: the
bytes delivered are the first `len - r` bytes offered, where `r` is the `len`
the loop stops with; nothing else of the connection changes but the number of
calls. -/
theorem send_loop_spec (src : Nat → Nat) :
    ∀ (fuel : Nat) (c : conn) (off len : Nat), len ≤ fuel →
      (send_loop fuel c src off len).2 ≤ len
      ∧ (send_loop fuel c src off len).1.sent
          = c.sent ++ slice src off (len - (send_loop fuel c src off len).2)
      ∧ (send_loop fuel c src off len).1.script = c.script
      ∧ (send_loop fuel c src off len).1.closed = c.closed := by
  intro fuel
  induction fuel with
  | zero =>
    intro c off len hlen
    have : len = 0 := by omega
    subst this
    simp [send_loop, slice, bytes]
  | succ fuel ih =>
    intro c off len hlen
    rw [send_loop]
    by_cases h0 : len = 0
    · subst h0
      simp [slice, bytes]
    · rw [if_neg h0]
      cases hs : c.script c.calls with
      | error => simp [slice, bytes]
      | took k =>
        simp only []
        have hr : 1 ≤ min (k + 1) len := by
          rw [Nat.le_min]; omega
        have hr2 : min (k + 1) len ≤ len := Nat.min_le_right _ _
        obtain ⟨a, b, c1, d⟩ := ih
          { c with sent := c.sent ++ slice src off (min (k + 1) len), calls := c.calls + 1 }
          (off + min (k + 1) len) (len - min (k + 1) len) (by omega)
        refine ⟨by omega, ?_, c1, d⟩
        rw [b, List.append_assoc, ← slice_add]
        congr 2
        omega

/-- Further rounds change nothing: `len` rounds are enough for the loop of
`send_block`. -/
theorem send_loop_fuel (src : Nat → Nat) :
    ∀ (fuel : Nat) (c : conn) (off len : Nat), len ≤ fuel →
      send_loop (fuel + 1) c src off len = send_loop fuel c src off len := by
  intro fuel
  induction fuel with
  | zero =>
    intro c off len hlen
    have : len = 0 := by omega
    subst this
    simp [send_loop]
  | succ fuel ih =>
    intro c off len hlen
    conv_lhs => rw [send_loop]
    conv_rhs => rw [send_loop]
    by_cases h0 : len = 0
    · rw [if_pos h0, if_pos h0]
    · rw [if_neg h0, if_neg h0]
      cases hs : c.script c.calls with
      | error => rfl
      | took k =>
        simp only []
        have hr : 1 ≤ min (k + 1) len := by
          rw [Nat.le_min]; omega
        exact ih _ _ _ (by omega)

theorem send_block_fst (w : net) (sock : Int) (src : Nat → Nat) (len : Nat) :
    (send_block w sock src len).1 = 0 ∨ (send_block w sock src len).1 = -1 := by
  unfold send_block
  by_cases h : (send_loop len (w sock) src 0 len).2 = 0
  · left; simp [h]
  · right; simp [h]

/-- The function `send_block` touches the connection `sock` only; when it
returns `0` all of `src[0 .. len)` was delivered, otherwise a part of it. -/
theorem send_block_spec (w : net) (sock : Int) (src : Nat → Nat) (len : Nat) :
    (∀ other, other ≠ sock → (send_block w sock src len).2 other = w other)
    ∧ ((send_block w sock src len).1 = 0 →
        ((send_block w sock src len).2 sock).sent = (w sock).sent ++ bytes src len)
    ∧ (∃ k, k ≤ len
        ∧ ((send_block w sock src len).2 sock).sent = (w sock).sent ++ bytes src k)
    ∧ ((send_block w sock src len).2 sock).script = (w sock).script
    ∧ ((send_block w sock src len).2 sock).closed = (w sock).closed := by
  obtain ⟨a, b, c, d⟩ := send_loop_spec src len (w sock) 0 len (Nat.le_refl _)
  rw [slice_zero] at b
  unfold send_block
  refine ⟨?_, ?_, ?_, ?_, ?_⟩
  · intro other ho
    simp [Function.update_noteq ho]
  · intro h
    have h0 : (send_loop len (w sock) src 0 len).2 = 0 := by
      by_contra hne
      simp [hne] at h
    simp only [Function.update_same]
    rw [b, h0, Nat.sub_zero]
  · exact ⟨len - (send_loop len (w sock) src 0 len).2, by omega,
      by simp only [Function.update_same]; exact b⟩
  · simp only [Function.update_same]; exact c
  · simp only [Function.update_same]; exact d

/-- What `send_block` does to the connection `sock` depends on that connection
only. -/
theorem send_block_congr (w w2 : net) (sock : Int) (src : Nat → Nat) (len : Nat)
    (h : w2 sock = w sock) :
    (send_block w2 sock src len).1 = (send_block w sock src len).1
    ∧ (send_block w2 sock src len).2 sock = (send_block w sock src len).2 sock := by
  unfold send_block
  simp [h]

theorem bytes_marker : bytes (fun j => marker.getD j 0) 4 = marker := bytes_getD marker

theorem send_frame_eq (s : state_t) (w : net) (sock : Int) :
    send_frame s w sock =
      if (send_block w sock (fun j => marker.getD j 0) 4).1 ≠ 0 then
        (-1, (send_block w sock (fun j => marker.getD j 0) 4).2)
      else send_block (send_block w sock (fun j => marker.getD j 0) 4).2 sock s.in_ s.in_len :=
  rfl

theorem send_frame_fst (s : state_t) (w : net) (sock : Int) :
    (send_frame s w sock).1 = 0 ∨ (send_frame s w sock).1 = -1 := by
  rw [send_frame_eq]
  by_cases h : (send_block w sock (fun j => marker.getD j 0) 4).1 ≠ 0
  · right; rw [if_pos h]
  · rw [if_neg h]
    exact send_block_fst _ _ _ _

/-- The function `send_frame` touches the connection `sock` only; when it
returns `0` the start code and the unit were delivered, otherwise a part of
them. -/
theorem send_frame_spec (s : state_t) (w : net) (sock : Int) :
    (∀ other, other ≠ sock → (send_frame s w sock).2 other = w other)
    ∧ ((send_frame s w sock).1 = 0 →
        ((send_frame s w sock).2 sock).sent = (w sock).sent ++ marker ++ unit_of s)
    ∧ (∃ pre, pre <+: marker ++ unit_of s
        ∧ ((send_frame s w sock).2 sock).sent = (w sock).sent ++ pre)
    ∧ ((send_frame s w sock).2 sock).script = (w sock).script
    ∧ ((send_frame s w sock).2 sock).closed = (w sock).closed := by
  obtain ⟨a1, b1, ⟨k1, hk1, c1⟩, d1, e1⟩ := send_block_spec w sock (fun j => marker.getD j 0) 4
  obtain ⟨a2, b2, ⟨k2, hk2, c2⟩, d2, e2⟩ := send_block_spec
    (send_block w sock (fun j => marker.getD j 0) 4).2 sock s.in_ s.in_len
  have hpre : ∀ (m : Nat → Nat) (k n : Nat), k ≤ n → bytes m k <+: bytes m n := by
    intro m k n hkn
    obtain ⟨d, rfl⟩ : ∃ d, n = k + d := ⟨n - k, by omega⟩
    rw [bytes_add]
    exact List.prefix_append _ _
  rw [send_frame_eq]
  by_cases h : (send_block w sock (fun j => marker.getD j 0) 4).1 ≠ 0
  · simp only [if_pos h]
    refine ⟨a1, ?_, ⟨bytes (fun j => marker.getD j 0) k1, ?_, c1⟩, d1, e1⟩
    · intro h0
      exact absurd h0 (by decide)
    · have := hpre (fun j => marker.getD j 0) k1 4 hk1
      rw [bytes_marker] at this
      exact List.IsPrefix.trans this (List.prefix_append _ _)
  · simp only [if_neg h]
    have h0 : (send_block w sock (fun j => marker.getD j 0) 4).1 = 0 := by
      by_contra hne
      exact h hne
    have hm := b1 h0
    rw [bytes_marker] at hm
    refine ⟨fun other ho => by rw [a2 other ho, a1 other ho], ?_, ⟨marker ++ bytes s.in_ k2, ?_, ?_⟩,
      by rw [d2, d1], by rw [e2, e1]⟩
    · intro hok
      rw [b2 hok, hm, unit_of]
    · unfold unit_of
      exact (List.prefix_append_right_inj marker).2 (hpre s.in_ k2 s.in_len hk2)
    · rw [c2, hm, List.append_assoc]

/-- What `send_frame` does to the connection `sock` depends on that connection
and on the unit in the buffer only. -/
theorem send_frame_congr (s s2 : state_t) (w w2 : net) (sock : Int)
    (hin : s2.in_ = s.in_) (hlen : s2.in_len = s.in_len) (h : w2 sock = w sock) :
    (send_frame s2 w2 sock).1 = (send_frame s w sock).1
    ∧ (send_frame s2 w2 sock).2 sock = (send_frame s w sock).2 sock := by
  obtain ⟨a, b⟩ := send_block_congr w w2 sock (fun j => marker.getD j 0) 4 h
  obtain ⟨c, d⟩ := send_block_congr (send_block w sock (fun j => marker.getD j 0) 4).2
    (send_block w2 sock (fun j => marker.getD j 0) 4).2 sock s.in_ s.in_len b
  rw [send_frame_eq, send_frame_eq, a, hin, hlen]
  by_cases h1 : (send_block w sock (fun j => marker.getD j 0) 4).1 ≠ 0
  · simp only [if_pos h1]
    exact ⟨trivial, b⟩
  · simp only [if_neg h1]
    exact ⟨c, d⟩

/-! ## The broadcast loop -/

theorem close_same (w : net) (fd : Int) : (close w fd) fd = closed_conn (w fd) := by
  simp [close, closed_conn]

theorem close_other (w : net) (fd other : Int) (h : other ≠ fd) : (close w fd) other = w other := by
  simp [close, Function.update_noteq h]

/-- One round of the broadcast loop followed by the rest of the loop: if the
round leaves `s1`, `w1` as described and the rest of the loop behaves on them,
the whole loop behaves. -/
theorem broadcast_spec_step (n i : Nat) (s s1 : state_t) (w w1 : net) (r : state_t × net)
    (hdist : range_distinct s.in_client i (n + 1))
    (hs1 : s1 = { s with in_client := s1.in_client })
    (htbl : ∀ k, k ≠ i → s1.in_client k = s.in_client k)
    (hw1 : ∀ fd, (s.in_client i = 0 ∨ fd ≠ s.in_client i) → w1 fd = w fd)
    (hzero : s.in_client i = 0 → s1.in_client i = 0)
    (hok : s.in_client i ≠ 0 → (send_frame s w (s.in_client i)).1 = 0 →
      s1.in_client i = s.in_client i
      ∧ w1 (s.in_client i) = (send_frame s w (s.in_client i)).2 (s.in_client i))
    (hfail : s.in_client i ≠ 0 → (send_frame s w (s.in_client i)).1 ≠ 0 →
      s1.in_client i = 0
      ∧ w1 (s.in_client i) = closed_conn ((send_frame s w (s.in_client i)).2 (s.in_client i)))
    (ih : broadcast_spec n (i + 1) s1 w1 r) :
    broadcast_spec (n + 1) i s w r := by
  obtain ⟨r1, r2, r3, r4, r5⟩ := ih
  have hin : s1.in_ = s.in_ := by rw [hs1]
  have hlen : s1.in_len = s.in_len := by rw [hs1]
  have hri : r.1.in_client i = s1.in_client i := r2 i (Or.inl (by omega))
  have hrest : ∀ fd, s.in_client i ≠ 0 → fd = s.in_client i → r.2 fd = w1 fd := by
    intro fd hne hfd
    apply r3
    intro k hk1 hk2
    rw [htbl k (by omega)]
    by_cases hk0 : s.in_client k = 0
    · exact Or.inl hk0
    · right
      rw [hfd]
      exact hdist k (by omega) i (by omega) ⟨by omega, by omega, by omega, hk0⟩
  refine ⟨?_, ?_, ?_, ?_, ?_⟩
  · rw [r1, hs1]
  · intro k hk
    rw [r2 k (by omega), htbl k (by omega)]
  · intro fd hfd
    rw [r3 fd (fun k hk1 hk2 => by rw [htbl k (by omega)]; exact hfd k (by omega) (by omega))]
    exact hw1 fd (by
      rcases hfd i (by omega) (by omega) with h | h
      · exact Or.inl h
      · exact Or.inr (Ne.symm h))
  · intro k hk1 hk2 hk0
    by_cases hki : k = i
    · subst hki
      rw [hri, hzero hk0]
    · exact r4 k (by omega) (by omega) (by rw [htbl k hki]; exact hk0)
  · intro k hk1 hk2 hk0
    by_cases hki : k = i
    · subst hki
      constructor
      · intro hs
        obtain ⟨a, b⟩ := hok hk0 hs
        exact ⟨by rw [hri, a], by rw [hrest _ hk0 rfl, b]⟩
      · intro hs
        obtain ⟨a, b⟩ := hfail hk0 hs
        exact ⟨by rw [hri, a], by rw [hrest _ hk0 rfl, b]⟩
    · have hne : s.in_client k ≠ s.in_client i :=
        hdist k (by omega) i (by omega) ⟨by omega, by omega, hki, hk0⟩
      have hk0' : s1.in_client k ≠ 0 := by rw [htbl k hki]; exact hk0
      obtain ⟨c1, c2⟩ := send_frame_congr s s1 w w1 (s.in_client k) hin hlen
        (hw1 _ (Or.inr hne))
      have h5 := r5 k (by omega) (by omega) hk0'
      rw [htbl k hki, c1, c2] at h5
      exact h5

/-- The broadcast loop over the slots `i, ..., i+n-1`, when the populated slots
hold different descriptors. -/
theorem broadcast_loop_spec :
    ∀ (n i : Nat) (s : state_t) (w : net), range_distinct s.in_client i n →
      broadcast_spec n i s w (broadcast_loop n i s w) := by
  intro n
  induction n with
  | zero =>
    intro i s w _
    refine ⟨rfl, fun _ _ => rfl, fun _ _ => rfl, ?_, ?_⟩
    · intro k h1 h2; omega
    · intro k h1 h2; omega
  | succ n ih =>
    intro i s w hdist
    have hsub : ∀ tbl : Nat → Int, (∀ k, k ≠ i → tbl k = s.in_client k) →
        range_distinct tbl (i + 1) n := by
      intro tbl htbl j h1 k h2 ⟨h3, h4, hjk, hj0⟩
      rw [htbl j (by omega)] at hj0 ⊢
      rw [htbl k (by omega)]
      exact hdist j (by omega) k (by omega) ⟨by omega, by omega, hjk, hj0⟩
    rw [broadcast_loop]
    by_cases h0 : s.in_client i = 0
    · rw [if_pos h0]
      exact broadcast_spec_step n i s s w w _ hdist rfl (fun _ _ => rfl) (fun _ _ => rfl)
        (fun h => h) (fun h => absurd h0 h) (fun h => absurd h0 h)
        (ih (i + 1) s w (hsub s.in_client (fun _ _ => rfl)))
    · rw [if_neg h0]
      obtain ⟨so, _, _, _, _⟩ := send_frame_spec s w (s.in_client i)
      by_cases hneg : (send_frame s w (s.in_client i)).1 < 0
      · simp only [if_pos hneg]
        have hne : (send_frame s w (s.in_client i)).1 ≠ 0 := by omega
        refine broadcast_spec_step n i s { s with in_client := store s.in_client i 0 } w
          (close (send_frame s w (s.in_client i)).2 (s.in_client i)) _ hdist rfl
          (fun k hk => by simp [store, hk]) ?_ (fun _ => by simp [store])
          (fun _ h => absurd h hne) (fun _ _ => ⟨by simp [store], close_same _ _⟩)
          (ih (i + 1) _ _ (hsub _ (fun k hk => by simp [store, hk])))
        intro fd hfd
        have hfd2 : fd ≠ s.in_client i := by
          rcases hfd with h | h
          · exact absurd h h0
          · exact h
        rw [close_other _ _ _ hfd2, so fd hfd2]
      · simp only [if_neg hneg]
        have heq : (send_frame s w (s.in_client i)).1 = 0 := by
          rcases send_frame_fst s w (s.in_client i) with h | h
          · exact h
          · omega
        refine broadcast_spec_step n i s s w (send_frame s w (s.in_client i)).2 _ hdist rfl
          (fun _ _ => rfl) ?_ (fun h => absurd h h0) (fun _ _ => ⟨rfl, rfl⟩)
          (fun _ h => absurd heq h) (ih (i + 1) _ _ (hsub _ (fun _ _ => rfl)))
        intro fd hfd
        have hfd2 : fd ≠ s.in_client i := by
          rcases hfd with h | h
          · exact absurd h h0
          · exact h
        exact so fd hfd2

/-- Claim C8.  One broadcast pass over a slot table whose populated slots hold
different connections: an empty slot stays empty; a populated slot whose
write succeeds keeps its connection, which has received exactly the start
code and the unit and is still open; a populated slot whose write fails is
empty afterwards and its connection closed.  Whether the write to a slot
succeeds is decided by `send_frame` on that slot's connection as it was before
the pass, so the outcome for the slot is the same whatever the other
connections do. -/
theorem broadcast_isolation (s : state_t) (w : net)
    (hd : range_distinct s.in_client 0 s.max_clients) (j : Nat) (hj : j < s.max_clients) :
    (s.in_client j = 0 → (broadcast_loop s.max_clients 0 s w).1.in_client j = 0)
    ∧ (s.in_client j ≠ 0 → (send_frame s w (s.in_client j)).1 = 0 →
        (broadcast_loop s.max_clients 0 s w).1.in_client j = s.in_client j
        ∧ ((broadcast_loop s.max_clients 0 s w).2 (s.in_client j)).sent
            = (w (s.in_client j)).sent ++ marker ++ unit_of s
        ∧ ((broadcast_loop s.max_clients 0 s w).2 (s.in_client j)).closed
            = (w (s.in_client j)).closed)
    ∧ (s.in_client j ≠ 0 → (send_frame s w (s.in_client j)).1 ≠ 0 →
        (broadcast_loop s.max_clients 0 s w).1.in_client j = 0
        ∧ ((broadcast_loop s.max_clients 0 s w).2 (s.in_client j)).closed = true)
    ∧ (∀ w2 : net, w2 (s.in_client j) = w (s.in_client j) →
        (broadcast_loop s.max_clients 0 s w2).1.in_client j
            = (broadcast_loop s.max_clients 0 s w).1.in_client j
        ∧ (broadcast_loop s.max_clients 0 s w2).2 (s.in_client j)
            = (broadcast_loop s.max_clients 0 s w).2 (s.in_client j)) := by
  obtain ⟨_, _, b3, b4, b5⟩ := broadcast_loop_spec s.max_clients 0 s w hd
  obtain ⟨_, sok, _, _, scl⟩ := send_frame_spec s w (s.in_client j)
  refine ⟨fun h0 => b4 j (by omega) (by omega) h0, ?_, ?_, ?_⟩
  · intro h0 hs
    obtain ⟨a, b⟩ := (b5 j (by omega) (by omega) h0).1 hs
    exact ⟨a, by rw [b, sok hs], by rw [b, scl]⟩
  · intro h0 hs
    obtain ⟨a, b⟩ := (b5 j (by omega) (by omega) h0).2 hs
    exact ⟨a, by rw [b]; rfl⟩
  · intro w2 hw2
    obtain ⟨_, _, c3, c4, c5⟩ := broadcast_loop_spec s.max_clients 0 s w2 hd
    obtain ⟨e1, e2⟩ := send_frame_congr s s w w2 (s.in_client j) rfl rfl hw2
    by_cases h0 : s.in_client j = 0
    · refine ⟨by rw [b4 j (by omega) (by omega) h0, c4 j (by omega) (by omega) h0], ?_⟩
      have hall : ∀ k, 0 ≤ k → k < 0 + s.max_clients →
          s.in_client k = 0 ∨ s.in_client k ≠ s.in_client j := by
        intro k _ _
        by_cases hk : s.in_client k = 0
        · exact Or.inl hk
        · exact Or.inr (by rw [h0]; exact hk)
      rw [b3 _ hall, c3 _ hall, hw2]
    · by_cases hs : (send_frame s w (s.in_client j)).1 = 0
      · obtain ⟨a, b⟩ := (b5 j (by omega) (by omega) h0).1 hs
        obtain ⟨c, d⟩ := (c5 j (by omega) (by omega) h0).1 (by rw [e1]; exact hs)
        exact ⟨by rw [a, c], by rw [b, d, e2]⟩
      · obtain ⟨a, b⟩ := (b5 j (by omega) (by omega) h0).2 hs
        obtain ⟨c, d⟩ := (c5 j (by omega) (by omega) h0).2 (by rw [e1]; exact hs)
        exact ⟨by rw [a, c], by rw [b, d, e2]⟩

theorem broadcast_isolation_witness :
    (broadcast_loop demo_state.max_clients 0 demo_state demo_net).1.in_client 2 = 7
    ∧ ((broadcast_loop demo_state.max_clients 0 demo_state demo_net).2 7).sent
        = [] ++ marker ++ [0x21, 9]
    ∧ ((broadcast_loop demo_state.max_clients 0 demo_state demo_net).2 7).closed = false
    ∧ (broadcast_loop demo_state.max_clients 0 demo_state demo_net).1.in_client 0 = 0 :=
  ⟨((broadcast_isolation demo_state demo_net (by decide) 2 (by decide)).2.1
      (by decide) (by decide)).1,
   ((broadcast_isolation demo_state demo_net (by decide) 2 (by decide)).2.1
      (by decide) (by decide)).2.1,
   ((broadcast_isolation demo_state demo_net (by decide) 2 (by decide)).2.1
      (by decide) (by decide)).2.2,
   ((broadcast_isolation demo_state demo_net (by decide) 0 (by decide)).2.2.1
      (by decide) (by decide)).1⟩

/-! ## The reader at the end of the input and at capacity -/

theorem head_bytes (m : Nat → Nat) (n : Nat) (h : 0 < n) : (bytes m n).head? = some (m 0) := by
  induction n with
  | zero => omega
  | succ n ih =>
    simp only [bytes]
    cases n with
    | zero => simp [bytes]
    | succ k =>
      have := ih (by omega)
      cases hb : bytes m (k + 1) with
      | nil => rw [hb] at this; simp at this
      | cons a t => rw [hb] at this; simpa using this

/-- Claim C6, as the code has it.  When the loop of `read_to_marker` meets the
end of the input with `in_len > 0` bytes in the buffer it returns `0`, not
`EOF`, and leaves these bytes in the buffer as a unit of `in_len` bytes; with
an empty buffer it returns `EOF`.  So for an input that is shorter than
`IN_SIZE` and in which no byte completes a start code for the reader: if it
is not empty the call returns `0` with the whole input as the unit, and the
call after it returns `EOF`; if it is empty the call returns `EOF`. -/
theorem end_of_stream_returns_pending_bytes (s : state_t) (hlen : s.fin.length < IN_SIZE)
    (hno : no_detection [] s.fin) :
    (∀ (t : state_t) (i : Nat),
        (read_loop [] t i).1 = (if t.in_len > 0 then 0 else EOF)
        ∧ (read_loop [] t i).2.in_len = t.in_len ∧ (read_loop [] t i).2.in_ = t.in_)
    ∧ (s.fin ≠ [] →
        (read_to_marker s).1 = 0 ∧ unit_of (read_to_marker s).2 = s.fin
        ∧ (read_to_marker s).2.in_len = s.fin.length
        ∧ (read_to_marker s).2.fin = []
        ∧ (read_to_marker (read_to_marker s).2).1 = EOF)
    ∧ (s.fin = [] → (read_to_marker s).1 = EOF ∧ (read_to_marker s).2.in_len = 0) := by
  obtain ⟨m, hr, hb⟩ := read_to_marker_at_end s hlen hno
  refine ⟨?_, ?_, ?_⟩
  · intro t i
    rw [read_loop]
    by_cases h : t.in_len > 0
    · simp [h]
    · simp [h]
  · intro hne
    rw [hr, if_neg hne]
    obtain ⟨m2, hr2, _⟩ := read_to_marker_at_end
      { s with fin := [], in_ := m, in_len := s.fin.length } (by simp [IN_SIZE])
      (no_detection_nil _)
    refine ⟨rfl, hb, rfl, rfl, ?_⟩
    rw [hr2]
    simp
  · intro he
    rw [hr, if_pos he]
    exact ⟨rfl, by simp [he]⟩

theorem end_of_stream_returns_pending_bytes_witness :
    (read_to_marker (init_state [0x21, 0, 0, 5] 1)).1 = 0
    ∧ unit_of (read_to_marker (init_state [0x21, 0, 0, 5] 1)).2 = [0x21, 0, 0, 5]
    ∧ (read_to_marker (init_state [0x21, 0, 0, 5] 1)).2.in_len = 4
    ∧ (read_to_marker (init_state [0x21, 0, 0, 5] 1)).2.fin = []
    ∧ (read_to_marker (read_to_marker (init_state [0x21, 0, 0, 5] 1)).2).1 = EOF :=
  (end_of_stream_returns_pending_bytes (init_state [0x21, 0, 0, 5] 1) (by decide)
    (no_detection_of_no_marker _ _ (by decide))).2.1 (by decide)

/-- Claim C6 as stated fails.  On the input `21 05`, which ends without a start
code, `read_to_marker` returns `0` and not `EOF`, the two bytes are the unit
it leaves, and the event loop stores their frame in the cache. -/
theorem end_of_stream_counterexample :
    (read_to_marker (init_state [0x21, 5] 1)).1 = 0
    ∧ (read_to_marker (init_state [0x21, 5] 1)).1 ≠ EOF
    ∧ (read_to_marker (init_state [0x21, 5] 1)).2.fin = []
    ∧ unit_of (read_to_marker (init_state [0x21, 5] 1)).2 = [0x21, 5]
    ∧ (ingest_branch (init_state [0x21, 5] 1) demo_net).map (fun r => cache_of r.1)
        = some (marker ++ [0x21, 5]) := by
  decide

/-! ## What the branches of the event loop leave alone -/

/-- The cache update changes the output buffer, `out_len` and the header
offset only. -/
theorem cache_update_frame (s : state_t) :
    ∃ (o : Nat → Nat) (l k : Nat),
      cache_update s = { s with out := o, out_len := l, out_key_frame_offset := k } := by
  unfold cache_update
  simp only [write_frame_eq]
  split
  · split
    · exact ⟨_, _, _, rfl⟩
    · exact ⟨_, _, _, rfl⟩
  · split
    · split
      · exact ⟨_, _, _, rfl⟩
      · exact ⟨_, _, _, rfl⟩
    · split
      · split
        · exact ⟨_, _, _, rfl⟩
        · exact ⟨_, _, _, rfl⟩
      · exact ⟨_, _, _, rfl⟩

/-- The broadcast loop changes the slot table only, and there it only clears
slots. -/
theorem broadcast_loop_frame :
    ∀ (n i : Nat) (s : state_t) (w : net),
      (broadcast_loop n i s w).1 = { s with in_client := (broadcast_loop n i s w).1.in_client }
      ∧ ∀ k, (broadcast_loop n i s w).1.in_client k = s.in_client k
          ∨ (broadcast_loop n i s w).1.in_client k = 0 := by
  intro n
  induction n with
  | zero => intro i s w; exact ⟨rfl, fun _ => Or.inl rfl⟩
  | succ n ih =>
    intro i s w
    rw [broadcast_loop]
    by_cases h0 : s.in_client i = 0
    · rw [if_pos h0]
      exact ih (i + 1) s w
    · rw [if_neg h0]
      by_cases hneg : (send_frame s w (s.in_client i)).1 < 0
      · simp only [if_pos hneg]
        obtain ⟨a, b⟩ := ih (i + 1) { s with in_client := store s.in_client i 0 }
          (close (send_frame s w (s.in_client i)).2 (s.in_client i))
        refine ⟨by rw [a], fun k => ?_⟩
        rcases b k with h | h
        · by_cases hk : k = i
          · right; rw [h]; simp [store, hk]
          · left; rw [h]; simp [store, hk]
        · exact Or.inr h
      · simp only [if_neg hneg]
        exact ih (i + 1) s (send_frame s w (s.in_client i)).2

/-- The reader changes the input, the incoming buffer and `in_len` only. -/
theorem read_loop_frame :
    ∀ (l : List Nat) (s : state_t) (i : Nat),
      ∃ (f : List Nat) (m : Nat → Nat) (n : Nat),
        (read_loop l s i).2 = { s with fin := f, in_ := m, in_len := n } := by
  intro l
  induction l with
  | nil =>
    intro s i
    rw [read_loop]
    split
    · exact ⟨_, _, _, rfl⟩
    · exact ⟨_, _, _, rfl⟩
  | cons c rest ih =>
    intro s i
    rw [read_loop]
    simp only []
    split
    · exact ⟨_, _, _, rfl⟩
    · split
      · obtain ⟨f, m, n, h⟩ := ih
          { s with fin := rest, in_ := store s.in_ s.in_len c, in_len := s.in_len + 1 }
          ((i + 1) % 256)
        exact ⟨f, m, n, by rw [h]⟩
      · split
        · exact ⟨_, _, _, rfl⟩
        · obtain ⟨f, m, n, h⟩ := ih
            { s with fin := rest, in_ := store s.in_ s.in_len c, in_len := s.in_len + 1 } 0
          exact ⟨f, m, n, by rw [h]⟩

theorem read_to_marker_frame (s : state_t) :
    ∃ (f : List Nat) (m : Nat → Nat) (n : Nat),
      (read_to_marker s).2 = { s with fin := f, in_ := m, in_len := n } := by
  obtain ⟨f, m, n, h⟩ := read_loop_frame s.fin { s with in_len := 0 } 0
  exact ⟨f, m, n, by rw [read_to_marker, h]⟩

theorem no_marker_in_replicate (n b : Nat) (hb : b ≠ 0) :
    ¬ marker <:+: List.replicate n b := by
  intro h
  have h0 : (0 : Nat) ∈ marker := by simp [marker]
  have := List.eq_of_mem_replicate (h.subset h0)
  exact hb this.symm

/-- The ingest branch when the reader does not return `EOF` and leaves a unit
that is not empty: the cache update, then the broadcast. -/
theorem ingest_branch_of_unit (s : state_t) (w : net) (h1 : (read_to_marker s).1 ≠ EOF)
    (h2 : (read_to_marker s).2.in_len ≠ 0) :
    ingest_branch s w
      = some (broadcast_loop s.max_clients 0 (cache_update (read_to_marker s).2) w) := by
  obtain ⟨o, l, k, hc⟩ := cache_update_frame (read_to_marker s).2
  obtain ⟨f, m, n, hr⟩ := read_to_marker_frame s
  have hmax : (cache_update (read_to_marker s).2).max_clients = s.max_clients := by
    rw [hc, hr]
  unfold ingest_branch
  simp only [if_neg h1, if_neg h2, hmax]

theorem head_replicate_append (n b : Nat) (l : List Nat) (h : 0 < n) :
    (List.replicate n b ++ l).head? = some b := by
  cases n with
  | zero => omega
  | succ k => simp [List.replicate_succ]

/-- Claim C7, as the code has it.  When `IN_SIZE` bytes are read in one call
and none of the first `IN_SIZE - 1` completes a start code for the reader
(the check for a full buffer comes first for the last one), `read_to_marker`
returns `0` with
`in_len = IN_SIZE`: these bytes are handed to the event loop as a unit of
`IN_SIZE` bytes, which it classifies, caches and broadcasts like any other
unit.  The input after these bytes is left unread, and the next call runs the
loop on it from an empty buffer and a cleared counter. -/
theorem ingest_overflow_returns_full_buffer (s : state_t) (w : net) (t : List Nat) (c : Nat)
    (rest : List Nat) (hfin : s.fin = t ++ c :: rest) (hlen : t.length + 1 = IN_SIZE)
    (hno : no_detection [] t) :
    (read_to_marker s).1 = 0
    ∧ (read_to_marker s).2.in_len = IN_SIZE
    ∧ unit_of (read_to_marker s).2 = t ++ [c]
    ∧ (read_to_marker s).2.fin = rest
    ∧ read_to_marker (read_to_marker s).2
        = read_loop rest { (read_to_marker s).2 with in_len := 0 } 0
    ∧ ingest_branch s w
        = some (broadcast_loop s.max_clients 0 (cache_update (read_to_marker s).2) w) := by
  obtain ⟨m, hr, hb⟩ := read_to_marker_at_capacity s t c rest hfin hlen hno
  have hf : (read_to_marker s).2.fin = rest := by rw [hr]
  refine ⟨by rw [hr], by rw [hr], by rw [hr]; exact hb, hf,
    congrArg (fun l => read_loop l { (read_to_marker s).2 with in_len := 0 } 0) hf, ?_⟩
  have h1 : ¬ ((read_to_marker s).1 = EOF) := by
    rw [hr]; exact (by decide : ¬ ((0 : Int) = EOF))
  have h2 : ¬ ((read_to_marker s).2.in_len = 0) := by
    rw [hr]; exact (by decide : ¬ (IN_SIZE = 0))
  exact ingest_branch_of_unit s w h1 h2

theorem ingest_overflow_returns_full_buffer_witness :
    (read_to_marker (init_state oversized_input 1)).1 = 0
    ∧ (read_to_marker (init_state oversized_input 1)).2.in_len = IN_SIZE
    ∧ unit_of (read_to_marker (init_state oversized_input 1)).2
        = List.replicate (IN_SIZE - 1) 0x21 ++ [0x21]
    ∧ (read_to_marker (init_state oversized_input 1)).2.fin = marker ++ [0x21, 7]
    ∧ read_to_marker (read_to_marker (init_state oversized_input 1)).2
        = read_loop (marker ++ [0x21, 7])
            { (read_to_marker (init_state oversized_input 1)).2 with in_len := 0 } 0
    ∧ ingest_branch (init_state oversized_input 1) demo_net
        = some (broadcast_loop (init_state oversized_input 1).max_clients 0
            (cache_update (read_to_marker (init_state oversized_input 1)).2) demo_net) :=
  ingest_overflow_returns_full_buffer (init_state oversized_input 1) demo_net
    (List.replicate (IN_SIZE - 1) 0x21) 0x21 (marker ++ [0x21, 7]) rfl
    (by rw [List.length_replicate]; decide)
    (no_detection_of_no_marker _ _ (no_marker_in_replicate _ _ (by decide)))

theorem broadcast_loop_out_len (n i : Nat) (s : state_t) (w : net) :
    (broadcast_loop n i s w).1.out_len = s.out_len := by
  obtain ⟨hf, _⟩ := broadcast_loop_frame n i s w
  rw [hf]

theorem cache_update_ordinary_out_len (s : state_t) (hb : s.in_ 0 = 0x21)
    (hfit : s.out_len + s.in_len + 4 ≤ OUT_SIZE) :
    (cache_update s).out_len = s.out_len + 4 + s.in_len := by
  have h : ¬ (s.out_len + s.in_len + 4 > OUT_SIZE) := by omega
  rw [cache_update_ordinary s hb, if_neg h]

/-- Claim C7 as stated fails.  On an input of `IN_SIZE` bytes `0x21` followed
by a start code, `read_to_marker` returns `0` with `in_len = IN_SIZE`, which is
not an empty result, and the event loop stores the frame of these bytes in
the cache (`out_len` becomes `IN_SIZE + 4`). -/
theorem ingest_overflow_counterexample :
    (read_to_marker (init_state oversized_input 1)).1 = 0
    ∧ (read_to_marker (init_state oversized_input 1)).2.in_len = IN_SIZE
    ∧ (read_to_marker (init_state oversized_input 1)).2.in_len ≠ 0
    ∧ unit_of (read_to_marker (init_state oversized_input 1)).2
        = List.replicate (IN_SIZE - 1) 0x21 ++ [0x21]
    ∧ (ingest_branch (init_state oversized_input 1) demo_net).map (fun r => r.1.out_len)
        = some (IN_SIZE + 4) := by
  obtain ⟨m, hr, hb⟩ := read_to_marker_at_capacity (init_state oversized_input 1)
    (List.replicate (IN_SIZE - 1) 0x21) 0x21 (marker ++ [0x21, 7]) rfl
    (by rw [List.length_replicate]; decide)
    (no_detection_of_no_marker _ _ (no_marker_in_replicate _ _ (by decide)))
  have h1 : ¬ ((read_to_marker (init_state oversized_input 1)).1 = EOF) := by
    rw [hr]; exact (by decide : ¬ ((0 : Int) = EOF))
  have h2 : ¬ ((read_to_marker (init_state oversized_input 1)).2.in_len = 0) := by
    rw [hr]; exact (by decide : ¬ (IN_SIZE = 0))
  refine ⟨by rw [hr], by rw [hr], h2, by rw [hr]; exact hb, ?_⟩
  rw [ingest_branch_of_unit _ _ h1 h2, Option.map_some']
  refine congrArg some ?_
  have hpos : 0 < IN_SIZE := by decide
  have hpos1 : 0 < IN_SIZE - 1 := by decide
  have hm0 : m 0 = 0x21 := by
    have h := head_bytes m IN_SIZE hpos
    rw [hb, head_replicate_append _ _ _ hpos1] at h
    exact (Option.some.inj h).symm
  have hin0 : (read_to_marker (init_state oversized_input 1)).2.in_ 0 = 0x21 := by
    rw [hr]; exact hm0
  have hol : (read_to_marker (init_state oversized_input 1)).2.out_len = 0 := by
    rw [hr]; rfl
  have hil : (read_to_marker (init_state oversized_input 1)).2.in_len = IN_SIZE := by
    rw [hr]
  have hfit : (read_to_marker (init_state oversized_input 1)).2.out_len
      + (read_to_marker (init_state oversized_input 1)).2.in_len + 4 ≤ OUT_SIZE := by
    rw [hol, hil]; decide
  rw [broadcast_loop_out_len, cache_update_ordinary_out_len _ hin0 hfit, hol, hil]
  omega

/-! ## Admission -/

/-- The slot search ends at the first empty slot of the range, or behind the
range when it has none. -/
theorem find_slot_spec (tbl : Nat → Int) :
    ∀ (n i : Nat), i ≤ find_slot tbl n i ∧ find_slot tbl n i ≤ i + n
      ∧ (find_slot tbl n i < i + n → tbl (find_slot tbl n i) = 0)
      ∧ ∀ k, i ≤ k → k < find_slot tbl n i → tbl k ≠ 0 := by
  intro n
  induction n with
  | zero =>
    intro i
    simp only [find_slot]
    exact ⟨Nat.le_refl _, by omega, fun h => by omega, fun k h1 h2 => by omega⟩
  | succ n ih =>
    intro i
    rw [find_slot]
    by_cases h0 : tbl i = 0
    · rw [if_pos h0]
      exact ⟨Nat.le_refl _, by omega, fun _ => h0, fun k h1 h2 => by omega⟩
    · rw [if_neg h0]
      obtain ⟨a, b, c, d⟩ := ih (i + 1)
      refine ⟨by omega, by omega, fun h => c (by omega), ?_⟩
      intro k h1 h2
      by_cases hk : k = i
      · rw [hk]; exact h0
      · exact d k (by omega) h2

theorem accept_same (w : net) (e : event) (h : 0 ≤ e.accepted) :
    (accept w e) e.accepted
      = { sent := [], calls := 0, script := e.peer, closed := false } := by
  have : ¬ (e.accepted < 0) := by omega
  simp [accept, this]

theorem accept_other (w : net) (e : event) (other : Int) (h : other ≠ e.accepted) :
    (accept w e) other = w other := by
  unfold accept
  split
  · rfl
  · exact Function.update_noteq h _ _

/-- The accept branch when no slot is empty: the connection is accepted and
closed, the state is untouched, and the branch ends in `continue`. -/
theorem accept_branch_full (e : event) (s : state_t) (w : net)
    (hfull : find_slot s.in_client s.max_clients 0 = s.max_clients) :
    accept_branch e s w
      = (true, s, if e.accepted ≥ 0 then close (accept w e) e.accepted else accept w e) := by
  unfold accept_branch
  simp only [if_pos hfull]

/-- The accept branch when `accept` fails: the slot that was chosen is empty
again, and the branch ends in `continue`. -/
theorem accept_branch_failed (e : event) (s : state_t) (w : net)
    (hslot : find_slot s.in_client s.max_clients 0 ≠ s.max_clients) (hfd : e.accepted < 0) :
    accept_branch e s w
      = (true,
          { s with in_client :=
                    store (store s.in_client (find_slot s.in_client s.max_clients 0) e.accepted)
                      (find_slot s.in_client s.max_clients 0) 0 },
          accept w e) := by
  unfold accept_branch
  simp only [if_neg hslot]
  have h : store s.in_client (find_slot s.in_client s.max_clients 0) e.accepted
      (find_slot s.in_client s.max_clients 0) < 0 := by
    simp [store, hfd]
  rw [if_pos h]

/-- The accept branch when a slot is empty and `accept` succeeds: the cache is
sent to the new connection; the slot keeps it when `send_block` returns `0`,
and is cleared, the connection closed, when not. -/
theorem accept_branch_accepted (e : event) (s : state_t) (w : net)
    (hslot : find_slot s.in_client s.max_clients 0 ≠ s.max_clients) (hfd : 0 ≤ e.accepted) :
    accept_branch e s w
      = if (send_block (accept w e) e.accepted s.out s.out_len).1 < 0 then
          (false,
            { s with in_client :=
                      store (store s.in_client (find_slot s.in_client s.max_clients 0) e.accepted)
                        (find_slot s.in_client s.max_clients 0) 0 },
            close (send_block (accept w e) e.accepted s.out s.out_len).2 e.accepted)
        else
          (false,
            { s with in_client :=
                      store s.in_client (find_slot s.in_client s.max_clients 0) e.accepted },
            (send_block (accept w e) e.accepted s.out s.out_len).2) := by
  unfold accept_branch
  simp only [if_neg hslot]
  have hst : store s.in_client (find_slot s.in_client s.max_clients 0) e.accepted
      (find_slot s.in_client s.max_clients 0) = e.accepted := by
    simp [store]
  have h : ¬ (store s.in_client (find_slot s.in_client s.max_clients 0) e.accepted
      (find_slot s.in_client s.max_clients 0) < 0) := by
    rw [hst]; omega
  rw [if_neg h, hst]

theorem store_store_zero (tbl : Nat → Int) (i : Nat) (v : Int) (k : Nat) (h0 : tbl i = 0) :
    store (store tbl i v) i 0 k = tbl k := by
  by_cases hk : k = i
  · simp [store, hk, h0]
  · simp [store, hk]

/-- The accept branch changes the slot table only, and there only the slot
that the search has found. -/
theorem accept_branch_frame (e : event) (s : state_t) (w : net) :
    (accept_branch e s w).2.1 = { s with in_client := (accept_branch e s w).2.1.in_client }
    ∧ ∀ k, k ≠ find_slot s.in_client s.max_clients 0 →
        (accept_branch e s w).2.1.in_client k = s.in_client k := by
  by_cases hfull : find_slot s.in_client s.max_clients 0 = s.max_clients
  · rw [accept_branch_full e s w hfull]
    exact ⟨rfl, fun _ _ => rfl⟩
  · by_cases hfd : e.accepted < 0
    · rw [accept_branch_failed e s w hfull hfd]
      exact ⟨rfl, fun k hk => by simp [store, hk]⟩
    · rw [accept_branch_accepted e s w hfull (by omega)]
      split
      · exact ⟨rfl, fun k hk => by simp [store, hk]⟩
      · exact ⟨rfl, fun k hk => by simp [store, hk]⟩

/-- Claim C9.  Admitting a connection when a slot is empty: the bytes sent to
the new connection are a prefix of the cache `out[0 .. out_len)` as it stands,
and nothing else; when `send_block` returns `0` they are the whole cache, the
slot that was found holds the connection and the connection is open; when it
does not, the slot is empty and the connection closed.  In both cases the
cache, every other slot and every other connection are as before, and the
branch does not end in `continue`, so a unit read in the same round is
broadcast after the cache was sent. -/
theorem join_correctness_of_admission (e : event) (s : state_t) (w : net)
    (hslot : find_slot s.in_client s.max_clients 0 < s.max_clients) (hfd : 0 < e.accepted) :
    (∃ pre, pre <+: cache_of s ∧ ((accept_branch e s w).2.2 e.accepted).sent = pre)
    ∧ ((send_block (accept w e) e.accepted s.out s.out_len).1 = 0 →
        ((accept_branch e s w).2.2 e.accepted).sent = cache_of s
        ∧ (accept_branch e s w).2.1.in_client (find_slot s.in_client s.max_clients 0)
            = e.accepted
        ∧ ((accept_branch e s w).2.2 e.accepted).closed = false)
    ∧ ((send_block (accept w e) e.accepted s.out s.out_len).1 ≠ 0 →
        (accept_branch e s w).2.1.in_client (find_slot s.in_client s.max_clients 0) = 0
        ∧ ((accept_branch e s w).2.2 e.accepted).closed = true)
    ∧ (accept_branch e s w).2.1
        = { s with in_client := (accept_branch e s w).2.1.in_client }
    ∧ cache_of (accept_branch e s w).2.1 = cache_of s
    ∧ (accept_branch e s w).2.1.out_key_frame_offset = s.out_key_frame_offset
    ∧ (∀ k, k ≠ find_slot s.in_client s.max_clients 0 →
        (accept_branch e s w).2.1.in_client k = s.in_client k)
    ∧ (∀ other, other ≠ e.accepted → (accept_branch e s w).2.2 other = w other)
    ∧ (accept_branch e s w).1 = false := by
  obtain ⟨hf1, hf2⟩ := accept_branch_frame e s w
  obtain ⟨so, sok, ⟨k, hk, spre⟩, _, scl⟩ := send_block_spec (accept w e) e.accepted s.out s.out_len
  have hfresh := accept_same w e (by omega)
  have hsent0 : ((accept w e) e.accepted).sent = [] := by rw [hfresh]
  have hcl0 : ((accept w e) e.accepted).closed = false := by rw [hfresh]
  rw [hsent0, List.nil_append] at spre sok
  have hprefix : bytes s.out k <+: cache_of s := by
    obtain ⟨d, hd⟩ : ∃ d, s.out_len = k + d := ⟨s.out_len - k, by omega⟩
    unfold cache_of
    rw [hd, bytes_add]
    exact List.prefix_append _ _
  have hcache : cache_of (accept_branch e s w).2.1 = cache_of s := by
    rw [hf1]; rfl
  have hoff : (accept_branch e s w).2.1.out_key_frame_offset = s.out_key_frame_offset := by
    rw [hf1]
  have hab := accept_branch_accepted e s w (by omega) (by omega)
  by_cases hneg : (send_block (accept w e) e.accepted s.out s.out_len).1 < 0
  · rw [if_pos hneg] at hab
    have hne : (send_block (accept w e) e.accepted s.out s.out_len).1 ≠ 0 := by omega
    have hnet : (accept_branch e s w).2.2
        = close (send_block (accept w e) e.accepted s.out s.out_len).2 e.accepted := by
      rw [hab]
    have hslot0 : (accept_branch e s w).2.1.in_client (find_slot s.in_client s.max_clients 0)
        = 0 := by
      rw [hab]; simp [store]
    refine ⟨⟨bytes s.out k, hprefix, ?_⟩, fun h => absurd h hne, fun _ => ⟨hslot0, ?_⟩, hf1,
      hcache, hoff, hf2, ?_, by rw [hab]⟩
    · rw [hnet, close_same, closed_conn, spre]
    · rw [hnet, close_same, closed_conn]
    · intro other ho
      rw [hnet, close_other _ _ _ ho, so other ho, accept_other w e other ho]
  · rw [if_neg hneg] at hab
    have heq : (send_block (accept w e) e.accepted s.out s.out_len).1 = 0 := by
      rcases send_block_fst (accept w e) e.accepted s.out s.out_len with h | h
      · exact h
      · omega
    have hnet : (accept_branch e s w).2.2
        = (send_block (accept w e) e.accepted s.out s.out_len).2 := by
      rw [hab]
    have hslot1 : (accept_branch e s w).2.1.in_client (find_slot s.in_client s.max_clients 0)
        = e.accepted := by
      rw [hab]; simp [store]
    refine ⟨⟨bytes s.out k, hprefix, by rw [hnet, spre]⟩, fun _ => ⟨?_, hslot1, ?_⟩,
      fun h => absurd heq h, hf1, hcache, hoff, hf2, ?_, by rw [hab]⟩
    · rw [hnet, sok heq, cache_of]
    · rw [hnet, scl, hcl0]
    · intro other ho
      rw [hnet, so other ho, accept_other w e other ho]

theorem join_correctness_of_admission_witness :
    ((accept_branch demo_event demo_state demo_net).2.2 demo_event.accepted).sent
        = cache_of demo_state
    ∧ (accept_branch demo_event demo_state demo_net).2.1.in_client
        (find_slot demo_state.in_client demo_state.max_clients 0) = demo_event.accepted
    ∧ ((accept_branch demo_event demo_state demo_net).2.2 demo_event.accepted).closed = false :=
  (join_correctness_of_admission demo_event demo_state demo_net (by decide) (by decide)).2.1
    (by decide)

/-! ## The slot table along a run of the event loop -/

theorem accept_branch_table (e : event) (s : state_t) (w : net) :
    (accept_branch e s w).2.1.max_clients = s.max_clients
    ∧ ∀ k, s.max_clients ≤ k → (accept_branch e s w).2.1.in_client k = s.in_client k := by
  obtain ⟨hf1, hf2⟩ := accept_branch_frame e s w
  refine ⟨by rw [hf1], fun k hk => ?_⟩
  by_cases hfull : find_slot s.in_client s.max_clients 0 = s.max_clients
  · rw [accept_branch_full e s w hfull]
  · have := (find_slot_spec s.in_client s.max_clients 0).2.1
    exact hf2 k (by omega)

theorem ingest_branch_table (s : state_t) (w : net) (r : state_t × net)
    (h : ingest_branch s w = some r) :
    r.1.max_clients = s.max_clients
    ∧ ∀ k, r.1.in_client k = s.in_client k ∨ r.1.in_client k = 0 := by
  obtain ⟨f, m, n, hr⟩ := read_to_marker_frame s
  obtain ⟨o, l, c, hc⟩ := cache_update_frame (read_to_marker s).2
  unfold ingest_branch at h
  simp only [] at h
  by_cases h1 : (read_to_marker s).1 = EOF
  · rw [if_pos h1] at h
    exact absurd h (by simp)
  · rw [if_neg h1] at h
    by_cases h2 : (read_to_marker s).2.in_len = 0
    · rw [if_pos h2] at h
      have hr1 : r.1 = (read_to_marker s).2 := by
        rw [← Option.some.inj h]
      rw [hr1, hr]
      exact ⟨rfl, fun _ => Or.inl rfl⟩
    · rw [if_neg h2] at h
      obtain ⟨b1, b2⟩ := broadcast_loop_frame (cache_update (read_to_marker s).2).max_clients 0
        (cache_update (read_to_marker s).2) w
      rw [← Option.some.inj h]
      constructor
      · rw [b1, hc, hr]
      · intro k
        have hsame : (cache_update (read_to_marker s).2).in_client k = s.in_client k := by
          rw [hc, hr]
        rw [← hsame]
        exact b2 k

/-- One round of the loop of `main` keeps the number of slots and leaves the
cells behind the table alone, unless it clears them. -/
theorem main_iteration_table (e : event) (s : state_t) (w : net) (r : state_t × net)
    (h : main_iteration e s w = some r) :
    r.1.max_clients = s.max_clients
    ∧ ∀ k, s.max_clients ≤ k → r.1.in_client k = s.in_client k ∨ r.1.in_client k = 0 := by
  have key : ∀ a : Bool × state_t × net,
      a.2.1.max_clients = s.max_clients →
      (∀ k, s.max_clients ≤ k → a.2.1.in_client k = s.in_client k) →
      (if a.1 then some a.2 else if e.fin_ready then ingest_branch a.2.1 a.2.2 else some a.2)
        = some r →
      r.1.max_clients = s.max_clients
      ∧ ∀ k, s.max_clients ≤ k → r.1.in_client k = s.in_client k ∨ r.1.in_client k = 0 := by
    intro a ha1 ha2 hres
    by_cases hc : a.1 = true
    · rw [if_pos hc] at hres
      rw [← Option.some.inj hres]
      exact ⟨ha1, fun k hk => Or.inl (ha2 k hk)⟩
    · rw [if_neg hc] at hres
      by_cases hfr : e.fin_ready = true
      · rw [if_pos hfr] at hres
        obtain ⟨i1, i2⟩ := ingest_branch_table a.2.1 a.2.2 r hres
        refine ⟨by rw [i1, ha1], fun k hk => ?_⟩
        rcases i2 k with h | h
        · exact Or.inl (by rw [h, ha2 k hk])
        · exact Or.inr h
      · rw [if_neg hfr] at hres
        rw [← Option.some.inj hres]
        exact ⟨ha1, fun k hk => Or.inl (ha2 k hk)⟩
  unfold main_iteration at h
  by_cases hsr : e.sock_ready = true
  · simp only [if_pos hsr] at h
    obtain ⟨t1, t2⟩ := accept_branch_table e s w
    exact key (accept_branch e s w) t1 t2 h
  · simp only [if_neg hsr] at h
    exact key (false, s, w) rfl (fun _ _ => rfl) h

/-- Along any run of the loop of `main` the number of slots stays what it was,
and no cell behind the table ever holds a connection. -/
theorem run_main_table :
    ∀ (es : List event) (s : state_t) (w : net),
      (∀ k, s.max_clients ≤ k → s.in_client k = 0) →
      (run_main es s w).1.max_clients = s.max_clients
      ∧ ∀ k, s.max_clients ≤ k → (run_main es s w).1.in_client k = 0 := by
  intro es
  induction es with
  | nil => intro s w h; exact ⟨rfl, h⟩
  | cons e es ih =>
    intro s w h
    rw [run_main]
    cases hm : main_iteration e s w with
    | none => exact ⟨rfl, h⟩
    | some r =>
      simp only []
      obtain ⟨m1, m2⟩ := main_iteration_table e s w r hm
      have h2 : ∀ k, r.1.max_clients ≤ k → r.1.in_client k = 0 := by
        intro k hk
        rw [m1] at hk
        rcases m2 k hk with h3 | h3
        · rw [h3]; exact h k hk
        · exact h3
      obtain ⟨a, b⟩ := ih r.1 r.2 h2
      exact ⟨by rw [a, m1], fun k hk => b k (by rw [m1]; exact hk)⟩

theorem populated_le (s : state_t) : populated s ≤ s.max_clients := by
  unfold populated
  have := List.length_filter_le (fun k => decide (s.in_client k ≠ 0)) (List.range s.max_clients)
  rw [List.length_range] at this
  exact this

/-- Claim C10.  The slot search of the accept branch finds the empty slot of
lowest index, or the number of slots when none is empty.  The branch changes
no other slot, and puts the connection in that slot when the cache could be
sent to it.  When no slot is empty the state is left as it is and the
accepted connection is closed.  Hence along every run from the table of `N`
empty slots the table keeps its `N` slots, at most `N` of them are populated,
and no connection is held outside the table. -/
theorem bounded_admission (e : event) (s : state_t) (w : net) :
    find_slot s.in_client s.max_clients 0 ≤ s.max_clients
    ∧ (find_slot s.in_client s.max_clients 0 < s.max_clients →
        s.in_client (find_slot s.in_client s.max_clients 0) = 0)
    ∧ (∀ k, k < find_slot s.in_client s.max_clients 0 → s.in_client k ≠ 0)
    ∧ (∀ k, k ≠ find_slot s.in_client s.max_clients 0 →
        (accept_branch e s w).2.1.in_client k = s.in_client k)
    ∧ (find_slot s.in_client s.max_clients 0 < s.max_clients → 0 < e.accepted →
        (send_block (accept w e) e.accepted s.out s.out_len).1 = 0 →
        (accept_branch e s w).2.1.in_client (find_slot s.in_client s.max_clients 0)
          = e.accepted)
    ∧ (find_slot s.in_client s.max_clients 0 = s.max_clients →
        (accept_branch e s w).2.1 = s
        ∧ (0 ≤ e.accepted → ((accept_branch e s w).2.2 e.accepted).closed = true))
    ∧ (∀ (es : List event) (input : List Nat) (N : Nat) (w0 : net),
        (run_main es (init_state input N) w0).1.max_clients = N
        ∧ populated (run_main es (init_state input N) w0).1 ≤ N
        ∧ ∀ k, N ≤ k → (run_main es (init_state input N) w0).1.in_client k = 0) := by
  obtain ⟨_, f2, f3, f4⟩ := find_slot_spec s.in_client s.max_clients 0
  obtain ⟨_, hf2⟩ := accept_branch_frame e s w
  refine ⟨by omega, fun h => f3 (by omega), fun k hk => f4 k (by omega) hk, hf2, ?_, ?_, ?_⟩
  · intro hslot hfd hok
    rw [accept_branch_accepted e s w (by omega) (by omega)]
    have hneg : ¬ ((send_block (accept w e) e.accepted s.out s.out_len).1 < 0) := by omega
    rw [if_neg hneg]
    simp [store]
  · intro hfull
    rw [accept_branch_full e s w hfull]
    refine ⟨rfl, fun hfd => ?_⟩
    have hge : e.accepted ≥ 0 := hfd
    simp only [if_pos hge]
    rw [close_same]
    rfl
  · intro es input N w0
    obtain ⟨a, b⟩ := run_main_table es (init_state input N) w0 (fun _ _ => rfl)
    have hN : (init_state input N).max_clients = N := rfl
    rw [hN] at a b
    refine ⟨a, ?_, b⟩
    have := populated_le (run_main es (init_state input N) w0).1
    rw [a] at this
    exact this

/-! ## The cache holds whole frames -/

/-- Claim C19.  In every state reached from the empty cache by processing a
sequence of units, whether their frames fit or not, the cache bytes
`out[0 .. out_len)` are the frames of a subsequence, in arrival order, of the
units processed; each of these units is a header, a key frame or an ordinary
frame; and the header offset is the length of the frames of the first units
of that subsequence, so it falls between two frames or at an end. -/
theorem cache_is_whole_frames (s : state_t) (he : s.out_len = 0)
    (hk : s.out_key_frame_offset = 0) (us : List (List Nat)) :
    ∃ pre post : List (List Nat),
      (pre ++ post).Sublist us
      ∧ (∀ v ∈ pre ++ post, is_header v ∨ is_sync v ∨ is_ordinary v)
      ∧ cache_of (process_units s us) = frames (pre ++ post)
      ∧ (process_units s us).out_len = (frames (pre ++ post)).length
      ∧ (process_units s us).out_key_frame_offset = (frames pre).length := by
  obtain ⟨hs, ks, os, ⟨ih, ik, _, io, ic, _, il, ioff⟩, hsub⟩ :=
    cache_frames_process_units s he hk us
  refine ⟨hs, ks ++ os, by rw [← List.append_assoc]; exact hsub, ?_, ?_, ?_, ioff⟩
  · intro v hv
    rcases List.mem_append.1 hv with h | h
    · exact Or.inl (ih v h)
    · rcases List.mem_append.1 h with h | h
      · exact Or.inr (Or.inl (ik v h))
      · exact Or.inr (Or.inr (io v h))
  · rw [ic, frames_append, frames_append, List.append_assoc]
  · rw [il, frames_append, frames_append, List.append_assoc]

theorem cache_is_whole_frames_witness :
    ∃ pre post : List (List Nat),
      (pre ++ post).Sublist [[0x27, 1], [0x99], [0x25, 2], [0x21, 3], [0x25, 4]]
      ∧ (∀ v ∈ pre ++ post, is_header v ∨ is_sync v ∨ is_ordinary v)
      ∧ cache_of (process_units (init_state [] 1)
          [[0x27, 1], [0x99], [0x25, 2], [0x21, 3], [0x25, 4]]) = frames (pre ++ post)
      ∧ (process_units (init_state [] 1)
          [[0x27, 1], [0x99], [0x25, 2], [0x21, 3], [0x25, 4]]).out_len
          = (frames (pre ++ post)).length
      ∧ (process_units (init_state [] 1)
          [[0x27, 1], [0x99], [0x25, 2], [0x21, 3], [0x25, 4]]).out_key_frame_offset
          = (frames pre).length :=
  cache_is_whole_frames (init_state [] 1) rfl rfl
    [[0x27, 1], [0x99], [0x25, 2], [0x21, 3], [0x25, 4]]

/-! ## The header region -/

theorem bytes_of_le (m : Nat → Nat) (a b : Nat) (h : a ≤ b) :
    bytes m b = bytes m a ++ slice m a (b - a) := by
  obtain ⟨d, rfl⟩ : ∃ d, b = a + d := ⟨b - a, by omega⟩
  rw [bytes_add, Nat.add_sub_cancel_left]

theorem bytes_eq_of_le (m m2 : Nat → Nat) (a b : Nat) (h : a ≤ b)
    (hb : bytes m b = bytes m2 b) : bytes m a = bytes m2 a := by
  rw [bytes_of_le m a b h, bytes_of_le m2 a b h] at hb
  exact (List.append_inj hb (by rw [length_bytes, length_bytes])).1

/-- One cache update for a unit that is not a header leaves the header offset
and the header region as they are. -/
theorem process_nonheader (s : state_t) (u : List Nat) (hu : ¬ is_header u)
    (hle : s.out_key_frame_offset ≤ s.out_len) :
    (process_unit s u).out_key_frame_offset = s.out_key_frame_offset
    ∧ header_of (process_unit s u) = header_of s
    ∧ (process_unit s u).out_key_frame_offset ≤ (process_unit s u).out_len := by
  by_cases hk : is_sync u
  · by_cases hfit : s.out_key_frame_offset + u.length + 4 ≤ OUT_SIZE
    · obtain ⟨_, e, l, f⟩ := process_sync_fits s u hk hfit
      exact ⟨f, e, by omega⟩
    · rw [process_truncating_overflow s u (Or.inr hk) (by omega)]
      exact ⟨rfl, rfl, Nat.le_refl _⟩
  · by_cases ho : is_ordinary u
    · by_cases hfit : s.out_len + u.length + 4 ≤ OUT_SIZE
      · obtain ⟨_, e, l, f⟩ := process_ordinary_fits s u ho hfit hle
        exact ⟨f, e, by omega⟩
      · rw [process_ordinary_overflow s u ho (by omega)]
        exact ⟨rfl, rfl, hle⟩
    · rw [process_other s u hu hk ho]
      exact ⟨rfl, rfl, hle⟩

/-- One cache update never moves the header offset back and never changes a
byte below it. -/
theorem process_unit_header_region (s : state_t) (u : List Nat)
    (hle : s.out_key_frame_offset ≤ s.out_len) :
    s.out_key_frame_offset ≤ (process_unit s u).out_key_frame_offset
    ∧ bytes (process_unit s u).out s.out_key_frame_offset = header_of s
    ∧ (process_unit s u).out_key_frame_offset ≤ (process_unit s u).out_len := by
  by_cases hh : is_header u
  · by_cases hfit : s.out_key_frame_offset + u.length + 4 ≤ OUT_SIZE
    · obtain ⟨_, e, l, f⟩ := process_header_fits s u hh hfit
      refine ⟨by omega, ?_, by omega⟩
      unfold header_of at e
      rw [f, List.append_assoc] at e
      exact bytes_prefix _ _ (4 + u.length) _ _ (length_bytes _ _)
        (by rw [← Nat.add_assoc]; exact e)
    · rw [process_truncating_overflow s u (Or.inl hh) (by omega)]
      exact ⟨Nat.le_refl _, rfl, Nat.le_refl _⟩
  · obtain ⟨f, e, l⟩ := process_nonheader s u hh hle
    refine ⟨by omega, ?_, l⟩
    unfold header_of at e
    rw [f] at e
    exact e

theorem process_units_cons (s : state_t) (u : List Nat) (us : List (List Nat)) :
    process_units s (u :: us) = process_units (process_unit s u) us := rfl

/-- Along a sequence of cache updates the header offset never moves back and
the bytes below it never change. -/
theorem process_units_header_region (us : List (List Nat)) :
    ∀ s : state_t, s.out_key_frame_offset ≤ s.out_len →
      s.out_key_frame_offset ≤ (process_units s us).out_key_frame_offset
      ∧ bytes (process_units s us).out s.out_key_frame_offset = header_of s
      ∧ (process_units s us).out_key_frame_offset ≤ (process_units s us).out_len := by
  induction us with
  | nil => intro s hle; exact ⟨Nat.le_refl _, rfl, hle⟩
  | cons u us ih =>
    intro s hle
    obtain ⟨a, b, c⟩ := process_unit_header_region s u hle
    obtain ⟨a2, b2, c2⟩ := ih (process_unit s u) c
    rw [process_units_cons]
    refine ⟨by omega, ?_, c2⟩
    rw [← b]
    exact bytes_eq_of_le _ _ _ _ a b2

theorem header_units_snoc (us : List (List Nat)) (u : List Nat) :
    header_units (us ++ [u]) = header_units us ++ (if is_header u then [u] else []) := by
  unfold header_units
  rw [List.filter_append]
  by_cases h : is_header u
  · simp [h]
  · simp [h]

/-- From the empty cache, when the frames of all the header units fit, the
header region is the frames of the header units processed so far. -/
theorem header_region_of_process_units (s : state_t) (he : s.out_len = 0)
    (hk : s.out_key_frame_offset = 0) (us : List (List Nat)) :
    (frames (header_units us)).length ≤ OUT_SIZE →
      header_of (process_units s us) = frames (header_units us)
      ∧ (process_units s us).out_key_frame_offset = (frames (header_units us)).length
      ∧ (process_units s us).out_key_frame_offset ≤ (process_units s us).out_len := by
  induction us using List.reverseRecOn with
  | nil =>
    intro _
    simp [process_units, header_units, frames, header_of, hk, he, bytes]
  | append_singleton us u ih =>
    intro hfit
    rw [header_units_snoc, frames_append, List.length_append] at hfit
    obtain ⟨e, f, l⟩ := ih (by omega)
    rw [process_units_snoc, header_units_snoc, frames_append]
    by_cases hh : is_header u
    · rw [if_pos hh] at hfit ⊢
      rw [frames_singleton, List.length_append, length_marker] at hfit
      obtain ⟨_, e1, l1, f1⟩ := process_header_fits (process_units s us) u hh (by omega)
      refine ⟨by rw [e1, e, frames_singleton, List.append_assoc], ?_, by omega⟩
      rw [f1, f, List.length_append, frames_singleton, List.length_append, length_marker]
      omega
    · rw [if_neg hh]
      obtain ⟨f1, e1, l1⟩ := process_nonheader (process_units s us) u hh l
      simp only [frames, List.append_nil]
      exact ⟨by rw [e1, e], by rw [f1, f], l1⟩

/-- Claim C18.  Along every sequence of processed units, from a state whose
header offset is not behind `out_len`, the header offset never decreases and
the bytes of the output buffer below it never change.  From the empty cache,
when the frames of the header units of the sequence fit in the output buffer,
the cache begins with the frames of these header units, in order, whatever
other units came in between, and the header offset is the length of that
prefix. -/
theorem header_region_append_only (s : state_t)
    (hle : s.out_key_frame_offset ≤ s.out_len) (us : List (List Nat)) :
    s.out_key_frame_offset ≤ (process_units s us).out_key_frame_offset
    ∧ bytes (process_units s us).out s.out_key_frame_offset
        = bytes s.out s.out_key_frame_offset
    ∧ (∀ vs : List (List Nat),
        header_of (process_units s us) <+: header_of (process_units s (us ++ vs)))
    ∧ (s.out_len = 0 → (frames (header_units us)).length ≤ OUT_SIZE →
        header_of (process_units s us) = frames (header_units us)
        ∧ (process_units s us).out_key_frame_offset = (frames (header_units us)).length
        ∧ frames (header_units us) <+: cache_of (process_units s us)) := by
  obtain ⟨a, b, c⟩ := process_units_header_region us s hle
  refine ⟨a, b, ?_, ?_⟩
  · intro vs
    obtain ⟨a2, b2, _⟩ := process_units_header_region vs (process_units s us) c
    have hsplit : process_units s (us ++ vs) = process_units (process_units s us) vs := by
      simp [process_units, List.foldl_append]
    rw [hsplit]
    unfold header_of at b2 ⊢
    rw [← b2, bytes_of_le _ _ _ a2]
    exact List.prefix_append _ _
  · intro he hfit
    obtain ⟨e, f, l⟩ := header_region_of_process_units s he (by omega) us hfit
    refine ⟨e, f, ?_⟩
    rw [← e]
    unfold cache_of header_of
    rw [bytes_of_le _ _ _ l]
    exact List.prefix_append _ _

theorem header_region_append_only_witness :
    header_of (process_units (init_state [] 1) [[0x27, 1], [0x25, 2], [0x21, 3], [0x28, 4], [0x99]])
        = frames (header_units [[0x27, 1], [0x25, 2], [0x21, 3], [0x28, 4], [0x99]])
    ∧ (process_units (init_state [] 1)
        [[0x27, 1], [0x25, 2], [0x21, 3], [0x28, 4], [0x99]]).out_key_frame_offset
        = (frames (header_units [[0x27, 1], [0x25, 2], [0x21, 3], [0x28, 4], [0x99]])).length
    ∧ frames (header_units [[0x27, 1], [0x25, 2], [0x21, 3], [0x28, 4], [0x99]])
        <+: cache_of (process_units (init_state [] 1)
          [[0x27, 1], [0x25, 2], [0x21, 3], [0x28, 4], [0x99]]) :=
  (header_region_append_only (init_state [] 1) (Nat.le_refl 0)
    [[0x27, 1], [0x25, 2], [0x21, 3], [0x28, 4], [0x99]]).2.2.2 rfl (by decide)

/-! ## Bounds of the cache -/

/-- The cache update keeps `out_key_frame_offset ≤ out_len ≤ OUT_SIZE`. -/
theorem cache_update_bounds (s : state_t)
    (h : s.out_key_frame_offset ≤ s.out_len ∧ s.out_len ≤ OUT_SIZE) :
    (cache_update s).out_key_frame_offset ≤ (cache_update s).out_len
    ∧ (cache_update s).out_len ≤ OUT_SIZE := by
  obtain ⟨h1, h2⟩ := h
  by_cases hh : s.in_ 0 = 0x27 ∨ s.in_ 0 = 0x28
  · rw [cache_update_header s hh]
    split
    · exact ⟨Nat.le_refl _, by show s.out_key_frame_offset ≤ OUT_SIZE; omega⟩
    · exact ⟨Nat.le_refl _, by show s.out_key_frame_offset + 4 + s.in_len ≤ OUT_SIZE; omega⟩
  · by_cases hk : s.in_ 0 = 0x25
    · rw [cache_update_sync s hk]
      split
      · exact ⟨Nat.le_refl _, by show s.out_key_frame_offset ≤ OUT_SIZE; omega⟩
      · exact ⟨by show s.out_key_frame_offset ≤ s.out_key_frame_offset + 4 + s.in_len; omega,
          by show s.out_key_frame_offset + 4 + s.in_len ≤ OUT_SIZE; omega⟩
    · by_cases ho : s.in_ 0 = 0x21
      · rw [cache_update_ordinary s ho]
        split
        · exact ⟨h1, h2⟩
        · exact ⟨by show s.out_key_frame_offset ≤ s.out_len + 4 + s.in_len; omega,
            by show s.out_len + 4 + s.in_len ≤ OUT_SIZE; omega⟩
      · rw [cache_update_other s (fun h => hh (Or.inl h)) (fun h => hh (Or.inr h)) hk ho]
        exact ⟨h1, h2⟩

theorem process_units_bounds (us : List (List Nat)) :
    ∀ s : state_t, s.out_key_frame_offset ≤ s.out_len ∧ s.out_len ≤ OUT_SIZE →
      (process_units s us).out_key_frame_offset ≤ (process_units s us).out_len
      ∧ (process_units s us).out_len ≤ OUT_SIZE := by
  induction us with
  | nil => intro s h; exact h
  | cons u us ih =>
    intro s h
    rw [process_units_cons]
    exact ih _ (cache_update_bounds (load_unit s u) h)

/-- Every index at which `write_frame` stores is below `OUT_SIZE`, and no other
cell of the output buffer changes. -/
theorem write_frame_indices_spec (t : state_t) :
    (∀ k ∈ write_frame_indices t, k < OUT_SIZE)
    ∧ (∀ k, k ∉ write_frame_indices t → (write_frame t).out k = t.out k) := by
  unfold write_frame_indices
  rw [write_frame_eq]
  by_cases hg : t.out_len + t.in_len + 4 > OUT_SIZE
  · simp only [if_pos hg]
    exact ⟨fun k hk => by simp at hk, fun _ _ => trivial⟩
  · simp only [if_neg hg]
    constructor
    · intro k hk
      simp only [List.mem_append, List.mem_cons, List.mem_singleton, List.not_mem_nil,
        or_false, List.mem_range'_1] at hk
      omega
    · intro k hk
      simp only [List.mem_append, List.mem_cons, List.mem_singleton, List.not_mem_nil,
        or_false, List.mem_range'_1, not_or, not_and] at hk
      obtain ⟨⟨h0, h1, h2, h3⟩, h4⟩ := hk
      have h5 : ¬ (t.out_len + 4 ≤ k ∧ k < t.out_len + 4 + t.in_len) := fun h => by
        have := h4 h.1
        omega
      simp [framed_out, memcpy, store, h0, h1, h2, h3, h5]

/-- Claim C15.  In every state reached from the empty cache by processing
units of at most `IN_SIZE` bytes, `out_key_frame_offset ≤ out_len ≤ OUT_SIZE`;
every index at which a call of `write_frame` stores a byte is below
`OUT_SIZE`, whatever the state it is called in, and it changes no other cell;
and the sum `out_len + in_len + 4` that `write_frame` compares with `OUT_SIZE`
stays below `2 ^ 32`, so it does not wrap in a `size_t`. -/
theorem cache_bounds_invariant (s : state_t) (he : s.out_len = 0)
    (hk : s.out_key_frame_offset = 0) (us : List (List Nat))
    (hlen : ∀ u ∈ us, u.length ≤ IN_SIZE) :
    (process_units s us).out_key_frame_offset ≤ (process_units s us).out_len
    ∧ (process_units s us).out_len ≤ OUT_SIZE
    ∧ (∀ t : state_t, (∀ k ∈ write_frame_indices t, k < OUT_SIZE)
        ∧ (∀ k, k ∉ write_frame_indices t → (write_frame t).out k = t.out k))
    ∧ (∀ (vs : List (List Nat)) (u : List Nat), vs ++ [u] <+: us →
        (process_units s vs).out_len + (load_unit (process_units s vs) u).in_len + 4 < 2 ^ 32
        ∧ (process_units s vs).out_key_frame_offset
          + (load_unit (process_units s vs) u).in_len + 4 < 2 ^ 32) := by
  have hb : ∀ vs, (process_units s vs).out_key_frame_offset ≤ (process_units s vs).out_len
      ∧ (process_units s vs).out_len ≤ OUT_SIZE :=
    fun vs => process_units_bounds vs s (by omega)
  refine ⟨(hb us).1, (hb us).2, write_frame_indices_spec, ?_⟩
  intro vs u hpre
  have hu : u.length ≤ IN_SIZE :=
    hlen u (hpre.subset (List.mem_append_right _ (List.mem_singleton_self u)))
  obtain ⟨b1, b2⟩ := hb vs
  have hin : IN_SIZE = 1048576 := rfl
  have hout : OUT_SIZE = 8388608 := rfl
  have h32 : (2 : Nat) ^ 32 = 4294967296 := by norm_num
  rw [load_unit_in_len, h32]
  omega

theorem cache_bounds_invariant_witness :
    (process_units (init_state [] 1) [[0x27, 1], [0x25, 2], [0x21, 3]]).out_key_frame_offset
        ≤ (process_units (init_state [] 1) [[0x27, 1], [0x25, 2], [0x21, 3]]).out_len
    ∧ (process_units (init_state [] 1) [[0x27, 1], [0x25, 2], [0x21, 3]]).out_len ≤ OUT_SIZE :=
  ⟨(cache_bounds_invariant (init_state [] 1) rfl rfl [[0x27, 1], [0x25, 2], [0x21, 3]]
      (by decide)).1,
   (cache_bounds_invariant (init_state [] 1) rfl rfl [[0x27, 1], [0x25, 2], [0x21, 3]]
      (by decide)).2.1⟩

/-! ## Units that are not cached -/

/-- The broadcast loop reads the unit and the slot table of the state only:
two states that agree on them are treated alike. -/
theorem broadcast_loop_congr :
    ∀ (n i : Nat) (s s2 : state_t) (w : net), s2.in_ = s.in_ → s2.in_len = s.in_len →
      s2.in_client = s.in_client →
      (broadcast_loop n i s2 w).2 = (broadcast_loop n i s w).2
      ∧ (broadcast_loop n i s2 w).1.in_client = (broadcast_loop n i s w).1.in_client := by
  intro n
  induction n with
  | zero => intro i s s2 w _ _ hc; exact ⟨rfl, hc⟩
  | succ n ih =>
    intro i s s2 w hin hlen hc
    have hsf : ∀ fd, send_frame s2 w fd = send_frame s w fd := by
      intro fd
      rw [send_frame_eq, send_frame_eq, hin, hlen]
    rw [broadcast_loop, broadcast_loop, hc]
    by_cases h0 : s.in_client i = 0
    · rw [if_pos h0, if_pos h0]
      exact ih (i + 1) s s2 w hin hlen hc
    · rw [if_neg h0, if_neg h0]
      simp only [hsf]
      by_cases hneg : (send_frame s w (s.in_client i)).1 < 0
      · simp only [if_pos hneg]
        exact ih (i + 1) _ _ _ hin hlen rfl
      · simp only [if_neg hneg]
        exact ih (i + 1) s s2 _ hin hlen hc

/-- Claim C12.  A unit whose first byte is none of `0x21`, `0x25`, `0x27`,
`0x28` leaves the state as it is, so the cache bytes, `out_len` and the header
offset do not change.  What the broadcast loop does never depends on the cache
update, whatever the role of the unit: run after the update it leaves the same
connections and the same slot table as run before it.  So the unit is sent as
start code and unit to every populated slot: in a table whose populated slots
hold different connections, a slot whose write succeeds keeps its connection,
which has received exactly the start code and the unit. -/
theorem unrecognized_forwarded_not_cached (s : state_t) (w : net)
    (h1 : s.in_ 0 ≠ 0x21) (h2 : s.in_ 0 ≠ 0x25) (h3 : s.in_ 0 ≠ 0x27) (h4 : s.in_ 0 ≠ 0x28) :
    cache_update s = s
    ∧ cache_of (cache_update s) = cache_of s
    ∧ (cache_update s).out_len = s.out_len
    ∧ (cache_update s).out_key_frame_offset = s.out_key_frame_offset
    ∧ (∀ t : state_t,
        (broadcast_loop (cache_update t).max_clients 0 (cache_update t) w).2
            = (broadcast_loop t.max_clients 0 t w).2
        ∧ (broadcast_loop (cache_update t).max_clients 0 (cache_update t) w).1.in_client
            = (broadcast_loop t.max_clients 0 t w).1.in_client)
    ∧ (range_distinct s.in_client 0 s.max_clients → ∀ j, j < s.max_clients →
        s.in_client j ≠ 0 → (send_frame s w (s.in_client j)).1 = 0 →
        (broadcast_loop (cache_update s).max_clients 0 (cache_update s) w).1.in_client j
            = s.in_client j
        ∧ ((broadcast_loop (cache_update s).max_clients 0 (cache_update s) w).2
            (s.in_client j)).sent = (w (s.in_client j)).sent ++ marker ++ unit_of s) := by
  have hsame : cache_update s = s := cache_update_other s h3 h4 h2 h1
  refine ⟨hsame, by rw [hsame], by rw [hsame], by rw [hsame], ?_, ?_⟩
  · intro t
    obtain ⟨o, l, k, hc⟩ := cache_update_frame t
    have hm : (cache_update t).max_clients = t.max_clients := by rw [hc]
    rw [hm]
    exact broadcast_loop_congr t.max_clients 0 t (cache_update t) w (by rw [hc]) (by rw [hc])
      (by rw [hc])
  · intro hd j hj h0 hs
    rw [hsame]
    obtain ⟨_, _, _, _, b5⟩ := broadcast_loop_spec s.max_clients 0 s w hd
    obtain ⟨_, sok, _, _, _⟩ := send_frame_spec s w (s.in_client j)
    obtain ⟨a, b⟩ := (b5 j (by omega) (by omega) h0).1 hs
    exact ⟨a, by rw [b, sok hs]⟩

theorem unrecognized_forwarded_not_cached_witness :
    cache_update (load_unit demo_state [0x99, 1]) = load_unit demo_state [0x99, 1]
    ∧ ((broadcast_loop (cache_update (load_unit demo_state [0x99, 1])).max_clients 0
        (cache_update (load_unit demo_state [0x99, 1])) demo_net).2 7).sent
        = (demo_net 7).sent ++ marker ++ unit_of (load_unit demo_state [0x99, 1]) :=
  ⟨(unrecognized_forwarded_not_cached (load_unit demo_state [0x99, 1]) demo_net
      (by decide) (by decide) (by decide) (by decide)).1,
   ((unrecognized_forwarded_not_cached (load_unit demo_state [0x99, 1]) demo_net
      (by decide) (by decide) (by decide) (by decide)).2.2.2.2.2
      (by decide) 2 (by decide) (by decide) (by decide)).2⟩

/-- Claim C13.  When `read_to_marker` returns a unit of length 0, the ingest
branch ends there (`continue`): nothing is sent, no connection changes, and
the state it leaves differs from the one before the call in the input and the
incoming buffer only, so the cache, the header offset and the slot table are
as before.  A round of the loop that reads such a unit leaves the connections
as they were before the ingest branch: as at the start of the round when no
connection arrived, and as the accept branch left them otherwise.  This is
what happens when the input starts with a start code. -/
theorem empty_unit_ignored (e : event) (s : state_t) (w : net)
    (h1 : (read_to_marker s).1 ≠ EOF) (h2 : (read_to_marker s).2.in_len = 0) :
    ingest_branch s w = some ((read_to_marker s).2, w)
    ∧ (e.sock_ready = false → e.fin_ready = true →
        main_iteration e s w = some ((read_to_marker s).2, w))
    ∧ (∀ (s0 : state_t) (w0 : net), e.sock_ready = true → e.fin_ready = true →
        accept_branch e s0 w0 = (false, s, w) →
        main_iteration e s0 w0 = some ((read_to_marker s).2, w))
    ∧ (read_to_marker s).2.out = s.out
    ∧ (read_to_marker s).2.out_len = s.out_len
    ∧ cache_of (read_to_marker s).2 = cache_of s
    ∧ (read_to_marker s).2.out_key_frame_offset = s.out_key_frame_offset
    ∧ (read_to_marker s).2.in_client = s.in_client
    ∧ (read_to_marker s).2.max_clients = s.max_clients
    ∧ (∀ (t : state_t) (rest : List Nat), t.fin = marker ++ rest →
        (read_to_marker t).1 = 0 ∧ (read_to_marker t).2.in_len = 0
        ∧ (read_to_marker t).2.fin = rest) := by
  obtain ⟨f, m, n, hr⟩ := read_to_marker_frame s
  have hi : ingest_branch s w = some ((read_to_marker s).2, w) := by
    unfold ingest_branch
    simp only [if_neg h1, if_pos h2]
  refine ⟨hi, ?_, ?_, by rw [hr], by rw [hr], by rw [hr]; rfl, by rw [hr], by rw [hr],
    by rw [hr], ?_⟩
  · intro hs hf
    unfold main_iteration
    simp only [hs, hf, if_true, Bool.false_eq_true, if_false]
    exact hi
  · intro s0 w0 hs hf ha
    unfold main_iteration
    simp only [hs, hf, if_true, ha, Bool.false_eq_true, if_false]
    exact hi
  · intro t rest ht
    obtain ⟨m2, hr2, _⟩ := read_to_marker_at_marker t [] rest (by simpa using ht)
      (by simp [IN_SIZE]) (by decide) (by decide)
    rw [hr2]
    exact ⟨rfl, rfl, rfl⟩

theorem empty_unit_ignored_witness :
    ingest_branch (init_state (marker ++ marker ++ [0x21]) 1) demo_net
      = some ((read_to_marker (init_state (marker ++ marker ++ [0x21]) 1)).2, demo_net) :=
  (empty_unit_ignored demo_event (init_state (marker ++ marker ++ [0x21]) 1) demo_net
    (by decide) (by decide)).1

/-! ## The reader: detection rule and bounds -/

theorem leading_zeros_le_length (ys : List Nat) : leading_zeros ys ≤ ys.length := by
  induction ys with
  | nil => simp [leading_zeros]
  | cons a t ih =>
    cases a with
    | zero => simp [leading_zeros]; omega
    | succ n => simp [leading_zeros]

theorem trailing_zeros_le_length (xs : List Nat) : trailing_zeros xs ≤ xs.length := by
  unfold trailing_zeros
  have := leading_zeros_le_length xs.reverse
  simpa using this

theorem trailing_zeros_replicate (n : Nat) : trailing_zeros (List.replicate n 0) = n := by
  unfold trailing_zeros
  rw [List.reverse_replicate]
  induction n with
  | zero => simp [leading_zeros]
  | succ n ih => simp [List.replicate_succ, leading_zeros, ih]

/-- The round of the loop in which a byte completes a start code: the call
returns `0`, the four bytes read last are the start code, and `in_len` is the
number of bytes read in the call minus four, which does not wrap. -/
theorem read_loop_detect (c : Nat) (rest xs : List Nat) (s : state_t) (i : Nat)
    (hinv : reader_inv xs s i) (hlen : xs.length + 1 < IN_SIZE) (hdet : detects xs c) :
    4 ≤ xs.length + 1
    ∧ (∃ u, xs ++ [c] = u ++ marker ∧ u.length = xs.length + 1 - 4)
    ∧ read_loop (c :: rest) s i
        = (0, { s with fin := rest, in_ := store s.in_ s.in_len c,
                       in_len := xs.length + 1 - 4 }) := by
  obtain ⟨hl, hb, hi⟩ := hinv
  obtain ⟨hc, h3⟩ := hdet
  have htz := trailing_zeros_le_length xs
  have hge : 3 ≤ trailing_zeros xs := by omega
  obtain ⟨u, hu⟩ := marker_suffix_of_trailing_zeros xs hge
  have hul : u.length + 4 = xs.length + 1 := by
    have := congrArg List.length hu
    simpa [length_marker] using this
  refine ⟨by omega, ⟨u, by rw [hc, hu], by omega⟩, ?_⟩
  have hfull : ¬ (s.in_len + 1 = IN_SIZE) := by omega
  have hc0 : ¬ (c = 0) := by omega
  have hsub : size_sub (s.in_len + 1) 4 = xs.length + 1 - 4 := by
    have e : s.in_len + 1 = (xs.length + 1 - 4) + 4 := by omega
    rw [e, size_sub_four _ (by omega)]
  rw [read_loop]
  simp only [if_neg hfull, if_neg hc0]
  rw [if_pos ⟨hc, by omega⟩, hsub]

/-- The loop of `read_to_marker` from a state inside a call: the bytes it
consumes are stored at the indices from `in_len` on, all below `IN_SIZE`; the
`in_len` it leaves is the number of bytes read in the call, or four less when
a start code ended the unit, in which case at least four bytes were read. -/
theorem read_loop_bounds :
    ∀ (l xs : List Nat) (s : state_t) (i : Nat), reader_inv xs s i → xs.length < IN_SIZE →
      (read_loop l s i).2.fin.length ≤ l.length
      ∧ xs.length + (l.length - (read_loop l s i).2.fin.length) ≤ IN_SIZE
      ∧ (∀ k, xs.length + (l.length - (read_loop l s i).2.fin.length) ≤ k →
          (read_loop l s i).2.in_ k = s.in_ k)
      ∧ (∀ k, k < xs.length → (read_loop l s i).2.in_ k = s.in_ k)
      ∧ ((read_loop l s i).2.in_len
            = xs.length + (l.length - (read_loop l s i).2.fin.length)
          ∨ ((read_loop l s i).1 = 0
              ∧ 4 ≤ xs.length + (l.length - (read_loop l s i).2.fin.length)
              ∧ (read_loop l s i).2.in_len
                  = xs.length + (l.length - (read_loop l s i).2.fin.length) - 4)) := by
  intro l
  induction l with
  | nil =>
    intro xs s i hinv hlen
    obtain ⟨hl, _, _⟩ := hinv
    have hr : (read_loop [] s i).2 = { s with fin := [] } := by
      rw [read_loop]
      split <;> rfl
    rw [hr]
    simp only [List.length_nil, Nat.sub_self, Nat.add_zero, Nat.le_refl, true_and]
    exact ⟨by omega, fun _ _ => trivial, fun _ _ => trivial, Or.inl hl⟩
  | cons c rest ih =>
    intro xs s i hinv hlen
    have hl := hinv.1
    by_cases hfull : s.in_len + 1 = IN_SIZE
    · have hr : read_loop (c :: rest) s i
          = (0, { s with fin := rest, in_ := store s.in_ s.in_len c, in_len := s.in_len + 1 }) := by
        rw [read_loop]
        simp only [if_pos hfull]
      rw [hr]
      simp only [List.length_cons]
      refine ⟨by omega, by omega, fun k hk => ?_, fun k hk => ?_, Or.inl (by omega)⟩
      · simp [store]; omega
      · simp [store]; omega
    · by_cases hdet : detects xs c
      · obtain ⟨h4, _, hr⟩ := read_loop_detect c rest xs s i hinv (by omega) hdet
        rw [hr]
        simp only [List.length_cons]
        refine ⟨by omega, by omega, fun k hk => ?_, fun k hk => ?_,
          Or.inr ⟨trivial, by omega, by omega⟩⟩
        · simp [store]; omega
        · simp [store]; omega
      · obtain ⟨hstep, hinv1⟩ := read_loop_step c rest xs s i hinv (by omega) hdet
        obtain ⟨a, b, c1, c2, d⟩ := ih (xs ++ [c]) _ _ hinv1
          (by simp only [List.length_append, List.length_cons, List.length_nil]; omega)
        rw [hstep]
        simp only [List.length_append, List.length_cons, List.length_nil] at a b c1 c2 d ⊢
        refine ⟨by omega, by omega, fun k hk => ?_, fun k hk => ?_, ?_⟩
        · rw [c1 k (by omega)]
          simp [store]; omega
        · rw [c2 k (by omega)]
          simp [store]; omega
        · rcases d with d | ⟨d0, d1, d2⟩
          · exact Or.inl (by omega)
          · exact Or.inr ⟨d0, by omega, by omega⟩

/-- Claim C17.  In every call of `read_to_marker`, on every input and from
every state: at most `IN_SIZE` bytes are read; a cell of the incoming buffer
whose index is not below the number of bytes read, and so every cell from
`IN_SIZE` on, is left as it was, so every byte is stored below `IN_SIZE`; the
`in_len` the call leaves is at most `IN_SIZE`, and it is the number of bytes
read, or that number minus four when a start code ended the unit, in which
case at least four bytes were read.  At the round that completes a start
code `in_len` is at least 4, and the unsigned subtraction gives `in_len - 4`
without wrapping. -/
theorem reader_bounds (s : state_t) :
    (read_to_marker s).2.in_len ≤ IN_SIZE
    ∧ (read_to_marker s).2.fin.length ≤ s.fin.length
    ∧ s.fin.length - (read_to_marker s).2.fin.length ≤ IN_SIZE
    ∧ (∀ k, s.fin.length - (read_to_marker s).2.fin.length ≤ k →
        (read_to_marker s).2.in_ k = s.in_ k)
    ∧ (∀ k, IN_SIZE ≤ k → (read_to_marker s).2.in_ k = s.in_ k)
    ∧ ((read_to_marker s).2.in_len = s.fin.length - (read_to_marker s).2.fin.length
        ∨ ((read_to_marker s).1 = 0
            ∧ 4 ≤ s.fin.length - (read_to_marker s).2.fin.length
            ∧ (read_to_marker s).2.in_len
                = s.fin.length - (read_to_marker s).2.fin.length - 4))
    ∧ (∀ (xs : List Nat) (t : state_t) (i c : Nat), reader_inv xs t i →
        xs.length + 1 < IN_SIZE → detects xs c →
        4 ≤ t.in_len + 1 ∧ size_sub (t.in_len + 1) 4 = t.in_len + 1 - 4) := by
  obtain ⟨a, b, c1, _, d⟩ := read_loop_bounds s.fin [] { s with in_len := 0 } 0
    (reader_inv_start s) (by simp [IN_SIZE])
  simp only [List.length_nil, Nat.zero_add] at a b c1 d
  have hr : read_to_marker s = read_loop s.fin { s with in_len := 0 } 0 := rfl
  rw [hr]
  refine ⟨?_, a, b, c1, fun k hk => c1 k (by omega), d, ?_⟩
  · rcases d with d | ⟨_, _, d⟩
    · omega
    · omega
  · intro xs t i c hinv hlen hdet
    obtain ⟨h4, _, _⟩ := read_loop_detect c [] xs t i hinv hlen hdet
    have hl := hinv.1
    refine ⟨by omega, ?_⟩
    have e : t.in_len + 1 = (xs.length + 1 - 4) + 4 := by omega
    rw [e, size_sub_four _ (by omega)]
    omega

theorem no_detection_snoc (xs ys : List Nat) (c : Nat) (h : no_detection xs ys)
    (hc : ¬ detects (xs ++ ys) c) : no_detection xs (ys ++ [c]) := by
  intro zs d hpre hdet
  rcases List.prefix_concat_iff.1 hpre with h1 | h1
  · have hzs : zs = ys := (List.append_inj' h1 rfl).1
    have hd : d = c := by
      have := (List.append_inj' h1 rfl).2
      simpa using this
    rw [hzs, hd] at hdet
    exact hc hdet
  · exact h zs d h1 hdet

theorem no_detection_replicate_zero (n : Nat) : no_detection [] (List.replicate n 0) := by
  intro zs c hpre hdet
  have hmem : c ∈ List.replicate n 0 :=
    hpre.subset (List.mem_append_right _ (List.mem_singleton_self c))
  have := List.eq_of_mem_replicate hmem
  have := hdet.1
  omega

/-- The byte read after `t` in a call that has completed no start code so far
and stays below capacity: it ends the unit exactly when it completes a start
code for the reader. -/
theorem read_to_marker_next_byte (s : state_t) (t : List Nat) (c : Nat) (rest : List Nat)
    (hfin : s.fin = t ++ c :: rest) (hlen : t.length + 1 < IN_SIZE)
    (hnd : no_detection [] t) :
    (detects t c →
      ∃ u, t ++ [c] = u ++ marker ∧ (read_to_marker s).1 = 0
        ∧ unit_of (read_to_marker s).2 = u ∧ (read_to_marker s).2.in_len = u.length
        ∧ (read_to_marker s).2.fin = rest)
    ∧ (¬ detects t c →
        ∃ (f : List Nat) (m : Nat → Nat),
          read_to_marker s
            = read_loop rest { s with fin := f, in_ := m, in_len := t.length + 1 }
                (trailing_zeros (t ++ [c]) % 256)
          ∧ bytes m (t.length + 1) = t ++ [c]) := by
  have e0 : ∀ l, s.fin = l → read_to_marker s = read_loop l { s with in_len := 0 } 0 := by
    intro l hl
    unfold read_to_marker
    exact congrArg (fun l => read_loop l { s with in_len := 0 } 0) hl
  constructor
  · intro hdet
    obtain ⟨f, m, hrun, hbytes⟩ := read_loop_run (c :: rest) t [] { s with in_len := 0 } 0
      (reader_inv_start s) (by simp only [List.length_nil]; omega) hnd
    simp only [List.length_nil, Nat.zero_add, List.nil_append] at hrun hbytes
    have hinv : reader_inv t
        { s with fin := f, in_ := m, in_len := t.length } (trailing_zeros t % 256) :=
      ⟨rfl, hbytes, rfl⟩
    obtain ⟨h4, ⟨u, hu, hul⟩, hr⟩ := read_loop_detect c rest t _ _ hinv hlen hdet
    refine ⟨u, hu, ?_⟩
    rw [e0 _ hfin, hrun, hr]
    refine ⟨rfl, ?_, hul.symm, rfl⟩
    show bytes (store m t.length c) (t.length + 1 - 4) = u
    have hb2 : bytes (store m t.length c) (t.length + 1) = u ++ marker := by
      rw [bytes_store_succ, hbytes, hu]
    have e : t.length + 1 = (t.length + 1 - 4) + 4 := by omega
    rw [e] at hb2
    exact bytes_prefix _ _ 4 u marker hul hb2
  · intro hdet
    have hsplit : s.fin = (t ++ [c]) ++ rest := by rw [hfin]; simp
    obtain ⟨f, m, hrun, hbytes⟩ := read_loop_run rest (t ++ [c]) [] { s with in_len := 0 } 0
      (reader_inv_start s)
      (by simp only [List.length_nil, List.length_append, List.length_cons]; omega)
      (no_detection_snoc [] t c hnd (by simpa using hdet))
    simp only [List.length_nil, Nat.zero_add, List.nil_append, List.length_append,
      List.length_cons] at hrun hbytes
    exact ⟨f, m, by rw [e0 _ hsplit, hrun], hbytes⟩

/-- Claim C16.  Within one call of `read_to_marker` that has completed no start
code so far and stays below capacity, the byte read next ends the unit if and
only if it is `0x01` and the run of `0x00` bytes right before it, counted in
this call, has a length that is 3 modulo 256.  When it does, the bytes read in
the call are the unit followed by `00 00 00 01`.  When it does not, the loop
goes on with the byte stored.  So on `00 00 00 00 01 21` the call runs to the
end of the input and the unit is all six bytes, and on 259 zero bytes followed
by `01` the call ends there with a unit of 256 zero bytes. -/
theorem exact_marker_rule (s : state_t) (t : List Nat) (c : Nat) (rest : List Nat)
    (hfin : s.fin = t ++ c :: rest) (hlen : t.length + 1 < IN_SIZE)
    (hnd : no_detection [] t) :
    (detects t c ↔ (c = 1 ∧ trailing_zeros t % 256 = 3))
    ∧ (detects t c →
        ∃ u, t ++ [c] = u ++ marker ∧ (read_to_marker s).1 = 0
          ∧ unit_of (read_to_marker s).2 = u ∧ (read_to_marker s).2.in_len = u.length
          ∧ (read_to_marker s).2.fin = rest)
    ∧ (¬ detects t c →
        ∃ (f : List Nat) (m : Nat → Nat),
          read_to_marker s
            = read_loop rest { s with fin := f, in_ := m, in_len := t.length + 1 }
                (trailing_zeros (t ++ [c]) % 256)
          ∧ bytes m (t.length + 1) = t ++ [c])
    ∧ (¬ detects [0, 0, 0, 0] 1
        ∧ (read_to_marker (init_state [0, 0, 0, 0, 1, 0x21] 1)).2.fin = []
        ∧ unit_of (read_to_marker (init_state [0, 0, 0, 0, 1, 0x21] 1)).2
            = [0, 0, 0, 0, 1, 0x21])
    ∧ (detects (List.replicate 259 0) 1
        ∧ (read_to_marker (init_state (List.replicate 259 0 ++ 1 :: [0x21]) 1)).1 = 0
        ∧ unit_of (read_to_marker (init_state (List.replicate 259 0 ++ 1 :: [0x21]) 1)).2
            = List.replicate 256 0
        ∧ (read_to_marker (init_state (List.replicate 259 0 ++ 1 :: [0x21]) 1)).2.fin
            = [0x21]) := by
  obtain ⟨a, b⟩ := read_to_marker_next_byte s t c rest hfin hlen hnd
  refine ⟨Iff.rfl, a, b, ⟨by decide, by decide, by decide⟩, ?_⟩
  have hdet : detects (List.replicate 259 0) 1 := ⟨rfl, by rw [trailing_zeros_replicate]⟩
  obtain ⟨u, hu, h1, h2, _, h4⟩ := (read_to_marker_next_byte
    (init_state (List.replicate 259 0 ++ 1 :: [0x21]) 1) (List.replicate 259 0) 1 [0x21] rfl
    (by rw [List.length_replicate]; decide) (no_detection_replicate_zero 259)).1 hdet
  refine ⟨hdet, h1, ?_, h4⟩
  rw [h2]
  have e : List.replicate 259 0 ++ [1] = List.replicate 256 0 ++ marker := by
    have e1 : List.replicate 259 0 = List.replicate 256 0 ++ List.replicate 3 0 :=
      List.replicate_add 256 3 0
    rw [e1, List.append_assoc]
    exact congrArg (fun l => List.replicate 256 0 ++ l) (by decide)
  rw [e] at hu
  exact ((List.append_inj' hu rfl).1).symm

theorem exact_marker_rule_witness :
    ∃ u, [0x21, 5, 0, 0, 0] ++ [1] = u ++ marker
      ∧ (read_to_marker (init_state [0x21, 5, 0, 0, 0, 1, 0x25] 1)).1 = 0
      ∧ unit_of (read_to_marker (init_state [0x21, 5, 0, 0, 0, 1, 0x25] 1)).2 = u
      ∧ (read_to_marker (init_state [0x21, 5, 0, 0, 0, 1, 0x25] 1)).2.in_len = u.length
      ∧ (read_to_marker (init_state [0x21, 5, 0, 0, 0, 1, 0x25] 1)).2.fin = [0x25] :=
  (exact_marker_rule (init_state [0x21, 5, 0, 0, 0, 1, 0x25] 1) [0x21, 5, 0, 0, 0] 1 [0x25]
    rfl (by decide) (no_detection_of_no_marker _ _ (by decide))).2.1 (by decide)

/-! ## The default number of clients -/

theorem parse_options_no_m (opts : List option_t) :
    ∀ c : Int × Int, (∀ o ∈ opts, ∃ v, o = option_t.p v) →
      ∃ port, parse_options opts c = some (port, c.2) := by
  induction opts with
  | nil => intro c _; exact ⟨c.1, rfl⟩
  | cons o r ih =>
    intro c h
    obtain ⟨v, hv⟩ := h o (List.mem_cons_self _ _)
    rw [hv, parse_options]
    exact ih (v, c.2) (fun o2 h2 => h o2 (List.mem_cons_of_mem _ h2))

/-- Claim C14 fails on the code.  Without an option the program is configured
with `DEFAULT_MAX_CLIENTS`, which is 10, and so it is whenever no `-m` option
is given; the usage text of `exit_usage` says that the default is 100. -/
theorem default_max_clients_is_ten :
    configure [] false = some (5500, 10)
    ∧ (∀ opts : List option_t, (∀ o ∈ opts, ∃ v, o = option_t.p v) →
        ∃ port, configure opts false = some (port, 10))
    ∧ usage_text.getLast? = some "Max Clients defaults to 100"
    ∧ DEFAULT_MAX_CLIENTS ≠ usage_max_clients := by
  refine ⟨by decide, ?_, by decide, by decide⟩
  intro opts h
  obtain ⟨port, hp⟩ := parse_options_no_m opts (DEFAULT_PORT, DEFAULT_MAX_CLIENTS) h
  refine ⟨port, ?_⟩
  unfold configure
  rw [hp]
  have h10 : ¬ (DEFAULT_MAX_CLIENTS ≤ 0) := by decide
  simp only [Bool.false_eq_true, if_false, if_neg h10]
  rfl

/-! ## A connection on which no `send` fails -/

theorem send_loop_ok (src : Nat → Nat) :
    ∀ (fuel : Nat) (c : conn) (off len : Nat), len ≤ fuel →
      (∀ n, c.script n ≠ send_result.error) → (send_loop fuel c src off len).2 = 0 := by
  intro fuel
  induction fuel with
  | zero =>
    intro c off len hlen _
    rw [send_loop]
    omega
  | succ fuel ih =>
    intro c off len hlen hok
    rw [send_loop]
    by_cases h0 : len = 0
    · rw [if_pos h0]; exact h0
    · rw [if_neg h0]
      cases hs : c.script c.calls with
      | error => exact absurd hs (hok c.calls)
      | took k =>
        simp only []
        have hr : 1 ≤ min (k + 1) len := by
          rw [Nat.le_min]; omega
        exact ih _ _ _ (by omega) hok

theorem send_block_ok (w : net) (sock : Int) (src : Nat → Nat) (len : Nat)
    (hok : ∀ n, (w sock).script n ≠ send_result.error) :
    (send_block w sock src len).1 = 0 := by
  have h := send_loop_ok src len (w sock) 0 len (Nat.le_refl _) hok
  unfold send_block
  simp [h]

theorem send_frame_ok (s : state_t) (w : net) (sock : Int)
    (hok : ∀ n, (w sock).script n ≠ send_result.error) :
    (send_frame s w sock).1 = 0 := by
  have h1 := send_block_ok w sock (fun j => marker.getD j 0) 4 hok
  obtain ⟨_, _, _, hscr, _⟩ := send_block_spec w sock (fun j => marker.getD j 0) 4
  have h2 := send_block_ok (send_block w sock (fun j => marker.getD j 0) 4).2 sock s.in_
    s.in_len (by rw [hscr]; exact hok)
  rw [send_frame_eq, if_neg (by rw [h1]; decide)]
  exact h2

/-- The broadcast loop leaves the slots outside its range alone. -/
theorem broadcast_loop_outside :
    ∀ (n i : Nat) (s : state_t) (w : net) (k : Nat), (k < i ∨ i + n ≤ k) →
      (broadcast_loop n i s w).1.in_client k = s.in_client k := by
  intro n
  induction n with
  | zero => intro i s w k _; rfl
  | succ n ih =>
    intro i s w k hk
    rw [broadcast_loop]
    by_cases h0 : s.in_client i = 0
    · rw [if_pos h0]
      exact ih (i + 1) s w k (by omega)
    · rw [if_neg h0]
      by_cases hneg : (send_frame s w (s.in_client i)).1 < 0
      · simp only [if_pos hneg]
        rw [ih (i + 1) _ _ k (by omega)]
        simp [store]
        omega
      · simp only [if_neg hneg]
        exact ih (i + 1) s _ k (by omega)

/-- The broadcast loop leaves a connection alone that no slot of its range
holds. -/
theorem broadcast_loop_absent :
    ∀ (n i : Nat) (s : state_t) (w : net) (fd : Int),
      (∀ k, i ≤ k → k < i + n → s.in_client k = 0 ∨ s.in_client k ≠ fd) →
      (broadcast_loop n i s w).2 fd = w fd := by
  intro n
  induction n with
  | zero => intro i s w fd _; rfl
  | succ n ih =>
    intro i s w fd h
    rw [broadcast_loop]
    by_cases h0 : s.in_client i = 0
    · rw [if_pos h0]
      exact ih (i + 1) s w fd (fun k h1 h2 => h k (by omega) (by omega))
    · rw [if_neg h0]
      have hne : fd ≠ s.in_client i := by
        rcases h i (Nat.le_refl _) (by omega) with h1 | h1
        · exact absurd h1 h0
        · exact Ne.symm h1
      obtain ⟨so, _, _, _, _⟩ := send_frame_spec s w (s.in_client i)
      by_cases hneg : (send_frame s w (s.in_client i)).1 < 0
      · simp only [if_pos hneg]
        rw [ih (i + 1) _ _ fd (fun k h1 h2 => by
          have hki : k ≠ i := by omega
          simp only [store, if_neg hki]
          exact h k (by omega) (by omega))]
        rw [close_other _ _ _ hne, so fd hne]
      · simp only [if_neg hneg]
        rw [ih (i + 1) s _ fd (fun k h1 h2 => h k (by omega) (by omega))]
        exact so fd hne

/-- The broadcast loop on a connection that exactly one slot of its range holds
and on which no `send` fails: the slot keeps the connection, and the
connection has received the start code and the unit, and nothing else. -/
theorem broadcast_loop_unique :
    ∀ (n i : Nat) (s : state_t) (w : net) (j : Nat) (fd : Int),
      i ≤ j → j < i + n → s.in_client j = fd → fd ≠ 0 →
      (∀ k, i ≤ k → k < i + n → k ≠ j → s.in_client k ≠ fd) →
      (∀ m, (w fd).script m ≠ send_result.error) →
      (broadcast_loop n i s w).1.in_client j = fd
      ∧ ((broadcast_loop n i s w).2 fd).sent = (w fd).sent ++ marker ++ unit_of s
      ∧ ((broadcast_loop n i s w).2 fd).script = (w fd).script := by
  intro n
  induction n with
  | zero => intro i s w j fd h1 h2; omega
  | succ n ih =>
    intro i s w j fd hij hjn hj hfd huniq hok
    rw [broadcast_loop]
    by_cases hi : i = j
    · subst hi
      have h0 : ¬ (s.in_client i = 0) := by rw [hj]; exact hfd
      rw [if_neg h0]
      have hsf := send_frame_ok s w (s.in_client i) (by rw [hj]; exact hok)
      have hneg : ¬ ((send_frame s w (s.in_client i)).1 < 0) := by omega
      simp only [if_neg hneg]
      obtain ⟨_, sok, _, sscr, _⟩ := send_frame_spec s w (s.in_client i)
      have habs := broadcast_loop_absent n (i + 1) s (send_frame s w (s.in_client i)).2 fd
        (fun k h1 h2 => Or.inr (huniq k (by omega) (by omega) (by omega)))
      rw [broadcast_loop_outside n (i + 1) s _ i (Or.inl (by omega)), habs]
      rw [hj] at sok sscr hsf ⊢
      exact ⟨rfl, sok hsf, sscr⟩
    · have hne : s.in_client i ≠ fd := huniq i (Nat.le_refl _) (by omega) hi
      by_cases h0 : s.in_client i = 0
      · rw [if_pos h0]
        exact ih (i + 1) s w j fd (by omega) (by omega) hj hfd
          (fun k h1 h2 h3 => huniq k (by omega) (by omega) h3) hok
      · rw [if_neg h0]
        obtain ⟨so, _, _, _, _⟩ := send_frame_spec s w (s.in_client i)
        have hw1 : (send_frame s w (s.in_client i)).2 fd = w fd := so fd (Ne.symm hne)
        by_cases hneg : (send_frame s w (s.in_client i)).1 < 0
        · simp only [if_pos hneg]
          have hw2 : (close (send_frame s w (s.in_client i)).2 (s.in_client i)) fd = w fd := by
            rw [close_other _ _ _ (Ne.symm hne), hw1]
          have hstore : ∀ k, k ≠ i → store s.in_client i 0 k = s.in_client k := by
            intro k hk
            simp [store, hk]
          obtain ⟨a, b, c⟩ := ih (i + 1) { s with in_client := store s.in_client i 0 }
            (close (send_frame s w (s.in_client i)).2 (s.in_client i)) j fd (by omega) (by omega)
            (by show store s.in_client i 0 j = fd; rw [hstore j (Ne.symm hi)]; exact hj) hfd
            (fun k h1 h2 h3 => by
              show store s.in_client i 0 k ≠ fd
              rw [hstore k (by omega)]
              exact huniq k (by omega) (by omega) h3)
            (by rw [hw2]; exact hok)
          rw [hw2] at b c
          exact ⟨a, b, c⟩
        · simp only [if_neg hneg]
          obtain ⟨a, b, c⟩ := ih (i + 1) s (send_frame s w (s.in_client i)).2 j fd (by omega)
            (by omega) hj hfd (fun k h1 h2 h3 => huniq k (by omega) (by omega) h3)
            (by rw [hw1]; exact hok)
          rw [hw1] at b c
          exact ⟨a, b, c⟩

/-- The broadcast loop keeps a consumer whose writes succeed, and sends it the
start code and the unit. -/
theorem broadcast_loop_holds (s : state_t) (w : net) (j : Nat) (fd : Int)
    (h : holds_conn s w j fd) :
    holds_conn (broadcast_loop s.max_clients 0 s w).1 (broadcast_loop s.max_clients 0 s w).2 j fd
    ∧ ((broadcast_loop s.max_clients 0 s w).2 fd).sent = (w fd).sent ++ marker ++ unit_of s := by
  obtain ⟨hj, hs, hfd, hu, hok⟩ := h
  obtain ⟨a, b, c⟩ := broadcast_loop_unique s.max_clients 0 s w j fd (Nat.zero_le _) (by omega)
    hs hfd (fun k _ h2 h3 => hu k (by omega) h3) hok
  obtain ⟨f1, f2⟩ := broadcast_loop_frame s.max_clients 0 s w
  have hm : (broadcast_loop s.max_clients 0 s w).1.max_clients = s.max_clients := by rw [f1]
  refine ⟨⟨by rw [hm]; exact hj, a, hfd, ?_, by rw [c]; exact hok⟩, b⟩
  intro k hk hkj
  rw [hm] at hk
  rcases f2 k with h1 | h1
  · rw [h1]; exact hu k hk hkj
  · rw [h1]; exact Ne.symm hfd

/-! ## The stream of a consumer along a run -/

theorem holds_conn_congr (s s2 : state_t) (w : net) (j : Nat) (fd : Int)
    (hc : s2.in_client = s.in_client) (hm : s2.max_clients = s.max_clients)
    (h : holds_conn s w j fd) : holds_conn s2 w j fd := by
  unfold holds_conn at *
  rw [hc, hm]
  exact h

/-- The accept branch touches the accepted connection only. -/
theorem accept_branch_net_other (e : event) (s : state_t) (w : net) (other : Int)
    (h : other ≠ e.accepted) : (accept_branch e s w).2.2 other = w other := by
  by_cases hfull : find_slot s.in_client s.max_clients 0 = s.max_clients
  · rw [accept_branch_full e s w hfull]
    show (if e.accepted ≥ 0 then close (accept w e) e.accepted else accept w e) other = w other
    split
    · rw [close_other _ _ _ h, accept_other w e other h]
    · exact accept_other w e other h
  · by_cases hfd : e.accepted < 0
    · rw [accept_branch_failed e s w hfull hfd]
      exact accept_other w e other h
    · obtain ⟨so, _, _, _, _⟩ := send_block_spec (accept w e) e.accepted s.out s.out_len
      rw [accept_branch_accepted e s w hfull (by omega)]
      split
      · show (close (send_block (accept w e) e.accepted s.out s.out_len).2 e.accepted) other
          = w other
        rw [close_other _ _ _ h, so other h, accept_other w e other h]
      · show (send_block (accept w e) e.accepted s.out s.out_len).2 other = w other
        rw [so other h, accept_other w e other h]

/-- The slot that the accept branch has chosen is empty afterwards or holds
the accepted connection. -/
theorem accept_branch_slot (e : event) (s : state_t) (w : net)
    (hslot : find_slot s.in_client s.max_clients 0 ≠ s.max_clients) :
    (accept_branch e s w).2.1.in_client (find_slot s.in_client s.max_clients 0) = 0
    ∨ (accept_branch e s w).2.1.in_client (find_slot s.in_client s.max_clients 0)
        = e.accepted := by
  by_cases hfd : e.accepted < 0
  · rw [accept_branch_failed e s w hslot hfd]
    left
    simp [store]
  · rw [accept_branch_accepted e s w hslot (by omega)]
    split
    · left; simp [store]
    · right; simp [store]

/-- The accept branch leaves a populated consumer alone when the descriptor it
accepts is another one. -/
theorem accept_branch_holds (e : event) (s : state_t) (w : net) (j : Nat) (fd : Int)
    (h : holds_conn s w j fd) (hne : e.accepted ≠ fd) :
    holds_conn (accept_branch e s w).2.1 (accept_branch e s w).2.2 j fd
    ∧ (accept_branch e s w).2.2 fd = w fd := by
  obtain ⟨hj, hs, hfd, hu, hok⟩ := h
  obtain ⟨f1, f2⟩ := accept_branch_frame e s w
  obtain ⟨_, g2, g3, _⟩ := find_slot_spec s.in_client s.max_clients 0
  have hnet := accept_branch_net_other e s w fd (Ne.symm hne)
  have hm : (accept_branch e s w).2.1.max_clients = s.max_clients := by rw [f1]
  have hji : j ≠ find_slot s.in_client s.max_clients 0 := by
    intro hji
    have h0 := g3 (by rw [← hji]; omega)
    rw [← hji, hs] at h0
    exact hfd h0
  refine ⟨⟨by rw [hm]; exact hj, by rw [f2 j hji]; exact hs, hfd, ?_, by rw [hnet]; exact hok⟩,
    hnet⟩
  intro k hk hkj
  rw [hm] at hk
  by_cases hki : k = find_slot s.in_client s.max_clients 0
  · rw [hki]
    rcases accept_branch_slot e s w (by omega) with h1 | h1
    · rw [h1]; exact Ne.symm hfd
    · rw [h1]; exact hne
  · rw [f2 k hki]
    exact hu k hk hkj

/-- The ingest branch, or nothing when the input is not ready, on a populated
consumer whose writes succeed: it stays populated and receives the frame of
the unit of this round, if there is one. -/
theorem ingest_round_holds (fr : Bool) (s : state_t) (w : net) (r : state_t × net) (j : Nat)
    (fd : Int) (h : holds_conn s w j fd)
    (hr : (if fr then ingest_branch s w else some (s, w)) = some r) :
    holds_conn r.1 r.2 j fd ∧ (r.2 fd).sent = (w fd).sent ++ frames (ingest_units fr s) := by
  unfold ingest_units
  by_cases hf : fr = true
  · rw [if_pos hf] at hr ⊢
    obtain ⟨f, m, n, hrt⟩ := read_to_marker_frame s
    obtain ⟨o, l, c, hc⟩ := cache_update_frame (read_to_marker s).2
    have hh1 : holds_conn (read_to_marker s).2 w j fd :=
      holds_conn_congr s _ w j fd (by rw [hrt]) (by rw [hrt]) h
    unfold ingest_branch at hr
    simp only [] at hr
    by_cases h1 : (read_to_marker s).1 = EOF
    · rw [if_pos h1] at hr
      exact absurd hr (by simp)
    · rw [if_neg h1] at hr ⊢
      by_cases h2 : (read_to_marker s).2.in_len = 0
      · rw [if_pos h2] at hr ⊢
        rw [← Option.some.inj hr]
        exact ⟨hh1, by simp [frames]⟩
      · rw [if_neg h2] at hr ⊢
        have hh2 : holds_conn (cache_update (read_to_marker s).2) w j fd :=
          holds_conn_congr _ _ w j fd (by rw [hc]) (by rw [hc]) hh1
        have hunit : unit_of (cache_update (read_to_marker s).2)
            = unit_of (read_to_marker s).2 := by
          rw [hc]; rfl
        obtain ⟨a, b⟩ := broadcast_loop_holds (cache_update (read_to_marker s).2) w j fd hh2
        rw [← Option.some.inj hr]
        refine ⟨a, ?_⟩
        rw [b, hunit, frames_singleton, List.append_assoc]
  · rw [if_neg hf] at hr ⊢
    rw [← Option.some.inj hr]
    exact ⟨h, by simp [frames]⟩

/-- One round of the loop of `main` that does not end the loop, on a populated
consumer whose writes succeed, when the round accepts no connection under
the descriptor of the consumer. -/
theorem main_iteration_holds (e : event) (s : state_t) (w : net) (r : state_t × net) (j : Nat)
    (fd : Int) (h : holds_conn s w j fd) (hne : e.sock_ready = true → e.accepted ≠ fd)
    (hr : main_iteration e s w = some r) :
    holds_conn r.1 r.2 j fd ∧ (r.2 fd).sent = (w fd).sent ++ frames (round_units e s w) := by
  have key : ∀ a : Bool × state_t × net, holds_conn a.2.1 a.2.2 j fd → a.2.2 fd = w fd →
      (if a.1 then some a.2 else if e.fin_ready then ingest_branch a.2.1 a.2.2 else some a.2)
        = some r →
      holds_conn r.1 r.2 j fd
      ∧ (r.2 fd).sent
          = (w fd).sent ++ frames (if a.1 then [] else ingest_units e.fin_ready a.2.1) := by
    intro a ha hw hres
    by_cases hc : a.1 = true
    · rw [if_pos hc] at hres ⊢
      rw [← Option.some.inj hres]
      exact ⟨ha, by rw [hw]; simp [frames]⟩
    · rw [if_neg hc] at hres ⊢
      have hres2 : (if e.fin_ready then ingest_branch a.2.1 a.2.2 else some (a.2.1, a.2.2))
          = some r := hres
      obtain ⟨x, y⟩ := ingest_round_holds e.fin_ready a.2.1 a.2.2 r j fd ha hres2
      exact ⟨x, by rw [y, hw]⟩
  unfold main_iteration at hr
  unfold round_units
  by_cases hsr : e.sock_ready = true
  · simp only [if_pos hsr] at hr ⊢
    obtain ⟨t1, t2⟩ := accept_branch_holds e s w j fd h (hne hsr)
    exact key (accept_branch e s w) t1 t2 hr
  · simp only [if_neg hsr] at hr ⊢
    exact key (false, s, w) h rfl hr

/-- A run of the loop of `main` on a populated consumer whose writes succeed,
when no round accepts a connection under its descriptor: it stays populated
and receives the frames of the units of the run, in order. -/
theorem run_main_holds :
    ∀ (es : List event) (s : state_t) (w : net) (j : Nat) (fd : Int), holds_conn s w j fd →
      (∀ e ∈ es, e.sock_ready = true → e.accepted ≠ fd) →
      holds_conn (run_main es s w).1 (run_main es s w).2 j fd
      ∧ ((run_main es s w).2 fd).sent = (w fd).sent ++ frames (units_read es s w) := by
  intro es
  induction es with
  | nil =>
    intro s w j fd h _
    exact ⟨h, by simp [run_main, units_read, frames]⟩
  | cons e es ih =>
    intro s w j fd h hne
    rw [run_main, units_read]
    cases hm : main_iteration e s w with
    | none => exact ⟨h, by simp [frames]⟩
    | some r =>
      simp only []
      obtain ⟨a, b⟩ := main_iteration_holds e s w r j fd h
        (hne e (List.mem_cons_self _ _)) hm
      obtain ⟨c, d⟩ := ih r.1 r.2 j fd a (fun e2 h2 => hne e2 (List.mem_cons_of_mem _ h2))
      exact ⟨c, by rw [d, b, frames_append, List.append_assoc]⟩

/-- The accept branch on a connection on which no `send` fails, when a slot is
empty and no slot holds its descriptor: the connection is admitted, and it
has received the cache and nothing else. -/
theorem accept_branch_admits (e : event) (s : state_t) (w : net)
    (hslot : find_slot s.in_client s.max_clients 0 < s.max_clients) (hfd : 0 < e.accepted)
    (hfresh : ∀ k, k < s.max_clients → s.in_client k ≠ e.accepted)
    (hok : ∀ n, e.peer n ≠ send_result.error) :
    (accept_branch e s w).1 = false
    ∧ holds_conn (accept_branch e s w).2.1 (accept_branch e s w).2.2
        (find_slot s.in_client s.max_clients 0) e.accepted
    ∧ ((accept_branch e s w).2.2 e.accepted).sent = cache_of s := by
  have hfreshc := accept_same w e (by omega)
  have hscr : ∀ n, ((accept w e) e.accepted).script n ≠ send_result.error := by
    rw [hfreshc]; exact hok
  have hsb := send_block_ok (accept w e) e.accepted s.out s.out_len hscr
  obtain ⟨_, sok, _, sscr, _⟩ := send_block_spec (accept w e) e.accepted s.out s.out_len
  have hneg : ¬ ((send_block (accept w e) e.accepted s.out s.out_len).1 < 0) := by omega
  rw [accept_branch_accepted e s w (by omega) (by omega), if_neg hneg]
  refine ⟨rfl, ⟨hslot, by simp [store], by omega, ?_, ?_⟩, ?_⟩
  · intro k hk hki
    show store s.in_client (find_slot s.in_client s.max_clients 0) e.accepted k ≠ e.accepted
    simp only [store, if_neg hki]
    exact hfresh k hk
  · show ∀ n, ((send_block (accept w e) e.accepted s.out s.out_len).2 e.accepted).script n
      ≠ send_result.error
    rw [sscr]; exact hscr
  · show ((send_block (accept w e) e.accepted s.out s.out_len).2 e.accepted).sent = cache_of s
    rw [sok hsb, hfreshc]
    rfl

theorem ingest_branch_ne_none (s : state_t) (w : net) (h : (read_to_marker s).1 ≠ EOF) :
    ingest_branch s w ≠ none := by
  unfold ingest_branch
  simp only [if_neg h]
  by_cases h2 : (read_to_marker s).2.in_len = 0
  · rw [if_pos h2]; simp
  · rw [if_neg h2]; simp

/-- A round that ends the loop has read no unit. -/
theorem round_units_of_break (e : event) (s : state_t) (w : net)
    (h : main_iteration e s w = none) : round_units e s w = [] := by
  have key : ∀ a : Bool × state_t × net,
      (if a.1 then some a.2 else if e.fin_ready then ingest_branch a.2.1 a.2.2 else some a.2)
        = none →
      (if a.1 then [] else ingest_units e.fin_ready a.2.1) = [] := by
    intro a ha
    by_cases hc : a.1 = true
    · rw [if_pos hc]
    · rw [if_neg hc] at ha ⊢
      unfold ingest_units
      by_cases hf : e.fin_ready = true
      · rw [if_pos hf] at ha ⊢
        by_cases h1 : (read_to_marker a.2.1).1 = EOF
        · rw [if_pos h1]
        · exact absurd ha (ingest_branch_ne_none a.2.1 a.2.2 h1)
      · rw [if_neg hf]
  exact key _ h

/-- Claim C11.  A connection is accepted, a slot being empty, under a
descriptor that no slot holds and that no later round of the run accepts
again, and no `send` on it ever fails.  Then the accept branch sends it the
cache as it stands and nothing else.  When that round ends the loop, no unit
was read in it.  When it does not, the consumer is still in its slot at the end
of the run, and the bytes sent to it are that cache followed by the frames of
the units, not empty, that the rounds of the run have read from that round on,
in order, and nothing else; and every consumer that is populated before the
run and whose writes succeed is sent the frames of the same units in the same
order after what it had received before. -/
theorem consumer_stream (e0 : event) (es : List event) (s : state_t) (w : net)
    (hready : e0.sock_ready = true)
    (hslot : find_slot s.in_client s.max_clients 0 < s.max_clients)
    (hfd : 0 < e0.accepted)
    (hfresh : ∀ k, k < s.max_clients → s.in_client k ≠ e0.accepted)
    (hok : ∀ n, e0.peer n ≠ send_result.error)
    (hlater : ∀ e ∈ es, e.sock_ready = true → e.accepted ≠ e0.accepted) :
    ((accept_branch e0 s w).2.2 e0.accepted).sent = cache_of s
    ∧ (main_iteration e0 s w = none → round_units e0 s w = [])
    ∧ ((main_iteration e0 s w).isSome = true →
        ((run_main (e0 :: es) s w).2 e0.accepted).sent
            = cache_of s ++ frames (units_read (e0 :: es) s w)
        ∧ (run_main (e0 :: es) s w).1.in_client (find_slot s.in_client s.max_clients 0)
            = e0.accepted
        ∧ (∀ (j2 : Nat) (fd2 : Int), holds_conn s w j2 fd2 → fd2 ≠ e0.accepted →
            (∀ e ∈ es, e.sock_ready = true → e.accepted ≠ fd2) →
            ((run_main (e0 :: es) s w).2 fd2).sent
              = (w fd2).sent ++ frames (units_read (e0 :: es) s w))) := by
  obtain ⟨a1, a2, a3⟩ := accept_branch_admits e0 s w hslot hfd hfresh hok
  refine ⟨a3, round_units_of_break e0 s w, ?_⟩
  intro hr
  obtain ⟨r, hm⟩ := Option.isSome_iff_exists.1 hr
  have hrun : run_main (e0 :: es) s w = run_main es r.1 r.2 := by
    rw [run_main, hm]
  have hunits : units_read (e0 :: es) s w = round_units e0 s w ++ units_read es r.1 r.2 := by
    rw [units_read, hm]
  have hround : round_units e0 s w = ingest_units e0.fin_ready (accept_branch e0 s w).2.1 := by
    unfold round_units
    simp only [if_pos hready, a1, Bool.false_eq_true, if_false]
  have hrest : (if e0.fin_ready then
        ingest_branch (accept_branch e0 s w).2.1 (accept_branch e0 s w).2.2
      else some ((accept_branch e0 s w).2.1, (accept_branch e0 s w).2.2)) = some r := by
    rw [← hm]
    unfold main_iteration
    simp only [if_pos hready, a1, Bool.false_eq_true, if_false]
  obtain ⟨b1, b2⟩ := ingest_round_holds e0.fin_ready _ _ r _ _ a2 hrest
  obtain ⟨c1, c2⟩ := run_main_holds es r.1 r.2 _ _ b1 hlater
  refine ⟨?_, ?_, ?_⟩
  · rw [hrun, hunits, c2, b2, a3, hround, frames_append, List.append_assoc]
  · rw [hrun]
    exact c1.2.1
  · intro j2 fd2 h2 hne hl2
    obtain ⟨d1, d2⟩ := main_iteration_holds e0 s w r j2 fd2 h2 (fun _ => Ne.symm hne) hm
    obtain ⟨_, d4⟩ := run_main_holds es r.1 r.2 j2 fd2 d1 hl2
    rw [hrun, hunits, d4, d2, frames_append, List.append_assoc]

theorem consumer_stream_witness :
    ((run_main [join_event, ingest_event, ingest_event, ingest_event] demo_stream_state
        demo_net).2 join_event.accepted).sent
      = cache_of demo_stream_state
        ++ frames (units_read [join_event, ingest_event, ingest_event, ingest_event]
            demo_stream_state demo_net) :=
  ((consumer_stream join_event [ingest_event, ingest_event, ingest_event] demo_stream_state
    demo_net rfl (by decide) (by decide) (by decide)
    (fun _ h => send_result.noConfusion h) (by decide)).2.2 (by decide)).1

end Net264
